import Mathlib

/-!
# Inode tree of the simulated file system (`inode.c`)

A shallow embedding of `create_file`, `create_dir`, `find_inode_by_name`,
`create_inode`, `load_inodes` and `fs_shutdown`, followed by the properties
proved about them.

Modelling conventions.

* A `struct inode` is a value of `Inode`.  The array `entries` together with its
  length `num_entries` is one list of `size_t` slots; a slot holds either a raw
  word (a block index) or a pointer to a node.  Which of the two the code
  takes a slot for is decided by `is_directory`, exactly as in C.
* A C string is the list of its bytes before the terminating NUL.  `cstr` cuts a
  byte list at its first NUL, so `strcmp(a, b) == 0` is `cstr a = cstr b`.
* `inode_counter` and the external `allocate_block()` are explicit state
  (`Sys`).  The block allocator is given by the sequence of its answers:
  `disk k` is what the call number `k` (counted from 0) returns.
* An update through a pointer is a returned new value of the node pointed to.
  A node inside a tree is named by its path: the indices of the entries that
  lead to it from the root.
* `malloc`, `strdup` and `realloc` are taken to succeed, but for the case of
  the last point.
* An outer `Option` on a result is `none` where C gives the execution no
  meaning in this model or the call does not return: a directory slot that is
  not a node pointer is dereferenced, a negative block count reaches `malloc`
  in `create_file`, the process exits, `fread` is given bytes to store through
  a `NULL` buffer, or the recursion of `create_inode` is deeper than `fuel`.
* The superblock file is the list of the bytes not yet read.  `fread` is not
  checked by the code: where the stream ends early, the bytes of the buffer
  that are not read keep what they held.  What memory holds before it is
  written is a parameter: `junk c f i` is byte `i` of the destination number
  `f` of the call of `create_inode` made when `inode_counter` was `c`, so
  every location has content of its own.  `int` and `long` are stored least
  significant byte first.
* In `create_inode` a count below 0 makes the request to `malloc` larger than
  any memory: `malloc` returns `NULL` there, and a `NULL` buffer is the empty
  list.
-/

namespace InodeFS

/-! ## Data model -/

/-- Bytes per block, `#define BLOCKSIZE 4096`. -/
def BLOCKSIZE : Int := 4096

mutual
/-- The `struct inode`: `id`, `name`, `is_directory`, `is_readonly`, `filesize`
and the `entries` array (its length is `num_entries`). -/
inductive Inode where
  | mk (id : Int) (name : List Nat) (is_directory : Nat) (is_readonly : Nat)
       (filesize : Int) (entries : List Slot)
/-- One `size_t` element of `entries`. -/
inductive Slot where
  | word (w : Nat)
  | ptr (p : Inode)
end

def Inode.id : Inode → Int
  | .mk id _ _ _ _ _ => id

def Inode.name : Inode → List Nat
  | .mk _ name _ _ _ _ => name

def Inode.is_directory : Inode → Nat
  | .mk _ _ d _ _ _ => d

def Inode.is_readonly : Inode → Nat
  | .mk _ _ _ r _ _ => r

def Inode.filesize : Inode → Int
  | .mk _ _ _ _ sz _ => sz

def Inode.entries : Inode → List Slot
  | .mk _ _ _ _ _ es => es

/-- The field `num_entries`: the length of the `entries` array. -/
def Inode.num_entries (n : Inode) : Int := n.entries.length

/-- The node with its `entries` array replaced (and `num_entries` with it). -/
def Inode.set_entries : Inode → List Slot → Inode
  | .mk id name d r sz _, es => .mk id name d r sz es

/-- Whether a slot holds a node pointer. -/
def Slot.is_ptr : Slot → Bool
  | .ptr _ => true
  | .word _ => false

/-- The nodes the pointer slots of an array lead to, in array order. -/
def children_of : List Slot → List Inode
  | [] => []
  | .ptr c :: rest => c :: children_of rest
  | .word _ :: rest => children_of rest

/-- The raw words of an array, in array order. -/
def words_of : List Slot → List Nat
  | [] => []
  | .word w :: rest => w :: words_of rest
  | .ptr _ :: rest => words_of rest

/-- The child nodes of a node. -/
def Inode.children (n : Inode) : List Inode := children_of n.entries

/-- The block indices of a node. -/
def Inode.blocks (n : Inode) : List Nat := words_of n.entries

/-- Every slot of the array is a node pointer: what the loops over a
directory's entries rely on. -/
def all_ptrs (es : List Slot) : Prop := ∀ e ∈ es, e.is_ptr = true

/-! ## Strings and machine integers -/

/-- The C string held in a buffer: its bytes before the first NUL. -/
def cstr : List Nat → List Nat
  | [] => []
  | b :: bs => if b = 0 then [] else b :: cstr bs

/-- The test `!strcmp(a, b)`. -/
def streq (a b : List Nat) : Bool := decide (cstr a = cstr b)

/-- A value stored in an `int`: 32 bits, wrapping around. -/
def wrap32 (x : Int) : Int := (x + 2147483648) % 4294967296 - 2147483648

/-- The conversion `(size_t) x` of an `int` (64 bits). -/
def to_size_t (x : Int) : Nat := (x % 18446744073709551616).toNat

/-- The process globals the functions touch: `inode_counter`, and how many
times `allocate_block()` has been called. -/
structure Sys where
  inode_counter : Int
  alloc_calls : Nat
deriving DecidableEq, Repr

/-- The statement `inode_counter++` (the value used is the old one). -/
def Sys.bump (g : Sys) : Sys := { g with inode_counter := wrap32 (g.inode_counter + 1) }

/-! ## `create_file` -/

/-- The loop of lines 27-32: `some true` when a child that is not a directory
has the name, `some false` when the loop runs to its end. -/
def create_file_scan (name : List Nat) : List Slot → Option Bool
  | [] => some false
  | .word _ :: _ => none
  | .ptr c :: rest =>
    if streq c.name name && c.is_directory == 0 then some true
    else create_file_scan name rest

/-- The loop of lines 55-67, run for `n` iterations: the block indices stored,
or `none` as soon as `allocate_block()` answers `-1`; with the globals after
the calls made. -/
def reserve_blocks (disk : Nat → Int) : Nat → Sys → Option (List Slot) × Sys
  | 0, g => (some [], g)
  | n + 1, g =>
    let block_index := disk g.alloc_calls
    let g1 := { g with alloc_calls := g.alloc_calls + 1 }
    if block_index = -1 then (none, g1)
    else
      match reserve_blocks disk n g1 with
      | (none, g2) => (none, g2)
      | (some rest, g2) => (some (Slot.word (to_size_t block_index) :: rest), g2)

/-- Lines 49-52: `size_in_bytes / BLOCKSIZE`, one more when the remainder is
not zero (C division truncates toward zero). -/
def blocks_needed (size_in_bytes : Int) : Int :=
  Int.tdiv size_in_bytes BLOCKSIZE + (if Int.tmod size_in_bytes BLOCKSIZE ≠ 0 then 1 else 0)

/-- What a create call leaves behind: the pointer returned (`none` is `NULL`),
the parent node after the call, and the globals after the call. -/
structure Call where
  ret : Option Inode
  parent : Option Inode
  sys : Sys

/-- The function `create_file` (lines 21-74). -/
def create_file (disk : Nat → Int) (g : Sys) (parent : Option Inode) (name : List Nat)
    (readonly : Nat) (size_in_bytes : Int) : Option Call :=
  match parent with
  | none => some ⟨none, none, g⟩
  | some p =>
    match (if p.is_directory = 1 then create_file_scan name p.entries else some false) with
    | none => none
    | some true => some ⟨none, some p, g⟩
    | some false =>
      let id := g.inode_counter
      let g1 := g.bump
      let num_entries := blocks_needed size_in_bytes
      if num_entries < 0 then none
      else
        match reserve_blocks disk num_entries.toNat g1 with
        | (none, g2) => some ⟨none, some p, g2⟩
        | (some blocks, g2) =>
          let file_inode := Inode.mk id (cstr name) 0 (readonly % 256) size_in_bytes blocks
          some ⟨some file_inode, some (p.set_entries (p.entries ++ [Slot.ptr file_inode])), g2⟩

/-! ## `create_dir` -/

/-- The loop of lines 85-90: `some true` when a child that is a directory has
the name. -/
def create_dir_scan (name : List Nat) : List Slot → Option Bool
  | [] => some false
  | .word _ :: _ => none
  | .ptr c :: rest =>
    if streq c.name name && c.is_directory != 0 then some true
    else create_dir_scan name rest

/-- The function `create_dir` (lines 81-115). -/
def create_dir (g : Sys) (parent : Option Inode) (name : List Nat) : Option Call :=
  match parent with
  | none =>
    some ⟨some (Inode.mk g.inode_counter (cstr name) 1 0 0 []), none, g.bump⟩
  | some p =>
    if p.is_directory = 1 then
      match create_dir_scan name p.entries with
      | none => none
      | some true => some ⟨none, some p, g⟩
      | some false =>
        let inode_dir := Inode.mk g.inode_counter (cstr name) 1 0 0 []
        some ⟨some inode_dir, some (p.set_entries (p.entries ++ [Slot.ptr inode_dir])), g.bump⟩
    else some ⟨none, some p, g⟩

/-! ## `find_inode_by_name` -/

/-- The loop of lines 128-132: the first entry whose name compares equal. -/
def find_scan (name : List Nat) : List Slot → Option (Option Inode)
  | [] => some none
  | .word _ :: _ => none
  | .ptr c :: rest => if streq c.name name then some (some c) else find_scan name rest

/-- The function `find_inode_by_name` (lines 126-135); the inner `none` is
`NULL`. -/
def find_inode_by_name (parent : Inode) (name : List Nat) : Option (Option Inode) :=
  if parent.is_directory = 1 then find_scan name parent.entries else some none

/-! ## The superblock stream and `create_inode` -/

/-- The call `fread(buf, 1, n, f)` on the rest `s` of the stream: the `n` bytes
now in the buffer, and the rest of the stream.  Where the stream ends early
the bytes of the buffer behind the last one read keep what they held before:
`old i` is what byte `i` of the buffer held when the call was made. -/
def fread (old : Nat → Nat) (n : Nat) (s : List Nat) : List Nat × List Nat :=
  (s.take n ++ (List.range' s.length (n - s.length)).map old, s.drop n)

/-- The number a buffer holds, least significant byte first. -/
def le_nat : List Nat → Nat
  | [] => 0
  | b :: bs => b % 256 + 256 * le_nat bs

/-- The `int` held in a buffer of 4 bytes: the number they hold when it is
below `2 ^ 31`, and `2 ^ 32` less when it is not. -/
def int_of_bytes (bs : List Nat) : Int :=
  if le_nat bs % 4294967296 < 2147483648 then ((le_nat bs % 4294967296 : Nat) : Int)
  else ((le_nat bs % 4294967296 : Nat) : Int) - 4294967296

/-- The call `fread(entries, sizeof(long), k, f)`: `k` words of 8 bytes, one
behind the other in the buffer whose bytes held `old` before. -/
def read_longs (old : Nat → Nat) : Nat → List Nat → List Slot × List Nat
  | 0, s => ([], s)
  | k + 1, s =>
    let b := fread old 8 s
    let r := read_longs (fun i => old (i + 8)) k b.2
    (Slot.word (le_nat b.1) :: r.1, r.2)

/-- The loop of lines 162-164 for `k` iterations, `dec` being the recursive
call: the pointers stored in `entries[0]`, ..., `entries[k-1]`. -/
def link_entries (dec : Sys → List Nat → Option (Inode × Sys × List Nat)) :
    Nat → Sys → List Nat → Option (List Slot × Sys × List Nat)
  | 0, g, s => some ([], g, s)
  | k + 1, g, s =>
    match dec g s with
    | none => none
    | some (c, g1, s1) =>
      match link_entries dec k g1 s1 with
      | none => none
      | some (cs, g2, s2) => some (Slot.ptr c :: cs, g2, s2)

/-- The body of `create_inode` (lines 141-166) on the rest `s` of the
superblock file, `dec` being the recursive call of line 163: the node built,
the globals and the rest of the stream afterwards.  The destinations of the
reads are numbered in their order: 0 `id`, 1 `name_len`, 2 the name buffer,
3 `is_directory`, 4 `is_readonly`, 5 `filesize`, 6 `num_entries`, 7 the
`entries` buffer.

With a count below 0 the buffer is `NULL` (lines 149, 157).  When the stream
has ended, `fread` stores nothing and the call goes on with the empty buffer
(`Int.toNat` of such a count is 0, so that no byte is read and the loop of
line 162 does not run; the count itself, which the node keeps in C, is not
seen in the list).  When bytes are left, `fread` stores them through `NULL`
and the call does not return.  The result is `none` then, and when a
recursive call gives none. -/
def create_inode_body (junk : Int → Nat → Nat → Nat)
    (dec : Sys → List Nat → Option (Inode × Sys × List Nat))
    (g : Sys) (s : List Nat) : Option (Inode × Sys × List Nat) :=
  let g1 := g.bump
  let r_id := fread (junk g.inode_counter 0) 4 s
  let r_len := fread (junk g.inode_counter 1) 4 r_id.2
  let name_len := int_of_bytes r_len.1
  if name_len < 0 ∧ r_len.2 ≠ [] then none
  else
    let r_name := fread (junk g.inode_counter 2) name_len.toNat r_len.2
    let r_dir := fread (junk g.inode_counter 3) 1 r_name.2
    let r_ro := fread (junk g.inode_counter 4) 1 r_dir.2
    let r_size := fread (junk g.inode_counter 5) 4 r_ro.2
    let r_num := fread (junk g.inode_counter 6) 4 r_size.2
    let num_entries := int_of_bytes r_num.1
    if num_entries < 0 ∧ r_num.2 ≠ [] then none
    else
      let r_ent := read_longs (junk g.inode_counter 7) num_entries.toNat r_num.2
      let is_directory := le_nat r_dir.1
      if is_directory = 1 then
        match link_entries dec num_entries.toNat g1 r_ent.2 with
        | none => none
        | some (cs, g2, s2) =>
          some (Inode.mk (int_of_bytes r_id.1) r_name.1 is_directory (le_nat r_ro.1)
            (int_of_bytes r_size.1) cs, g2, s2)
      else
        some (Inode.mk (int_of_bytes r_id.1) r_name.1 is_directory (le_nat r_ro.1)
          (int_of_bytes r_size.1) r_ent.1, g1, r_ent.2)

/-- The function `create_inode` (lines 138-167).  `fuel` bounds the depth of
the recursion; the result is `none` when it is used up. -/
def create_inode (junk : Int → Nat → Nat → Nat) :
    Nat → Sys → List Nat → Option (Inode × Sys × List Nat)
  | 0 => fun _ _ => none
  | fuel + 1 => create_inode_body junk (create_inode junk fuel)

/-! ## Byte layouts -/

/-- The `w` low bytes of a number, least significant first. -/
def le_bytes : Nat → Nat → List Nat
  | 0, _ => []
  | w + 1, x => x % 256 :: le_bytes w (x / 256)

/-- The 4 bytes of an `int`. -/
def int_bytes (x : Int) : List Nat := le_bytes 4 (x % 4294967296).toNat

/-- The values an `int` holds. -/
def in_int (x : Int) : Prop := -2147483648 ≤ x ∧ x < 2147483648

/-- The 8 bytes of each word of a list, one word after the other. -/
def long_bytes : List Nat → List Nat
  | [] => []
  | w :: ws => le_bytes 8 w ++ long_bytes ws

mutual
/-- Modelled from the spec: the encoder of the superblock codec, which the
source does not contain ("for each node, in a fixed field order, emit: id,
name length followed by the raw name bytes, is_directory, is_readonly,
size_in_bytes, entry count, then the entry payload: for a file, the raw
block-index list; for a directory, recursively the encoding of each child, in
order, with no length prefix"). -/
def encode : Inode → List Nat
  | .mk id name d r sz es =>
    int_bytes id ++ (int_bytes name.length ++ (name ++ ([d % 256] ++ ([r % 256]
      ++ (int_bytes sz ++ (int_bytes es.length ++ encode_payload es))))))
/-- Modelled from the spec: the entry payload of `encode`, a block index as 8
bytes and a child as its own encoding. -/
def encode_payload : List Slot → List Nat
  | [] => []
  | .word w :: rest => le_bytes 8 w ++ encode_payload rest
  | .ptr c :: rest => encode c ++ encode_payload rest
end

mutual
/-- The stream `create_inode` takes a tree from: the fields as in `encode`,
then one word of 8 bytes for every entry (a block index; for a child the word
`slot c`, which the loop of lines 162-164 overwrites), then, for a directory,
the children one after the other. -/
def superblock (slot : Inode → Nat) : Inode → List Nat
  | .mk id name d r sz es =>
    int_bytes id ++ (int_bytes name.length ++ (name ++ ([d % 256] ++ ([r % 256]
      ++ (int_bytes sz ++ (int_bytes es.length
        ++ (superblock_words slot es ++ superblock_children slot es)))))))
/-- The 8-byte words of the entries of `superblock`. -/
def superblock_words (slot : Inode → Nat) : List Slot → List Nat
  | [] => []
  | .word w :: rest => le_bytes 8 w ++ superblock_words slot rest
  | .ptr c :: rest => le_bytes 8 (slot c) ++ superblock_words slot rest
/-- The children of `superblock`, one after the other. -/
def superblock_children (slot : Inode → Nat) : List Slot → List Nat
  | [] => []
  | .word _ :: rest => superblock_children slot rest
  | .ptr c :: rest => superblock slot c ++ superblock_children slot rest
end

mutual
/-- The number of bytes `create_inode` asks the stream for while it builds a
node: 18 and the name, 8 for every entry, and what its children ask for. -/
def span : Inode → Nat
  | .mk _ name _ _ _ es => 18 + name.length + 8 * es.length + span_children es
/-- The bytes the children among the entries ask for. -/
def span_children : List Slot → Nat
  | [] => 0
  | .word _ :: rest => span_children rest
  | .ptr c :: rest => span c + span_children rest
end

/-! ## The scenario of the specification

Root `"/"`, directory `"docs"` below it, file `"readme.txt"` of 10000 bytes
below `"docs"`; the allocator hands out the blocks 7, 8, 9, ... -/

/-- The globals of a fresh process. -/
def ex_sys : Sys := ⟨0, 0⟩

/-- An allocator that is never full: call number `k` answers `7 + k`. -/
def ex_disk : Nat → Int := fun k => 7 + k

/-- An allocator with two free blocks: the third call answers `-1`. -/
def ex_small_disk : Nat → Int := fun k => if k < 2 then 7 + k else -1

/-- The name `"/"`. -/
def ex_slash : List Nat := [47]

/-- The name `"docs"`. -/
def ex_docs_name : List Nat := [100, 111, 99, 115]

/-- The name `"readme.txt"`. -/
def ex_readme_name : List Nat := [114, 101, 97, 100, 109, 101, 46, 116, 120, 116]

/-- The root just made by `create_dir(NULL, "/")`. -/
def ex_root : Inode := Inode.mk 0 ex_slash 1 0 0 []

/-- The directory `"docs"` just made. -/
def ex_docs : Inode := Inode.mk 1 ex_docs_name 1 0 0 []

/-- The file `"readme.txt"`. -/
def ex_readme : Inode := Inode.mk 2 ex_readme_name 0 0 10000 [Slot.word 7, Slot.word 8, Slot.word 9]

/-- The whole tree of the scenario. -/
def ex_tree : Inode :=
  Inode.mk 0 ex_slash 1 0 0 [Slot.ptr (Inode.mk 1 ex_docs_name 1 0 0 [Slot.ptr ex_readme])]

/-- The root of the scenario when only `"docs"` has been made below it. -/
def ex_root_docs : Inode := Inode.mk 0 ex_slash 1 0 0 [Slot.ptr ex_docs]

/-! ## Trees that fit the superblock -/

mutual
/-- Whether every value in the tree fits the field of the stream that holds
it: `id`, `filesize`, the name length and the entry count an `int`, the two
flags a byte, a block index 64 bits; and whether the entries are what
`create_inode` takes them for: node pointers where `is_directory` is 1, raw
words where it is not. -/
def storable : Inode → Bool
  | .mk id name d r sz es =>
    decide (-2147483648 ≤ id) && decide (id < 2147483648)
      && decide (name.length < 2147483648) && decide (d < 256) && decide (r < 256)
      && decide (-2147483648 ≤ sz) && decide (sz < 2147483648)
      && decide (es.length < 2147483648) && storable_entries (d == 1) es
/-- The part of `storable` on the entries of a node; `dir` tells whether the
node has `is_directory == 1`. -/
def storable_entries (dir : Bool) : List Slot → Bool
  | [] => true
  | .word w :: rest =>
    !dir && decide (w < 18446744073709551616) && storable_entries dir rest
  | .ptr c :: rest => dir && storable c && storable_entries dir rest
end

mutual
/-- The number of nodes on the longest way down from a node, the node
counted: the depth the recursion of `create_inode` reaches on it. -/
def height : Inode → Nat
  | .mk _ _ _ _ _ es => height_entries es + 1
/-- The greatest `height` among the children in an array. -/
def height_entries : List Slot → Nat
  | [] => 0
  | .word _ :: rest => height_entries rest
  | .ptr c :: rest => max (height c) (height_entries rest)
end

/-! ## Trees built by calls -/

/-- The node a caller holds a pointer to: the one reached from `t` through
the entries with the indices `path`, one directory after the other. -/
def node_at : Inode → List Nat → Option Inode
  | t, [] => some t
  | t, i :: path =>
    match t.entries[i]? with
    | some (Slot.ptr c) => node_at c path
    | _ => none

/-- The tree `t` once the node at `path` has become `p1`: what a write
through the pointer to that node does to the tree. -/
def put_at : Inode → List Nat → Inode → Inode
  | _, [], p1 => p1
  | t, i :: path, p1 =>
    match t.entries[i]? with
    | some (Slot.ptr c) => t.set_entries (t.entries.set i (Slot.ptr (put_at c path p1)))
    | _ => t

/-- The trees calls of `create_dir` and `create_file` build, with the globals
they leave: a root made by `create_dir` with parent `NULL`, then any calls of
`create_file` and `create_dir` (failed ones too) whose parent is a directory
of the tree.  The arguments are what their C types and the fields of the
superblock hold: a name shorter than `2 ^ 31` bytes, a size that is a
non-negative `int`, and a parent whose entry count stays an `int`. -/
inductive Built (disk : Nat → Int) : Sys → Inode → Prop
  | root (g : Sys) (name : List Nat) (r : Call) (d : Inode)
      (hg : in_int g.inode_counter) (hname : (cstr name).length < 2147483648)
      (hcall : create_dir g none name = some r) (hret : r.ret = some d) :
      Built disk r.sys d
  | file (g : Sys) (t : Inode) (path : List Nat) (p : Inode) (name : List Nat) (readonly : Nat)
      (size_in_bytes : Int) (r : Call) (p1 : Inode)
      (hb : Built disk g t) (hp : node_at t path = some p) (hdir : p.is_directory = 1)
      (hname : (cstr name).length < 2147483648)
      (hsize : 0 ≤ size_in_bytes ∧ size_in_bytes < 2147483648)
      (hroom : p.entries.length + 1 < 2147483648)
      (hcall : create_file disk g (some p) name readonly size_in_bytes = some r)
      (hpar : r.parent = some p1) :
      Built disk r.sys (put_at t path p1)
  | dir (g : Sys) (t : Inode) (path : List Nat) (p : Inode) (name : List Nat) (r : Call)
      (p1 : Inode)
      (hb : Built disk g t) (hp : node_at t path = some p) (hdir : p.is_directory = 1)
      (hname : (cstr name).length < 2147483648)
      (hroom : p.entries.length + 1 < 2147483648)
      (hcall : create_dir g (some p) name = some r)
      (hpar : r.parent = some p1) :
      Built disk r.sys (put_at t path p1)

/-! ## `load_inodes` and `fs_shutdown` -/

/-- The function `load_inodes` (lines 174-189).  `superblock_file` is what the
file `"superblock"` holds, `none` when it cannot be opened: the process then
exits and nothing is returned.  Else the node `create_inode` builds from the
file is returned as it is. -/
def load_inodes (junk : Int → Nat → Nat → Nat) (fuel : Nat) (g : Sys)
    (superblock_file : Option (List Nat)) : Option (Inode × Sys) :=
  match superblock_file with
  | none => none
  | some s =>
    match create_inode junk fuel g s with
    | none => none
    | some (root_inode, g1, _) => some (root_inode, g1)

mutual
/-- The function `fs_shutdown` (lines 199-217) on a node that is not `NULL`:
the nodes released, in the order of the calls `free(inode)`.  A node is named
by its place: `addr` is the list of the entry indices that lead to it from the
node the first call was made on. -/
def fs_shutdown_node (addr : List Nat) : Inode → Option (List (List Nat))
  | .mk _ _ d _ _ es =>
    if d ≠ 0 then
      match fs_shutdown_loop addr 0 es with
      | none => none
      | some freed => some (freed ++ [addr])
    else some [addr]
/-- The loop of lines 206-208 from the entry with index `i` on.  An entry
that holds 0 is `NULL`, on which `fs_shutdown` returns at once; an entry that
holds another raw word leads nowhere. -/
def fs_shutdown_loop (addr : List Nat) : Nat → List Slot → Option (List (List Nat))
  | _, [] => some []
  | i, .word w :: rest => if w = 0 then fs_shutdown_loop addr (i + 1) rest else none
  | i, .ptr c :: rest =>
    match fs_shutdown_node (addr ++ [i]) c with
    | none => none
    | some freed =>
      match fs_shutdown_loop addr (i + 1) rest with
      | none => none
      | some more => some (freed ++ more)
end

/-- The function `fs_shutdown` (lines 199-217): the nodes released, in order,
and the globals afterwards. -/
def fs_shutdown (g : Sys) (inode : Option Inode) : Option (List (List Nat) × Sys) :=
  match inode with
  | none => some ([], g)
  | some n =>
    match fs_shutdown_node [] n with
    | none => none
    | some freed => some (freed, g)

mutual
/-- The order of release the specification asks for: the sub-trees of the
children of a node, in the order of the children, and then the node. -/
def postorder (addr : List Nat) : Inode → List (List Nat)
  | .mk _ _ _ _ _ es => postorder_children addr 0 es ++ [addr]
/-- The part of `postorder` for the children from index `i` on. -/
def postorder_children (addr : List Nat) : Nat → List Slot → List (List Nat)
  | _, [] => []
  | i, .word _ :: rest => postorder_children addr (i + 1) rest
  | i, .ptr c :: rest => postorder (addr ++ [i]) c ++ postorder_children addr (i + 1) rest
end

/-! ## Sequences of calls -/

/-- One call made by the process.  The node arguments are whatever the
pointers of the caller lead to when the call is made. -/
inductive Op where
  | file (parent : Option Inode) (name : List Nat) (readonly : Nat) (size_in_bytes : Int)
  | dir (parent : Option Inode) (name : List Nat)
  | shutdown (inode : Option Inode)

/-- The id of the node a create call has returned, if it has returned one. -/
def new_id (r : Call) : List Int :=
  match r.ret with
  | some n => [n.id]
  | none => []

/-- The calls made one after the other: the globals after the last one and
the ids of the nodes created, the oldest first. -/
def run_calls (disk : Nat → Int) : Sys → List Op → Option (Sys × List Int)
  | g, [] => some (g, [])
  | g, .file parent name readonly size_in_bytes :: ops =>
    match create_file disk g parent name readonly size_in_bytes with
    | none => none
    | some r =>
      match run_calls disk r.sys ops with
      | none => none
      | some (g1, ids) => some (g1, new_id r ++ ids)
  | g, .dir parent name :: ops =>
    match create_dir g parent name with
    | none => none
    | some r =>
      match run_calls disk r.sys ops with
      | none => none
      | some (g1, ids) => some (g1, new_id r ++ ids)
  | g, .shutdown inode :: ops =>
    match fs_shutdown g inode with
    | none => none
    | some (_, g0) => run_calls disk g0 ops

/-- The trees calls of `create_dir` and `create_file` on directories build,
whatever the arguments: `Built` without its bounds on the arguments. -/
inductive Grown (disk : Nat → Int) : Sys → Inode → Prop
  | root (g : Sys) (name : List Nat) (r : Call) (d : Inode)
      (hcall : create_dir g none name = some r) (hret : r.ret = some d) :
      Grown disk r.sys d
  | file (g : Sys) (t : Inode) (path : List Nat) (p : Inode) (name : List Nat) (readonly : Nat)
      (size_in_bytes : Int) (r : Call) (p1 : Inode)
      (hb : Grown disk g t) (hp : node_at t path = some p) (hdir : p.is_directory = 1)
      (hcall : create_file disk g (some p) name readonly size_in_bytes = some r)
      (hpar : r.parent = some p1) :
      Grown disk r.sys (put_at t path p1)
  | dir (g : Sys) (t : Inode) (path : List Nat) (p : Inode) (name : List Nat) (r : Call)
      (p1 : Inode)
      (hb : Grown disk g t) (hp : node_at t path = some p) (hdir : p.is_directory = 1)
      (hcall : create_dir g (some p) name = some r)
      (hpar : r.parent = some p1) :
      Grown disk r.sys (put_at t path p1)

/-- The name and the kind of every child in an array: the C string its name
holds, and whether it is a file (`is_directory` is 0). -/
def sibling_keys (es : List Slot) : List (List Nat × Bool) :=
  (children_of es).map (fun c => (cstr c.name, c.is_directory == 0))

mutual
/-- The shape the create functions keep: a node is a file (`is_directory` 0)
whose entries are raw words, or a directory (`is_directory` 1) whose entries
are pointers to nodes of that shape, no two of them with the same name and the
same kind. -/
def sound : Inode → Prop
  | .mk _ _ d _ _ es => (d = 0 ∨ d = 1) ∧ sound_entries d es ∧ (sibling_keys es).Nodup
/-- The part of `sound` on the entries of a node with `is_directory = d`. -/
def sound_entries (d : Nat) : List Slot → Prop
  | [] => True
  | .word _ :: rest => d = 0 ∧ sound_entries d rest
  | .ptr c :: rest => d = 1 ∧ sound c ∧ sound_entries d rest
end

mutual
/-- The number of block indices that end the stream of a tree: the entries of
the node stored last, when that node is a file. -/
def tail_words : Inode → Nat
  | .mk _ _ d _ _ es => if d = 1 then tail_words_children es else es.length
/-- The block indices that end the streams of the children of a directory:
those of its last child. -/
def tail_words_children : List Slot → Nat
  | [] => 0
  | .word _ :: rest => tail_words_children rest
  | .ptr c :: rest => if rest.isEmpty then tail_words c else tail_words_children rest
end

/-- Memory in which every byte that has not been written is 0. -/
def zero_memory : Int → Nat → Nat → Nat := fun _ _ _ => 0

/-- Memory in which every byte that has not been written is 255. -/
def ones_memory : Int → Nat → Nat → Nat := fun _ _ _ => 255

/-- Memory in which the three locations that steer `create_inode` hold zeros
before they are written: `name_len` (destination 1), `is_directory` (3) and
`num_entries` (6).  The other locations (the id, the name buffer, the readonly
flag, the size, the `entries` buffer) hold any bytes. -/
def steady (junk : Int → Nat → Nat → Nat) : Prop :=
  ∀ c i, junk c 1 i = 0 ∧ junk c 3 i = 0 ∧ junk c 6 i = 0

/-- The scenario with the last 9 bytes of its stream missing: the third block
index of `"readme.txt"` and the top byte of the second are not in the file. -/
def ex_tree_cut : Inode :=
  Inode.mk 0 ex_slash 1 0 0 [Slot.ptr (Inode.mk 1 ex_docs_name 1 0 0
    [Slot.ptr (Inode.mk 2 ex_readme_name 0 0 10000 [Slot.word 7, Slot.word 8, Slot.word 0])])]

/-- The scenario with the block indices `ws` for `"readme.txt"`. -/
def ex_tree_blocks (ws : List Nat) : Inode :=
  Inode.mk 0 ex_slash 1 0 0 [Slot.ptr (Inode.mk 1 ex_docs_name 1 0 0
    [Slot.ptr (Inode.mk 2 ex_readme_name 0 0 10000 (ws.map Slot.word))])]

/-- A process on a disk with two free blocks: the root is made, a file of
10000 bytes is refused for lack of a third block, `"docs"` is made, the tree
is torn down and a new root is made. -/
def ex_calls : List Op :=
  [Op.dir none ex_slash,
   Op.file (some ex_root) ex_readme_name 0 10000,
   Op.dir (some ex_root) ex_docs_name,
   Op.shutdown (some (Inode.mk 0 ex_slash 1 0 0 [Slot.ptr (Inode.mk 2 ex_docs_name 1 0 0 [])])),
   Op.dir none ex_slash]

/-- The root with a file `"a"` and then a directory `"a"` below it. -/
def ex_two_a : Inode :=
  Inode.mk 0 ex_slash 1 0 0
    [Slot.ptr (Inode.mk 1 [97] 0 0 0 []), Slot.ptr (Inode.mk 2 [97] 1 0 0 [])]

/-- The file `"readme.txt"` after `create_file(readme, "x", 0, 0)`: a pointer
to the new file stands behind its three block indices. -/
def ex_readme_grown : Inode :=
  Inode.mk 2 ex_readme_name 0 0 10000
    [Slot.word 7, Slot.word 8, Slot.word 9, Slot.ptr (Inode.mk 3 [120] 0 0 0 [])]

/-- The root with only the file `"a"` below it. -/
def ex_one_a : Inode := Inode.mk 0 ex_slash 1 0 0 [Slot.ptr (Inode.mk 1 [97] 0 0 0 [])]

/-! ## Basic facts -/

@[simp] theorem set_entries_entries (p : Inode) (es : List Slot) : (p.set_entries es).entries = es := by
  cases p; rfl

@[simp] theorem set_entries_is_directory (p : Inode) (es : List Slot) :
    (p.set_entries es).is_directory = p.is_directory := by
  cases p; rfl

theorem children_of_append (a b : List Slot) :
    children_of (a ++ b) = children_of a ++ children_of b := by
  induction a with
  | nil => rfl
  | cons e rest ih => cases e <;> simp [children_of, ih]

theorem all_ptrs_cons {e : Slot} {es : List Slot} (h : all_ptrs (e :: es)) :
    e.is_ptr = true ∧ all_ptrs es :=
  ⟨h e (List.mem_cons_self _ _), fun x hx => h x (List.mem_cons_of_mem _ hx)⟩

theorem all_ptrs_append {a b : List Slot} (ha : all_ptrs a) (hb : all_ptrs b) :
    all_ptrs (a ++ b) := by
  intro e he
  rcases List.mem_append.mp he with h | h
  · exact ha e h
  · exact hb e h

theorem cstr_idem (a : List Nat) : cstr (cstr a) = cstr a := by
  induction a with
  | nil => rfl
  | cons b bs ih =>
    by_cases hb : b = 0
    · simp [cstr, hb]
    · simp [cstr, hb, ih]

theorem streq_cstr_self (name : List Nat) : streq (cstr name) name = true := by
  simp [streq, cstr_idem]

/-- On an array of node pointers the loop of `create_file` finds whether some
child that is not a directory has the name. -/
theorem create_file_scan_eq (name : List Nat) (es : List Slot) (h : all_ptrs es) :
    create_file_scan name es
      = some ((children_of es).any (fun c => streq c.name name && c.is_directory == 0)) := by
  induction es with
  | nil => rfl
  | cons e rest ih =>
    obtain ⟨he, hrest⟩ := all_ptrs_cons h
    cases e with
    | word w => simp [Slot.is_ptr] at he
    | ptr c =>
      by_cases hc : (streq c.name name && c.is_directory == 0) = true
      · simp [create_file_scan, children_of, hc]
      · simp only [Bool.not_eq_true] at hc
        simp [create_file_scan, children_of, hc, ih hrest]

theorem create_dir_scan_eq (name : List Nat) (es : List Slot) (h : all_ptrs es) :
    create_dir_scan name es
      = some ((children_of es).any (fun c => streq c.name name && c.is_directory != 0)) := by
  induction es with
  | nil => rfl
  | cons e rest ih =>
    obtain ⟨he, hrest⟩ := all_ptrs_cons h
    cases e with
    | word w => simp [Slot.is_ptr] at he
    | ptr c =>
      by_cases hc : (streq c.name name && c.is_directory != 0) = true
      · simp [create_dir_scan, children_of, hc]
      · simp only [Bool.not_eq_true] at hc
        simp [create_dir_scan, children_of, hc, ih hrest]

theorem find_scan_eq (name : List Nat) (es : List Slot) (h : all_ptrs es) :
    find_scan name es = some ((children_of es).find? (fun c => streq c.name name)) := by
  induction es with
  | nil => rfl
  | cons e rest ih =>
    obtain ⟨he, hrest⟩ := all_ptrs_cons h
    cases e with
    | word w => simp [Slot.is_ptr] at he
    | ptr c =>
      by_cases hc : streq c.name name = true
      · simp [find_scan, children_of, hc]
      · simp only [Bool.not_eq_true] at hc
        simp [find_scan, children_of, hc, ih hrest]

/-- The globals after `n` more calls of `allocate_block()`. -/
theorem reserve_blocks_ok (disk : Nat → Int) (n : Nat) (g : Sys)
    (h : ∀ i, i < n → disk (g.alloc_calls + i) ≠ -1) :
    reserve_blocks disk n g
      = (some ((List.range n).map (fun i => Slot.word (to_size_t (disk (g.alloc_calls + i))))),
         { g with alloc_calls := g.alloc_calls + n }) := by
  induction n generalizing g with
  | zero => rfl
  | succ n ih =>
    have h0 : disk g.alloc_calls ≠ -1 := by simpa using h 0 (Nat.succ_pos n)
    have hrest : ∀ i, i < n →
        disk (({ g with alloc_calls := g.alloc_calls + 1 } : Sys).alloc_calls + i) ≠ -1 := by
      intro i hi
      have := h (i + 1) (Nat.succ_lt_succ hi)
      simpa [Nat.add_assoc, Nat.add_comm 1 i] using this
    simp only [reserve_blocks, h0, if_false, ih _ hrest]
    simp [List.range_succ_eq_map, Nat.add_assoc, Nat.add_comm 1, Function.comp_def]

theorem reserve_blocks_full (disk : Nat → Int) (n N : Nat) (g : Sys) (hN : N < n)
    (hok : ∀ i, i < N → disk (g.alloc_calls + i) ≠ -1)
    (hfull : disk (g.alloc_calls + N) = -1) :
    reserve_blocks disk n g = (none, { g with alloc_calls := g.alloc_calls + N + 1 }) := by
  induction N generalizing g n with
  | zero =>
    obtain ⟨m, rfl⟩ : ∃ m, n = m + 1 := ⟨n - 1, by omega⟩
    have h0 : disk g.alloc_calls = -1 := by simpa using hfull
    simp [reserve_blocks, h0]
  | succ N ih =>
    obtain ⟨m, rfl⟩ : ∃ m, n = m + 1 := ⟨n - 1, by omega⟩
    have h0 : disk g.alloc_calls ≠ -1 := by simpa using hok 0 (Nat.succ_pos N)
    have hrest : ∀ i, i < N →
        disk (({ g with alloc_calls := g.alloc_calls + 1 } : Sys).alloc_calls + i) ≠ -1 := by
      intro i hi
      have := hok (i + 1) (Nat.succ_lt_succ hi)
      simpa [Nat.add_assoc, Nat.add_comm 1 i] using this
    have hf : disk (({ g with alloc_calls := g.alloc_calls + 1 } : Sys).alloc_calls + N) = -1 := by
      simpa [Nat.add_assoc, Nat.add_comm 1 N] using hfull
    simp only [reserve_blocks, h0, if_false, ih m _ (by omega) hrest hf]
    simp [Nat.add_assoc, Nat.add_comm 1]

theorem blocks_needed_nonneg (s : Int) (hs : 0 ≤ s) :
    blocks_needed s = (s + 4095) / 4096 := by
  unfold blocks_needed BLOCKSIZE
  rw [Int.tdiv_eq_ediv hs (by norm_num), Int.tmod_eq_emod hs (by norm_num)]
  split <;> omega

theorem blocks_needed_ceil (s : Int) (hs : 0 ≤ s) :
    blocks_needed s = ⌈(s : ℚ) / 4096⌉ := by
  rw [blocks_needed_nonneg s hs]
  symm
  rw [Int.ceil_eq_iff]
  have h4 : (0 : ℚ) < 4096 := by norm_num
  constructor
  · rw [lt_div_iff₀ h4]
    have : ((s + 4095) / 4096 - 1) * 4096 < s := by omega
    exact_mod_cast this
  · rw [div_le_iff₀ h4]
    have : s ≤ ((s + 4095) / 4096) * 4096 := by omega
    exact_mod_cast this


/-! ## `create_file`: block count -/

theorem create_file_eq_of_ok (disk : Nat → Int) (g : Sys) (p : Inode) (name : List Nat)
    (readonly : Nat) (s : Int)
    (hscan : (if p.is_directory = 1 then create_file_scan name p.entries else some false)
      = some false)
    (hn : 0 ≤ blocks_needed s)
    (hdisk : ∀ i, i < (blocks_needed s).toNat → disk (g.alloc_calls + i) ≠ -1) :
    create_file disk g (some p) name readonly s
      = some ⟨some (Inode.mk g.inode_counter (cstr name) 0 (readonly % 256) s
            ((List.range (blocks_needed s).toNat).map
              (fun i => Slot.word (to_size_t (disk (g.alloc_calls + i)))))),
          some (p.set_entries (p.entries ++ [Slot.ptr
            (Inode.mk g.inode_counter (cstr name) 0 (readonly % 256) s
              ((List.range (blocks_needed s).toNat).map
                (fun i => Slot.word (to_size_t (disk (g.alloc_calls + i))))))])),
          { g.bump with alloc_calls := g.alloc_calls + (blocks_needed s).toNat }⟩ := by
  have hr := reserve_blocks_ok disk (blocks_needed s).toNat g.bump (by simpa [Sys.bump] using hdisk)
  simp only [create_file, hscan, not_lt.mpr hn, if_false, hr]
  rfl

theorem create_file_scan_false (name : List Nat) (p : Inode)
    (hp : p.is_directory = 1 → all_ptrs p.entries)
    (hdup : ∀ c ∈ p.children, ¬ (streq c.name name = true ∧ c.is_directory = 0)) :
    (if p.is_directory = 1 then create_file_scan name p.entries else some false) = some false := by
  split
  · next hd =>
    rw [create_file_scan_eq name p.entries (hp hd)]
    congr 1
    rw [List.any_eq_false]
    intro c hc
    have := hdup c hc
    simpa using this
  · rfl

/-- C2: for a size `s ≥ 0`, a present parent without a same-named file child
and an allocator that never answers `-1`, `create_file` succeeds, the new file
has exactly `ceil(s / 4096)` block indices, and its entry number `i` is the
answer of the call number `i` of `allocate_block()` made by it. -/
theorem create_file_block_count (disk : Nat → Int) (g : Sys) (p : Inode) (name : List Nat)
    (readonly : Nat) (s : Int) (hs : 0 ≤ s)
    (hp : p.is_directory = 1 → all_ptrs p.entries)
    (hdup : ∀ c ∈ p.children, ¬ (streq c.name name = true ∧ c.is_directory = 0))
    (hdisk : ∀ k, disk k ≠ -1) :
    ∃ f p1 g1, create_file disk g (some p) name readonly s = some ⟨some f, some p1, g1⟩
      ∧ (f.entries.length : Int) = ⌈(s : ℚ) / 4096⌉
      ∧ f.entries = (List.range f.entries.length).map
          (fun i => Slot.word (to_size_t (disk (g.alloc_calls + i)))) := by
  have hn : 0 ≤ blocks_needed s := by rw [blocks_needed_nonneg s hs]; omega
  refine ⟨_, _, _, create_file_eq_of_ok disk g p name readonly s
    (create_file_scan_false name p hp hdup) hn (fun i _ => hdisk _), ?_, ?_⟩
  · simp only [Inode.entries, List.length_map, List.length_range]
    rw [← blocks_needed_ceil s hs]
    exact Int.toNat_of_nonneg hn
  · simp [Inode.entries]

/-! ## `create_file` and `create_dir`: names already taken -/

theorem create_dir_eq_of_ok (g : Sys) (p : Inode) (name : List Nat)
    (hdir : p.is_directory = 1) (hscan : create_dir_scan name p.entries = some false) :
    create_dir g (some p) name
      = some ⟨some (Inode.mk g.inode_counter (cstr name) 1 0 0 []),
          some (p.set_entries (p.entries ++ [Slot.ptr (Inode.mk g.inode_counter (cstr name) 1 0 0 [])])),
          g.bump⟩ := by
  simp [create_dir, hdir, hscan]

/-- C3: in a directory that has no child of the name, with enough free blocks,
a first `create_file` of the name succeeds, a second `create_file` of the same
name returns `NULL` (and changes nothing), and a `create_dir` of that name
after them succeeds. -/
theorem same_name_file_then_dir (disk : Nat → Int) (g : Sys) (p : Inode) (name : List Nat)
    (ro1 ro2 : Nat) (s1 s2 : Int)
    (hdir : p.is_directory = 1) (hp : all_ptrs p.entries)
    (hfresh : ∀ c ∈ p.children, streq c.name name = false)
    (hs1 : 0 ≤ s1)
    (hdisk : ∀ i, i < (blocks_needed s1).toNat → disk (g.alloc_calls + i) ≠ -1) :
    ∃ f p1 g1, create_file disk g (some p) name ro1 s1 = some ⟨some f, some p1, g1⟩
      ∧ create_file disk g1 (some p1) name ro2 s2 = some ⟨none, some p1, g1⟩
      ∧ ∃ d p2 g2, create_dir g1 (some p1) name = some ⟨some d, some p2, g2⟩ := by
  have hn : 0 ≤ blocks_needed s1 := by rw [blocks_needed_nonneg s1 hs1]; omega
  have hscan := create_file_scan_false name p (fun _ => hp)
    (fun c hc h => by simp [hfresh c hc] at h)
  refine ⟨_, _, _, create_file_eq_of_ok disk g p name ro1 s1 hscan hn hdisk, ?_, ?_⟩
  · have hp1 : all_ptrs (p.entries ++ [Slot.ptr
        (Inode.mk g.inode_counter (cstr name) 0 (ro1 % 256) s1
          ((List.range (blocks_needed s1).toNat).map
            (fun i => Slot.word (to_size_t (disk (g.alloc_calls + i))))))]) :=
      all_ptrs_append hp (by intro e he; simp at he; subst he; rfl)
    simp only [create_file, set_entries_is_directory, hdir, if_true, set_entries_entries,
      create_file_scan_eq name _ hp1, children_of_append]
    simp [children_of, Inode.name, Inode.is_directory, streq_cstr_self]
  · have hp1 : all_ptrs (p.entries ++ [Slot.ptr
        (Inode.mk g.inode_counter (cstr name) 0 (ro1 % 256) s1
          ((List.range (blocks_needed s1).toNat).map
            (fun i => Slot.word (to_size_t (disk (g.alloc_calls + i))))))]) :=
      all_ptrs_append hp (by intro e he; simp at he; subst he; rfl)
    refine ⟨_, _, _, create_dir_eq_of_ok _ _ name (by simpa using hdir) ?_⟩
    rw [set_entries_entries, create_dir_scan_eq name _ hp1, children_of_append]
    congr 1
    rw [List.any_eq_false]
    intro c hc
    rcases List.mem_append.mp hc with h | h
    · have := hfresh c h
      simp [Inode.children] at this ⊢
      simp [this]
    · simp [children_of] at h
      subst h
      simp [Inode.is_directory]

/-- The scenario: in the empty root, `"a"` is made as a file, refused as a
second file, and made as a directory. -/
theorem same_name_file_then_dir_witness :
    ex_root.is_directory = 1 ∧ (0 : Int) ≤ 10000 ∧
    ∃ f p1 g1, create_file ex_disk ex_sys (some ex_root) [97] 0 10000 = some ⟨some f, some p1, g1⟩
      ∧ create_file ex_disk g1 (some p1) [97] 0 5 = some ⟨none, some p1, g1⟩
      ∧ ∃ d p2 g2, create_dir g1 (some p1) [97] = some ⟨some d, some p2, g2⟩ :=
  ⟨rfl, by decide,
    same_name_file_then_dir ex_disk ex_sys ex_root [97] 0 0 10000 5 rfl
      (by intro e he; simp [ex_root, Inode.entries] at he)
      (by intro c hc; simp [ex_root, Inode.children, Inode.entries, children_of] at hc)
      (by decide)
      (by intro i _; simp only [ex_disk]; omega)⟩

/-! ## `create_file`: the disk is full -/

/-- C4: when the call number `N` of `allocate_block()` made by `create_file`
is the first to answer `-1` (`1 ≤ N ≤ ceil(s / 4096)`), `create_file` returns
`NULL`, the parent is exactly what it was, and `allocate_block()` has been
called exactly `N` times: the `N - 1` blocks reserved are not given back. -/
theorem create_file_disk_full (disk : Nat → Int) (g : Sys) (p : Inode) (name : List Nat)
    (readonly : Nat) (s : Int) (N : Nat)
    (hs : 0 ≤ s) (hN1 : 1 ≤ N) (hN : (N : Int) ≤ ⌈(s : ℚ) / 4096⌉)
    (hp : p.is_directory = 1 → all_ptrs p.entries)
    (hdup : ∀ c ∈ p.children, ¬ (streq c.name name = true ∧ c.is_directory = 0))
    (hok : ∀ i, i < N - 1 → disk (g.alloc_calls + i) ≠ -1)
    (hfull : disk (g.alloc_calls + (N - 1)) = -1) :
    ∃ g1, create_file disk g (some p) name readonly s = some ⟨none, some p, g1⟩
      ∧ g1.alloc_calls = g.alloc_calls + N := by
  have hn : 0 ≤ blocks_needed s := by rw [blocks_needed_nonneg s hs]; omega
  rw [← blocks_needed_ceil s hs] at hN
  have hlt : N - 1 < (blocks_needed s).toNat := by omega
  have hr := reserve_blocks_full disk (blocks_needed s).toNat (N - 1) g.bump hlt
    (by simpa [Sys.bump] using hok) (by simpa [Sys.bump] using hfull)
  refine ⟨{ g.bump with alloc_calls := g.bump.alloc_calls + (N - 1) + 1 }, ?_, ?_⟩
  · simp only [create_file, create_file_scan_false name p hp hdup, not_lt.mpr hn, if_false, hr]
  · simp only [Sys.bump]; omega

/-- The file of 10000 bytes on a disk with two free blocks: the third call
fails. -/
theorem create_file_disk_full_witness :
    (0 : Int) ≤ 10000 ∧ 1 ≤ 3 ∧ ex_small_disk (ex_sys.alloc_calls + (3 - 1)) = -1 ∧
    ∃ g1, create_file ex_small_disk ex_sys (some ex_docs) ex_readme_name 0 10000
        = some ⟨none, some ex_docs, g1⟩
      ∧ g1.alloc_calls = ex_sys.alloc_calls + 3 :=
  ⟨by decide, by decide, by decide,
    create_file_disk_full ex_small_disk ex_sys ex_docs ex_readme_name 0 10000 3
      (by decide) (by decide)
      (by rw [← blocks_needed_ceil 10000 (by decide)]; decide)
      (by intro _ e he; simp [ex_docs, Inode.entries] at he)
      (by intro c hc; simp [ex_docs, Inode.children, Inode.entries, children_of] at hc)
      (by intro i hi; simp only [ex_small_disk, ex_sys]; split <;> omega)
      (by decide)⟩

/-! ## `find_inode_by_name` -/

/-- C5: on a directory, `find_inode_by_name` returns the child at the smallest
index whose name compares equal, of either kind, and `NULL` exactly when no
direct child has the name; what it returns is always a direct child; on a node
that is not a directory it returns `NULL`. -/
theorem find_inode_by_name_first_match (p : Inode) (name : List Nat) :
    (p.is_directory = 1 → all_ptrs p.entries →
      (∀ (i : Nat) (c : Inode), p.children[i]? = some c → streq c.name name = true →
          (∀ (j : Nat) (c2 : Inode), j < i → p.children[j]? = some c2 →
            streq c2.name name = false) →
          find_inode_by_name p name = some (some c))
      ∧ (find_inode_by_name p name = some none
          ↔ ∀ c ∈ p.children, streq c.name name = false)
      ∧ (∀ c : Inode, find_inode_by_name p name = some (some c) →
          c ∈ p.children ∧ streq c.name name = true))
    ∧ (p.is_directory ≠ 1 → find_inode_by_name p name = some none) := by
  constructor
  · intro hdir hp
    have hfind : find_inode_by_name p name
        = some (p.children.find? (fun c => streq c.name name)) := by
      simp [find_inode_by_name, hdir, find_scan_eq name p.entries hp, Inode.children]
    refine ⟨?_, ?_, ?_⟩
    · intro i c hi hc hmin
      rw [hfind]
      congr 1
      rw [List.find?_eq_some]
      refine ⟨hc, p.children.take i, p.children.drop (i + 1), ?_, ?_⟩
      · have hlt : i < p.children.length := by
          rcases Nat.lt_or_ge i p.children.length with h | h
          · exact h
          · rw [List.getElem?_eq_none h] at hi; cases hi
        have hget : p.children[i] = c := by
          rw [List.getElem?_eq_getElem hlt] at hi
          exact Option.some.inj hi
        rw [← hget]
        simp
      · intro a ha
        obtain ⟨j, hj, hja⟩ := List.getElem_of_mem ha
        have hjlen : j < (p.children.take i).length := hj
        have hji : j < i := by
          have := List.length_take_le i p.children
          omega
        have hj2 : p.children[j]? = some a := by
          have h1 : (p.children.take i)[j]? = some a := by
            rw [List.getElem?_eq_getElem hj, hja]
          rwa [List.getElem?_take_of_lt hji] at h1
        simp [hmin j a hji hj2]
    · rw [hfind]
      simp [List.find?_eq_none]
    · intro c hc
      rw [hfind] at hc
      have hc' := Option.some.inj hc
      exact ⟨List.mem_of_find?_eq_some hc', by simpa using List.find?_some hc'⟩
  · intro hdir
    simp [find_inode_by_name, hdir]

/-- The directory with the children `"a"` (file) and `"a"` (directory), in
this order: the lookup of `"a"` returns the file. -/
theorem find_inode_by_name_first_match_witness :
    find_inode_by_name
        (Inode.mk 0 ex_slash 1 0 0
          [Slot.ptr (Inode.mk 1 [97] 0 0 0 []), Slot.ptr (Inode.mk 2 [97] 1 0 0 [])]) [97]
      = some (some (Inode.mk 1 [97] 0 0 0 [])) :=
  ((find_inode_by_name_first_match
      (Inode.mk 0 ex_slash 1 0 0
        [Slot.ptr (Inode.mk 1 [97] 0 0 0 []), Slot.ptr (Inode.mk 2 [97] 1 0 0 [])]) [97]).1
    rfl (by intro e he; simp only [Inode.entries, List.mem_cons, List.mem_singleton, List.not_mem_nil, or_false] at he; rcases he with h | h <;> subst h <;> rfl)).1
    0 (Inode.mk 1 [97] 0 0 0 []) rfl (by decide) (by intro j c2 hj; omega)

/-! ## Postconditions of `create_file` and `create_dir` -/

/-- The scenario: `"readme.txt"` of 10000 bytes gets the 3 blocks the
allocator hands out. -/
theorem create_file_block_count_witness :
    (0 : Int) ≤ 10000 ∧
    ∃ f p1 g1, create_file ex_disk ⟨2, 0⟩ (some ex_docs) ex_readme_name 0 10000
        = some ⟨some f, some p1, g1⟩
      ∧ (f.entries.length : Int) = ⌈((10000 : Int) : ℚ) / 4096⌉
      ∧ f.entries = (List.range f.entries.length).map
          (fun i => Slot.word (to_size_t (ex_disk ((⟨2, 0⟩ : Sys).alloc_calls + i)))) :=
  ⟨by decide,
    create_file_block_count ex_disk ⟨2, 0⟩ ex_docs ex_readme_name 0 10000 (by decide)
      (by intro _ e he; simp [ex_docs, Inode.entries] at he)
      (by intro c hc; simp [ex_docs, Inode.children, Inode.entries, children_of] at hc)
      (by intro k; simp only [ex_disk]; omega)⟩

/-- C6: whenever `create_file` on a directory succeeds, the parent has its old
entries, unchanged and in the same order, with the returned node appended as
the last one (one entry more), and the returned node is a file with the given
name, the given readonly flag (as a `char`) and `filesize` equal to the size
asked for. -/
theorem create_file_success_post (disk : Nat → Int) (g : Sys) (p : Inode) (name : List Nat)
    (readonly : Nat) (s : Int) (r : Call) (f : Inode)
    (hdir : p.is_directory = 1)
    (h : create_file disk g (some p) name readonly s = some r) (hret : r.ret = some f) :
    r.parent = some (p.set_entries (p.entries ++ [Slot.ptr f]))
      ∧ (∃ p1, r.parent = some p1 ∧ p1.children = p.children ++ [f]
          ∧ p1.num_entries = p.num_entries + 1
          ∧ p1.id = p.id ∧ p1.name = p.name ∧ p1.is_directory = p.is_directory)
      ∧ f.is_directory = 0 ∧ f.name = cstr name ∧ f.is_readonly = readonly % 256
      ∧ f.filesize = s := by
  have hpost : ∀ f : Inode, ∃ p1, some (p.set_entries (p.entries ++ [Slot.ptr f])) = some p1
      ∧ p1.children = p.children ++ [f] ∧ p1.num_entries = p.num_entries + 1
      ∧ p1.id = p.id ∧ p1.name = p.name ∧ p1.is_directory = p.is_directory := by
    intro f
    refine ⟨_, rfl, ?_, ?_, ?_, ?_, ?_⟩
    · simp [Inode.children, children_of_append, children_of]
    · simp [Inode.num_entries]
    · cases p; rfl
    · cases p; rfl
    · cases p; rfl
  unfold create_file at h
  simp only [hdir, if_true] at h
  split at h
  · cases h
  · cases h; cases hret
  · split at h
    · cases h
    · split at h
      · cases h; cases hret
      · cases h
        cases hret
        exact ⟨rfl, hpost _, rfl, rfl, rfl, rfl⟩

/-- The scenario: `create_file` of `"readme.txt"` below `"docs"`. -/
theorem create_file_success_post_witness :
    ex_docs.is_directory = 1
      ∧ (some (Inode.mk 1 ex_docs_name 1 0 0 [Slot.ptr ex_readme]) : Option Inode)
          = some (ex_docs.set_entries (ex_docs.entries ++ [Slot.ptr ex_readme]))
      ∧ ex_readme.is_directory = 0 ∧ ex_readme.filesize = 10000 :=
  have h := create_file_success_post ex_disk ⟨2, 0⟩ ex_docs ex_readme_name 0 10000
    ⟨some ex_readme, some (Inode.mk 1 ex_docs_name 1 0 0 [Slot.ptr ex_readme]), ⟨3, 3⟩⟩
    ex_readme rfl rfl rfl
  ⟨rfl, h.1, h.2.2.1, h.2.2.2.2.2⟩

/-- C7: `create_dir` returns `NULL` if and only if the parent is present and
is not a directory, or is a directory that has a directory child of the name
(a file child of the name does not count); and whenever it returns `NULL` the
parent and `inode_counter` are what they were. -/
theorem create_dir_fails_iff (g : Sys) (parent : Option Inode) (name : List Nat)
    (hp : ∀ p, parent = some p → p.is_directory = 1 → all_ptrs p.entries) :
    ∃ r, create_dir g parent name = some r
      ∧ (r.ret = none ↔
          ∃ p, parent = some p ∧
            (p.is_directory ≠ 1 ∨
              ∃ c ∈ p.children, streq c.name name = true ∧ c.is_directory ≠ 0))
      ∧ (r.ret = none → r.parent = parent ∧ r.sys = g) := by
  cases parent with
  | none => exact ⟨_, rfl, by simp, by simp⟩
  | some p =>
    by_cases hdir : p.is_directory = 1
    · have hscan := create_dir_scan_eq name p.entries (hp p rfl hdir)
      by_cases hany : (children_of p.entries).any
          (fun c => streq c.name name && c.is_directory != 0) = true
      · refine ⟨⟨none, some p, g⟩, by simp [create_dir, hdir, hscan, hany], ?_, by simp⟩
        simp only [true_iff]
        refine ⟨p, rfl, Or.inr ?_⟩
        obtain ⟨c, hc, hcn⟩ := List.any_eq_true.mp hany
        exact ⟨c, hc, by simpa using hcn⟩
      · simp only [Bool.not_eq_true] at hany
        refine ⟨_, by rw [create_dir_eq_of_ok g p name hdir (by rw [hscan, hany])], ?_, by simp⟩
        simp only [false_iff, reduceCtorEq]
        rintro ⟨q, hq, hor⟩
        cases hq
        rcases hor with h | ⟨c, hc, hcn, hcd⟩
        · exact h hdir
        · have := List.any_eq_false.mp hany c hc
          simp [hcn, hcd] at this
    · refine ⟨⟨none, some p, g⟩, by simp [create_dir, hdir], ?_, by simp⟩
      simp only [true_iff]
      exact ⟨p, rfl, Or.inl hdir⟩

/-- The directory `"docs"` with the file `"readme.txt"`: a directory named
`"readme.txt"` can still be made; below the file itself none can. -/
theorem create_dir_fails_iff_witness :
    (∃ r, create_dir ⟨3, 3⟩ (some (Inode.mk 1 ex_docs_name 1 0 0 [Slot.ptr ex_readme]))
          ex_readme_name = some r
      ∧ (r.ret = none ↔
          ∃ p, some (Inode.mk 1 ex_docs_name 1 0 0 [Slot.ptr ex_readme]) = some p ∧
            (p.is_directory ≠ 1 ∨
              ∃ c ∈ p.children, streq c.name ex_readme_name = true ∧ c.is_directory ≠ 0))
      ∧ (r.ret = none → r.parent = some (Inode.mk 1 ex_docs_name 1 0 0 [Slot.ptr ex_readme])
          ∧ r.sys = ⟨3, 3⟩))
    ∧ create_dir ⟨3, 3⟩ (some ex_readme) ex_docs_name = some ⟨none, some ex_readme, ⟨3, 3⟩⟩ :=
  ⟨create_dir_fails_iff ⟨3, 3⟩ (some (Inode.mk 1 ex_docs_name 1 0 0 [Slot.ptr ex_readme]))
      ex_readme_name
      (by
        intro p hp _ e he
        cases hp
        simp only [Inode.entries, List.mem_singleton] at he
        subst he
        rfl),
    rfl⟩

/-- C8: the node a successful `create_dir` returns is a directory with the
given name, no entries, readonly 0 and size 0; a present parent has its old
entries with the returned node appended as the last one; with an absent parent
the call always succeeds and touches no node: only `inode_counter` moves on. -/
theorem create_dir_success_post (g : Sys) (parent : Option Inode) (name : List Nat) :
    (∀ (r : Call) (d : Inode), create_dir g parent name = some r → r.ret = some d →
        d.is_directory = 1 ∧ d.name = cstr name ∧ d.entries = [] ∧ d.num_entries = 0
          ∧ d.is_readonly = 0 ∧ d.filesize = 0
          ∧ (∀ p, parent = some p →
              r.parent = some (p.set_entries (p.entries ++ [Slot.ptr d]))
                ∧ ∃ p1, r.parent = some p1 ∧ p1.children = p.children ++ [d]
                    ∧ p1.num_entries = p.num_entries + 1)
          ∧ (parent = none → r.parent = none))
    ∧ (∃ d, create_dir g none name = some ⟨some d, none, g.bump⟩) := by
  refine ⟨?_, ⟨_, rfl⟩⟩
  intro r d h hret
  cases parent with
  | none =>
    simp only [create_dir, Option.some.injEq] at h
    subst h
    cases hret
    exact ⟨rfl, rfl, rfl, rfl, rfl, rfl, by simp, by simp⟩
  | some p =>
    unfold create_dir at h
    simp only at h
    split at h
    · split at h
      · cases h
      · cases h; cases hret
      · cases h
        cases hret
        refine ⟨rfl, rfl, rfl, rfl, rfl, rfl, ?_, by simp⟩
        intro q hq
        cases hq
        refine ⟨rfl, _, rfl, ?_, ?_⟩
        · simp [Inode.children, children_of_append, children_of]
        · simp [Inode.num_entries]
    · cases h; cases hret

/-- The scenario: `create_dir(root, "docs")` in a process that has made the
root. -/
theorem create_dir_success_post_witness :
    ex_docs.is_directory = 1 ∧ ex_docs.entries = [] ∧
      (some (Inode.mk 0 ex_slash 1 0 0 [Slot.ptr ex_docs]) : Option Inode)
        = some (ex_root.set_entries (ex_root.entries ++ [Slot.ptr ex_docs])) :=
  have h := (create_dir_success_post ⟨1, 0⟩ (some ex_root) ex_docs_name).1
    ⟨some ex_docs, some (Inode.mk 0 ex_slash 1 0 0 [Slot.ptr ex_docs]), ⟨2, 0⟩⟩ ex_docs rfl rfl
  ⟨h.1, h.2.2.1, (h.2.2.2.2.2.2.1 ex_root rfl).1⟩

/-! ## Bytes and machine integers -/

theorem le_bytes_length (w x : Nat) : (le_bytes w x).length = w := by
  induction w generalizing x with
  | zero => rfl
  | succ w ih => simp [le_bytes, ih]

theorem le_nat_le_bytes (w x : Nat) : le_nat (le_bytes w x) = x % 256 ^ w := by
  induction w generalizing x with
  | zero => simp [le_bytes, le_nat, Nat.mod_one]
  | succ w ih =>
    simp only [le_bytes, le_nat, ih, Nat.mod_mod]
    rw [pow_succ', Nat.mod_mul]

theorem int_bytes_length (x : Int) : (int_bytes x).length = 4 := le_bytes_length 4 _

theorem int_of_bytes_int_bytes (x : Int) (h : in_int x) : int_of_bytes (int_bytes x) = x := by
  obtain ⟨h1, h2⟩ := h
  unfold int_of_bytes int_bytes
  rw [le_nat_le_bytes]
  have hnn : 0 ≤ x % 4294967296 := Int.emod_nonneg _ (by norm_num)
  have hlt : x % 4294967296 < 4294967296 := Int.emod_lt_of_pos _ (by norm_num)
  have hcast : (((x % 4294967296).toNat : Nat) : Int) = x % 4294967296 :=
    Int.toNat_of_nonneg hnn
  have hmod : (x % 4294967296).toNat % 256 ^ 4 % 4294967296 = (x % 4294967296).toNat := by
    have : (x % 4294967296).toNat < 4294967296 := by omega
    norm_num
    omega
  rw [hmod]
  split
  · next hlow => omega
  · next hlow => omega

theorem fread_append (old : Nat → Nat) (a rest : List Nat) :
    fread old a.length (a ++ rest) = (a, rest) := by
  simp [fread]

theorem fread_append_of_length (old : Nat → Nat) (n : Nat) (a rest : List Nat)
    (h : a.length = n) : fread old n (a ++ rest) = (a, rest) := by
  subst h; exact fread_append old a rest

theorem fread_int_bytes (old : Nat → Nat) (x : Int) (rest : List Nat) :
    fread old 4 (int_bytes x ++ rest) = (int_bytes x, rest) :=
  fread_append_of_length old 4 _ rest (int_bytes_length x)

theorem fread_one (old : Nat → Nat) (b : Nat) (rest : List Nat) :
    fread old 1 (b :: rest) = ([b], rest) := by
  simp [fread]

theorem long_bytes_length (ws : List Nat) : (long_bytes ws).length = 8 * ws.length := by
  induction ws with
  | nil => rfl
  | cons w ws ih => simp [long_bytes, le_bytes_length, ih]; omega

theorem read_longs_long_bytes (old : Nat → Nat) (ws rest : List Nat)
    (h : ∀ w ∈ ws, w < 18446744073709551616) :
    read_longs old ws.length (long_bytes ws ++ rest) = (ws.map Slot.word, rest) := by
  induction ws generalizing old with
  | nil => rfl
  | cons w ws ih =>
    have hw : w < 18446744073709551616 := h w (List.mem_cons_self _ _)
    have hws : ∀ v ∈ ws, v < 18446744073709551616 :=
      fun v hv => h v (List.mem_cons_of_mem _ hv)
    simp only [List.length_cons, read_longs, long_bytes, List.append_assoc,
      fread_append_of_length old 8 _ _ (le_bytes_length 8 w), ih _ hws, le_nat_le_bytes,
      List.map_cons]
    rw [Nat.mod_eq_of_lt (by norm_num; exact hw)]

/-! ## `create_inode`: one node -/

theorem in_int_of_nat (n : Nat) (h : n < 2147483648) : in_int (n : Int) :=
  ⟨by omega, by omega⟩

/-- One step of `create_inode`. -/
theorem create_inode_succ (junk : Int → Nat → Nat → Nat) (fuel : Nat) (g : Sys) (s : List Nat) :
    create_inode junk (fuel + 1) g s = create_inode_body junk (create_inode junk fuel) g s :=
  rfl

section

seal int_of_bytes

/-- What `create_inode` does with a stream that starts with the fields of a
node: the reads of lines 144-158, and the loop of lines 161-165. -/
theorem create_inode_header (junk : Int → Nat → Nat → Nat) (fuel : Nat) (g : Sys) (id : Int)
    (name : List Nat) (d r : Nat) (sz : Int) (k : Nat) (tail : List Nat)
    (hid : in_int id) (hname : name.length < 2147483648) (hd : d < 256) (hr : r < 256)
    (hsz : in_int sz) (hk : k < 2147483648) :
    create_inode junk (fuel + 1) g
        (int_bytes id ++ (int_bytes name.length ++ (name ++ ([d] ++ ([r]
          ++ (int_bytes sz ++ (int_bytes k ++ tail)))))))
      = if d = 1 then
          match link_entries (create_inode junk fuel) k g.bump
              (read_longs (junk g.inode_counter 7) k tail).2 with
          | none => none
          | some (cs, g2, s2) => some (Inode.mk id name d r sz cs, g2, s2)
        else
          some (Inode.mk id name d r sz (read_longs (junk g.inode_counter 7) k tail).1, g.bump,
            (read_longs (junk g.inode_counter 7) k tail).2) := by
  have hlen : int_of_bytes (int_bytes (name.length : Int)) = (name.length : Int) :=
    int_of_bytes_int_bytes _ (in_int_of_nat _ hname)
  have hnum : int_of_bytes (int_bytes (k : Int)) = (k : Int) :=
    int_of_bytes_int_bytes _ (in_int_of_nat _ hk)
  have hd1 : le_nat [d] = d := by simp [le_nat, Nat.mod_eq_of_lt hd]
  have hr1 : le_nat [r] = r := by simp [le_nat, Nat.mod_eq_of_lt hr]
  have hneg1 : ¬ ((name.length : Int) < 0) := by omega
  have hneg2 : ¬ ((k : Int) < 0) := by omega
  rw [create_inode_succ]
  simp only [create_inode_body, fread_int_bytes, hlen, hneg1, false_and, if_false,
    Int.toNat_ofNat, fread_append _ name, List.singleton_append, fread_one, hnum, hneg2, hd1, hr1,
    int_of_bytes_int_bytes id hid, int_of_bytes_int_bytes sz hsz]

end

/-- C10: from a stream that starts with a file node (the byte `is_directory`
is 0, the name has `n` bytes, the entry count is `k` and `k` words of 8 bytes
follow), `create_inode` returns a file with the id, name bytes, readonly flag,
size and block indices that are stored, in their order; it leaves exactly what
follows these `18 + n + 8 k` bytes in the stream; and it calls
`allocate_block()` not once. -/
theorem create_inode_file_node (junk : Int → Nat → Nat → Nat) (fuel : Nat) (g : Sys) (id : Int)
    (name : List Nat) (ro : Nat) (size : Int) (blocks : List Nat) (rest : List Nat)
    (hid : in_int id) (hname : name.length < 2147483648) (hro : ro < 256)
    (hsize : in_int size) (hk : blocks.length < 2147483648)
    (hblocks : ∀ b ∈ blocks, b < 18446744073709551616) :
    ∃ g1, create_inode junk (fuel + 1) g
        (int_bytes id ++ (int_bytes name.length ++ (name ++ ([0] ++ ([ro]
          ++ (int_bytes size ++ (int_bytes blocks.length ++ (long_bytes blocks ++ rest))))))))
        = some (Inode.mk id name 0 ro size (blocks.map Slot.word), g1, rest)
      ∧ (int_bytes id ++ (int_bytes name.length ++ (name ++ ([0] ++ ([ro]
          ++ (int_bytes size ++ (int_bytes blocks.length ++ (long_bytes blocks ++ rest)))))))).length
          = 18 + name.length + 8 * blocks.length + rest.length
      ∧ g1.alloc_calls = g.alloc_calls := by
  refine ⟨g.bump, ?_, ?_, rfl⟩
  · rw [create_inode_header junk fuel g id name 0 ro size blocks.length _ hid hname
      (by norm_num) hro hsize hk, read_longs_long_bytes _ blocks rest hblocks]
    simp
  · simp only [List.length_append, int_bytes_length, long_bytes_length, List.length_singleton]
    omega

/-- The scenario: the bytes of `"readme.txt"` are read back as the file with
the blocks 7, 8, 9. -/
theorem create_inode_file_node_witness :
    in_int 2 ∧ ex_readme_name.length < 2147483648 ∧
    ∃ g1, create_inode zero_memory 1 ex_sys
        (int_bytes 2 ++ (int_bytes ex_readme_name.length ++ (ex_readme_name ++ ([0] ++ ([0]
          ++ (int_bytes 10000 ++ (int_bytes [7, 8, 9].length
            ++ (long_bytes [7, 8, 9] ++ [])))))))) = some (ex_readme, g1, [])
      ∧ (int_bytes 2 ++ (int_bytes ex_readme_name.length ++ (ex_readme_name ++ ([0] ++ ([0]
          ++ (int_bytes 10000 ++ (int_bytes [7, 8, 9].length
            ++ (long_bytes [7, 8, 9] ++ [])))))))).length
          = 18 + ex_readme_name.length + 8 * [7, 8, 9].length + ([] : List Nat).length
      ∧ g1.alloc_calls = ex_sys.alloc_calls :=
  ⟨by unfold in_int; decide, by decide,
    create_inode_file_node zero_memory 0 ex_sys 2 ex_readme_name 0 10000 [7, 8, 9] []
      (by unfold in_int; decide) (by decide) (by decide) (by unfold in_int; decide) (by decide)
      (by decide)⟩

/-! ## `create_inode`: how much of the stream a node takes -/

theorem fread_fst_length (old : Nat → Nat) (n : Nat) (s : List Nat) :
    (fread old n s).1.length = n := by
  simp only [fread, List.length_append, List.length_take, List.length_map, List.length_range']
  omega

theorem read_longs_snd (old : Nat → Nat) (k : Nat) (s : List Nat) :
    (read_longs old k s).2 = s.drop (8 * k) := by
  induction k generalizing old s with
  | zero => rfl
  | succ k ih =>
    simp only [read_longs, ih, fread, List.drop_drop]
    congr 1
    omega

theorem read_longs_fst_length (old : Nat → Nat) (k : Nat) (s : List Nat) :
    (read_longs old k s).1.length = k := by
  induction k generalizing old s with
  | zero => rfl
  | succ k ih => simp [read_longs, ih]

theorem read_longs_span (old : Nat → Nat) (k : Nat) (s : List Nat) :
    span_children (read_longs old k s).1 = 0 := by
  induction k generalizing old s with
  | zero => rfl
  | succ k ih => simp [read_longs, span_children, ih]

theorem link_entries_length (dec : Sys → List Nat → Option (Inode × Sys × List Nat))
    (k : Nat) (g : Sys) (s : List Nat) (cs : List Slot) (g1 : Sys) (rest : List Nat)
    (h : link_entries dec k g s = some (cs, g1, rest)) : cs.length = k := by
  induction k generalizing g s cs g1 rest with
  | zero =>
    simp only [link_entries, Option.some.injEq, Prod.mk.injEq] at h
    rw [← h.1]; rfl
  | succ k ih =>
    unfold link_entries at h
    split at h
    · cases h
    · next c g2 s2 hc =>
      split at h
      · cases h
      · next cs2 g3 s3 hcs =>
        simp only [Option.some.injEq, Prod.mk.injEq] at h
        rw [← h.1, List.length_cons, ih g2 s2 cs2 g3 s3 hcs]

theorem link_entries_drop (dec : Sys → List Nat → Option (Inode × Sys × List Nat))
    (hdec : ∀ g s n g1 rest, dec g s = some (n, g1, rest) → rest = s.drop (span n))
    (k : Nat) (g : Sys) (s : List Nat) (cs : List Slot) (g1 : Sys) (rest : List Nat)
    (h : link_entries dec k g s = some (cs, g1, rest)) :
    rest = s.drop (span_children cs) := by
  induction k generalizing g s cs g1 rest with
  | zero =>
    simp only [link_entries, Option.some.injEq, Prod.mk.injEq] at h
    rw [← h.1, ← h.2.2]; rfl
  | succ k ih =>
    unfold link_entries at h
    split at h
    · cases h
    · next c g2 s2 hc =>
      split at h
      · cases h
      · next cs2 g3 s3 hcs =>
        simp only [Option.some.injEq, Prod.mk.injEq] at h
        rw [← h.1, ← h.2.2, ih g2 s2 cs2 g3 s3 hcs, hdec g s c g2 s2 hc, span_children,
          List.drop_drop]

theorem create_inode_drop (junk : Int → Nat → Nat → Nat) (fuel : Nat) (g : Sys) (s : List Nat) (n : Inode) (g1 : Sys)
    (rest : List Nat) (h : create_inode junk fuel g s = some (n, g1, rest)) :
    rest = s.drop (span n) := by
  induction fuel generalizing g s n g1 rest with
  | zero => cases h
  | succ fuel ih =>
    rw [create_inode_succ] at h
    simp only [create_inode_body] at h
    split at h
    · cases h
    · split at h
      · cases h
      · split at h
        · split at h
          · cases h
          · next cs g2 s2 hcs =>
            simp only [Option.some.injEq, Prod.mk.injEq] at h
            have hlen := link_entries_length _ _ _ _ _ _ _ hcs
            have hdrop := link_entries_drop _ ih _ _ _ _ _ _ hcs
            rw [← h.1, ← h.2.2, hdrop, span, fread_fst_length, hlen, read_longs_snd]
            simp only [fread, List.drop_drop]
            congr 1
            omega
        · simp only [Option.some.injEq, Prod.mk.injEq] at h
          rw [← h.1, ← h.2.2, span, fread_fst_length, read_longs_fst_length, read_longs_span,
            read_longs_snd]
          simp only [fread, List.drop_drop]
          congr 1
          omega

theorem link_entries_all_ptrs (dec : Sys → List Nat → Option (Inode × Sys × List Nat))
    (k : Nat) (g : Sys) (s : List Nat) (cs : List Slot) (g1 : Sys) (rest : List Nat)
    (h : link_entries dec k g s = some (cs, g1, rest)) : all_ptrs cs := by
  induction k generalizing g s cs g1 rest with
  | zero =>
    simp only [link_entries, Option.some.injEq, Prod.mk.injEq] at h
    rw [← h.1]
    intro e he
    cases he
  | succ k ih =>
    unfold link_entries at h
    split at h
    · cases h
    · next c g2 s2 hc =>
      split at h
      · cases h
      · next cs2 g3 s3 hcs =>
        simp only [Option.some.injEq, Prod.mk.injEq] at h
        rw [← h.1]
        intro e he
        rcases List.mem_cons.mp he with h1 | h1
        · subst h1; rfl
        · exact ih g2 s2 cs2 g3 s3 hcs e h1

/-- The id of the node `create_inode` returns is what the first 4 bytes of the
stream hold. -/
theorem create_inode_id (junk : Int → Nat → Nat → Nat) (fuel : Nat) (g : Sys) (s : List Nat)
    (n : Inode) (g1 : Sys) (rest : List Nat) (h : create_inode junk fuel g s = some (n, g1, rest)) :
    n.id = int_of_bytes (fread (junk g.inode_counter 0) 4 s).1 := by
  cases fuel with
  | zero => cases h
  | succ fuel =>
    rw [create_inode_succ] at h
    simp only [create_inode_body] at h
    split at h
    · cases h
    · split at h
      · cases h
      · split at h
        · split at h
          · cases h
          · simp only [Option.some.injEq, Prod.mk.injEq] at h
            rw [← h.1]; rfl
        · simp only [Option.some.injEq, Prod.mk.injEq] at h
          rw [← h.1]; rfl

/-- Where `create_inode` takes the children of a directory from: the loop of
lines 162-164 starts behind the `8 * num_entries` bytes that line 158 has
read. -/
theorem create_inode_children_at (junk : Int → Nat → Nat → Nat) (fuel : Nat) (g : Sys)
    (s : List Nat) (n : Inode) (g1 : Sys) (rest : List Nat) (h : create_inode junk fuel g s = some (n, g1, rest))
    (hdir : n.is_directory = 1) :
    ∃ fuel0, fuel = fuel0 + 1 ∧
      link_entries (create_inode junk fuel0) n.entries.length g.bump
          (s.drop (18 + n.name.length + 8 * n.entries.length))
        = some (n.entries, g1, rest) := by
  cases fuel with
  | zero => cases h
  | succ fuel =>
    refine ⟨fuel, rfl, ?_⟩
    rw [create_inode_succ] at h
    simp only [create_inode_body] at h
    split at h
    · cases h
    · split at h
      · cases h
      · split at h
        · split at h
          · cases h
          · next cs g2 s2 hcs =>
            simp only [Option.some.injEq, Prod.mk.injEq] at h
            have hlen := link_entries_length _ _ _ _ _ _ _ hcs
            obtain ⟨hn, hg, hs⟩ := h
            subst hn hg hs
            simp only [Inode.entries, Inode.name, fread_fst_length, hlen]
            rw [← hcs, read_longs_snd]
            simp only [fread, List.drop_drop]
            congr 2
            omega
        · next hnd =>
          simp only [Option.some.injEq, Prod.mk.injEq] at h
          rw [← h.1] at hdir
          exact absurd hdir hnd

/-! ## Round trip through the superblock -/

/-- The claim C1 as it is written fails on the tree made by
`create_dir(NULL, "/")` and `create_dir(root, "docs")`: from the bytes `encode`
gives for it, whatever memory never written holds and however deep the
recursion may go, `create_inode` does not return that tree.  The 8 bytes read
for the entry of the root are the id and the name length of `"docs"`, and the
child is read from the name bytes `"docs"` on, which give it the id
1935896420. -/
theorem roundtrip_counterexample :
    create_dir ex_sys none ex_slash = some ⟨some ex_root, none, ⟨1, 0⟩⟩
      ∧ create_dir ⟨1, 0⟩ (some ex_root) ex_docs_name
          = some ⟨some ex_docs, some ex_root_docs, ⟨2, 0⟩⟩
      ∧ (¬ ∃ junk fuel g1 rest,
          create_inode junk fuel ex_sys (encode ex_root_docs) = some (ex_root_docs, g1, rest))
      ∧ create_inode zero_memory 2 ex_sys (encode ex_root_docs)
          = some (Inode.mk 0 ex_slash 1 0 0 [Slot.ptr (Inode.mk 1935896420 [0] 0 0 0 [])],
              ⟨2, 0⟩, []) := by
  refine ⟨rfl, rfl, ?_, rfl⟩
  rintro ⟨junk, fuel, g1, rest, h⟩
  obtain ⟨fuel0, -, hl⟩ := create_inode_children_at junk fuel ex_sys _ _ g1 rest h rfl
  have hlen : ex_root_docs.entries.length = 1 := rfl
  rw [hlen] at hl
  unfold link_entries at hl
  split at hl
  · cases hl
  · next c g2 s2 hc =>
    have hid := create_inode_id junk fuel0 _ _ c g2 s2 hc
    split at hl
    · cases hl
    · next cs g3 s3 hcs =>
      simp only [Option.some.injEq, Prod.mk.injEq] at hl
      have hc1 : c = ex_docs := by
        have h1 := hl.1
        simp only [ex_root_docs, Inode.entries, List.cons.injEq, Slot.ptr.injEq] at h1
        exact h1.1
      rw [hc1] at hid
      have hbytes : (fread (junk ex_sys.bump.inode_counter 0) 4 (List.drop (18 + ex_root_docs.name.length + 8 * 1)
          (encode ex_root_docs))).1 = [100, 111, 99, 115] := rfl
      rw [hbytes] at hid
      revert hid
      decide

theorem superblock_words_length (slot : Inode → Nat) (es : List Slot) :
    (superblock_words slot es).length = 8 * es.length := by
  induction es with
  | nil => rfl
  | cons e rest ih =>
    cases e <;> simp [superblock_words, le_bytes_length, ih] <;> omega

theorem read_longs_superblock_words_snd (old : Nat → Nat) (slot : Inode → Nat) (es : List Slot)
    (tail : List Nat) :
    (read_longs old es.length (superblock_words slot es ++ tail)).2 = tail := by
  rw [read_longs_snd, ← superblock_words_length slot es, List.drop_left]

theorem read_longs_superblock_words_fst (old : Nat → Nat) (slot : Inode → Nat) (es : List Slot)
    (tail : List Nat) (h : storable_entries false es = true) :
    (read_longs old es.length (superblock_words slot es ++ tail)).1 = es := by
  induction es generalizing old with
  | nil => rfl
  | cons e rest ih =>
    cases e with
    | ptr c => simp [storable_entries] at h
    | word w =>
      simp only [storable_entries, Bool.not_false, Bool.true_and, Bool.and_eq_true,
        decide_eq_true_eq] at h
      simp only [List.length_cons, read_longs, superblock_words, List.append_assoc,
        fread_append_of_length old 8 _ _ (le_bytes_length 8 w), ih _ h.2, le_nat_le_bytes]
      rw [Nat.mod_eq_of_lt (by norm_num; exact h.1)]

theorem superblock_children_of_words (slot : Inode → Nat) (es : List Slot)
    (h : storable_entries false es = true) : superblock_children slot es = [] := by
  induction es with
  | nil => rfl
  | cons e rest ih =>
    cases e with
    | ptr c => simp [storable_entries] at h
    | word w =>
      simp only [storable_entries, Bool.not_false, Bool.true_and, Bool.and_eq_true,
        decide_eq_true_eq] at h
      simp [superblock_children, ih h.2]

/-- The loop of lines 162-164 on the streams of the children, one after the
other, when the recursive call reads every one of them back. -/
theorem link_entries_superblock (junk : Int → Nat → Nat → Nat) (slot : Inode → Nat) (fuel : Nat)
    (ih : ∀ t, storable t = true → height t ≤ fuel → ∀ g rest,
      ∃ g1, create_inode junk fuel g (superblock slot t ++ rest) = some (t, g1, rest)
        ∧ g1.alloc_calls = g.alloc_calls)
    (es : List Slot) (hs : storable_entries true es = true) (hh : height_entries es ≤ fuel)
    (g : Sys) (rest : List Nat) :
    ∃ g1, link_entries (create_inode junk fuel) es.length g
        (superblock_children slot es ++ rest) = some (es, g1, rest)
      ∧ g1.alloc_calls = g.alloc_calls := by
  induction es generalizing g with
  | nil => exact ⟨g, rfl, rfl⟩
  | cons e tl ihl =>
    cases e with
    | word w => simp [storable_entries] at hs
    | ptr c =>
      simp only [storable_entries, Bool.true_and, Bool.and_eq_true] at hs
      simp only [height_entries, max_le_iff] at hh
      obtain ⟨g1, hc, hg1⟩ := ih c hs.1 hh.1 g (superblock_children slot tl ++ rest)
      obtain ⟨g2, htl, hg2⟩ := ihl hs.2 hh.2 g1
      refine ⟨g2, ?_, by rw [hg2, hg1]⟩
      simp only [List.length_cons, link_entries, superblock_children, List.append_assoc, hc, htl]

/-- Every storable tree is read back from its stream by `create_inode`, with
the rest of the stream left and `allocate_block()` not called. -/
theorem superblock_decodes (junk : Int → Nat → Nat → Nat) (slot : Inode → Nat) (fuel : Nat) :
    ∀ t, storable t = true → height t ≤ fuel → ∀ g rest,
      ∃ g1, create_inode junk fuel g (superblock slot t ++ rest) = some (t, g1, rest)
        ∧ g1.alloc_calls = g.alloc_calls := by
  induction fuel with
  | zero =>
    intro t _ hh
    cases t
    simp [height] at hh
  | succ fuel ih =>
    intro t hs hh g rest
    cases t with
    | mk id name d r sz es =>
      simp only [storable, Bool.and_eq_true, decide_eq_true_eq] at hs
      obtain ⟨⟨⟨⟨⟨⟨⟨⟨hid1, hid2⟩, hname⟩, hd⟩, hr⟩, hsz1⟩, hsz2⟩, hlen⟩, hes⟩ := hs
      simp only [height, Nat.add_le_add_iff_right] at hh
      have hstream : superblock slot (Inode.mk id name d r sz es) ++ rest
          = int_bytes id ++ (int_bytes name.length ++ (name ++ ([d] ++ ([r]
              ++ (int_bytes sz ++ (int_bytes es.length
                ++ (superblock_words slot es ++ (superblock_children slot es ++ rest)))))))) := by
        simp [superblock, Nat.mod_eq_of_lt hd, Nat.mod_eq_of_lt hr]
      rw [hstream, create_inode_header junk fuel g id name d r sz es.length _ ⟨hid1, hid2⟩ hname
        hd hr ⟨hsz1, hsz2⟩ hlen, read_longs_superblock_words_snd]
      by_cases hd1 : d = 1
      · have hes1 : storable_entries true es = true := by simpa [hd1] using hes
        obtain ⟨g1, hl, hg1⟩ := link_entries_superblock junk slot fuel ih es hes1 hh g.bump rest
        refine ⟨g1, ?_, by rw [hg1]; rfl⟩
        simp [hd1, hl]
      · have hdf : (d == 1) = false := by simpa using hd1
        have hes0 : storable_entries false es = true := by rw [hdf] at hes; exact hes
        refine ⟨g.bump, ?_, rfl⟩
        rw [superblock_children_of_words slot es hes0, List.nil_append] at *
        simp [hd1, read_longs_superblock_words_fst _ slot es rest hes0]

/-! ## `create_inode`: the layout of a directory -/

theorem superblock_length (slot : Inode → Nat) (t : Inode) :
    (superblock slot t).length
      = 18 + t.name.length + 8 * t.entries.length
          + (superblock_children slot t.entries).length := by
  cases t with
  | mk id name d r sz es =>
    simp only [superblock, List.length_append, int_bytes_length, superblock_words_length,
      List.length_singleton, Inode.name, Inode.entries]
    omega

theorem superblock_drop_words (slot : Inode → Nat) (t : Inode) (rest : List Nat) :
    (superblock slot t ++ rest).drop (18 + t.name.length + 8 * t.entries.length)
      = superblock_children slot t.entries ++ rest := by
  cases t with
  | mk id name d r sz es =>
    have hlen : (int_bytes id ++ (int_bytes name.length ++ (name ++ ([d % 256] ++ ([r % 256]
        ++ (int_bytes sz ++ (int_bytes es.length ++ superblock_words slot es))))))).length
        = 18 + name.length + 8 * es.length := by
      simp only [List.length_append, int_bytes_length, superblock_words_length,
        List.length_singleton]
      omega
    have hstream : superblock slot (Inode.mk id name d r sz es) ++ rest
        = (int_bytes id ++ (int_bytes name.length ++ (name ++ ([d % 256] ++ ([r % 256]
            ++ (int_bytes sz ++ (int_bytes es.length ++ superblock_words slot es)))))))
          ++ (superblock_children slot es ++ rest) := by
      simp [superblock]
    rw [hstream]
    simp only [Inode.name, Inode.entries]
    rw [← hlen, List.drop_left]

/-- C9, amended: a directory node with `k` entries is read back by
`create_inode` from its stream, whatever follows it, whatever memory held and
for every bound `fuel` on the depth that is not below the height of the node;
line 158 reads the `k` words of `entries` for a directory as for a file, so
the loop of lines 162-164 starts on the first child `8 k` bytes behind the
entry count, at byte `18 + name_len + 8 k` of the node, where the streams of
the children stand one after the other; the node takes `18 + name_len + 8 k`
bytes of its own and the bytes of its children from the stream, and leaves
what follows them.  And whatever the stream is, a directory node that
`create_inode` returns has its children read from that byte on and has taken
that many bytes. -/
theorem create_inode_directory_layout (junk : Int → Nat → Nat → Nat) (slot : Inode → Nat)
    (fuel : Nat) (g : Sys) (t : Inode) (rest : List Nat)
    (hs : storable t = true) (hdir : t.is_directory = 1) (hfuel : height t ≤ fuel) :
    (∃ g1 fuel0,
      create_inode junk fuel g (superblock slot t ++ rest) = some (t, g1, rest)
        ∧ fuel = fuel0 + 1
        ∧ (superblock slot t ++ rest).drop (18 + t.name.length + 8 * t.entries.length)
            = superblock_children slot t.entries ++ rest
        ∧ link_entries (create_inode junk fuel0) t.entries.length g.bump
              ((superblock slot t ++ rest).drop (18 + t.name.length + 8 * t.entries.length))
            = some (t.entries, g1, rest)
        ∧ (∀ c cs, t.entries = Slot.ptr c :: cs →
            ∃ g2, create_inode junk fuel0 g.bump
                ((superblock slot t ++ rest).drop (18 + t.name.length + 8 * t.entries.length))
              = some (c, g2, superblock_children slot cs ++ rest)))
      ∧ all_ptrs t.entries
      ∧ (superblock slot t).length
          = 18 + t.name.length + 8 * t.entries.length
              + (superblock_children slot t.entries).length
      ∧ (∀ s n g1 rest1, create_inode junk fuel g s = some (n, g1, rest1) → n.is_directory = 1 →
          (∃ fuel0, fuel = fuel0 + 1 ∧
            link_entries (create_inode junk fuel0) n.entries.length g.bump
                (s.drop (18 + n.name.length + 8 * n.entries.length))
              = some (n.entries, g1, rest1))
          ∧ rest1 = s.drop (18 + n.name.length + 8 * n.entries.length
              + span_children n.entries)) := by
  obtain ⟨g1, hdec, -⟩ := superblock_decodes junk slot fuel t hs hfuel g rest
  obtain ⟨fuel0, hf, hl⟩ := create_inode_children_at junk fuel g _ t g1 rest hdec hdir
  refine ⟨⟨g1, fuel0, hdec, hf, superblock_drop_words slot t rest, hl, ?_⟩,
    link_entries_all_ptrs _ _ _ _ _ _ _ hl, superblock_length slot t, ?_⟩
  · intro c cs hes
    rw [superblock_drop_words, hes]
    cases t with
    | mk id name d r sz es =>
      simp only [Inode.entries] at hes
      subst hes
      simp only [storable, Bool.and_eq_true, decide_eq_true_eq] at hs
      have hd1 : d = 1 := hdir
      have hes1 : storable_entries true (Slot.ptr c :: cs) = true := by
        simpa [hd1] using hs.2
      simp only [storable_entries, Bool.true_and, Bool.and_eq_true] at hes1
      have hh : height c ≤ fuel0 := by
        simp only [height, height_entries] at hfuel
        omega
      obtain ⟨g2, hc, -⟩ := superblock_decodes junk slot fuel0 c hes1.1 hh g.bump
        (superblock_children slot cs ++ rest)
      refine ⟨g2, ?_⟩
      simp only [superblock_children, List.append_assoc]
      exact hc
  · intro s n g2 rest1 h hn
    refine ⟨create_inode_children_at junk fuel g s n g2 rest1 h hn, ?_⟩
    have := create_inode_drop junk fuel g s n g2 rest1 h
    cases n with
    | mk id name d r sz es => simpa [span, Inode.name, Inode.entries] using this

/-- The root with the child `"docs"`, 8 bytes for its one entry in front of
the child, and one byte behind: all of it but the last byte is taken. -/
theorem create_inode_directory_layout_witness :
    storable ex_root_docs = true ∧ ex_root_docs.is_directory = 1 ∧ height ex_root_docs ≤ 2
      ∧ (∃ g1 fuel0,
          create_inode zero_memory 2 ex_sys (superblock (fun _ => 0) ex_root_docs ++ [42])
              = some (ex_root_docs, g1, [42])
            ∧ 2 = fuel0 + 1
            ∧ (superblock (fun _ => 0) ex_root_docs ++ [42]).drop
                (18 + ex_root_docs.name.length + 8 * ex_root_docs.entries.length)
                = superblock_children (fun _ => 0) ex_root_docs.entries ++ [42]
            ∧ link_entries (create_inode zero_memory fuel0) ex_root_docs.entries.length
                  ex_sys.bump
                  ((superblock (fun _ => 0) ex_root_docs ++ [42]).drop
                    (18 + ex_root_docs.name.length + 8 * ex_root_docs.entries.length))
                = some (ex_root_docs.entries, g1, [42])
            ∧ (∀ c cs, ex_root_docs.entries = Slot.ptr c :: cs →
                ∃ g2, create_inode zero_memory fuel0 ex_sys.bump
                    ((superblock (fun _ => 0) ex_root_docs ++ [42]).drop
                      (18 + ex_root_docs.name.length + 8 * ex_root_docs.entries.length))
                  = some (c, g2, superblock_children (fun _ => 0) cs ++ [42])))
      ∧ (superblock (fun _ => 0) ex_root_docs).length
          = 18 + ex_root_docs.name.length + 8 * ex_root_docs.entries.length
              + (superblock_children (fun _ => 0) ex_root_docs.entries).length :=
  have h := create_inode_directory_layout zero_memory (fun _ => 0) 2 ex_sys ex_root_docs [42]
    (by decide) rfl (by decide)
  ⟨by decide, rfl, by decide, h.1, h.2.2.1⟩

/-- The claim C9 as it is written fails on the root with the child `"docs"`:
of the stream of 49 bytes (19 for the root, 8 for its entry, 22 for the child)
`create_inode` takes all, not the `18 + 1 + 22 = 41` bytes of the node and its
child; and the child is read from byte 27 on, not from byte 19, right behind
the entry count. -/
theorem directory_layout_counterexample :
    create_inode zero_memory 2 ex_sys (superblock (fun _ => 0) ex_root_docs ++ [42])
        = some (ex_root_docs, ⟨2, 0⟩, [42])
      ∧ (superblock (fun _ => 0) ex_root_docs).length = 49
      ∧ create_inode zero_memory 1 ⟨1, 0⟩ (superblock (fun _ => 0) ex_docs) = some (ex_docs, ⟨2, 0⟩, [])
      ∧ 18 + ex_root_docs.name.length + (superblock (fun _ => 0) ex_docs).length = 41
      ∧ create_inode zero_memory 1 ⟨1, 0⟩ ((superblock (fun _ => 0) ex_root_docs ++ [42]).drop 27)
          = some (ex_docs, ⟨2, 0⟩, [42])
      ∧ (superblock (fun _ => 0) ex_root_docs ++ [42]).drop 19
          ≠ (superblock (fun _ => 0) ex_root_docs ++ [42]).drop 27 :=
  ⟨rfl, rfl, rfl, rfl, rfl, by decide⟩

/-! ## Trees built by calls fit the superblock -/

theorem wrap32_in_int (x : Int) : in_int (wrap32 x) := by
  unfold in_int wrap32
  constructor <;> omega

theorem storable_mk {id : Int} {name : List Nat} {d r : Nat} {sz : Int} {es : List Slot} :
    storable (Inode.mk id name d r sz es) = true ↔
      in_int id ∧ name.length < 2147483648 ∧ d < 256 ∧ r < 256 ∧ in_int sz
        ∧ es.length < 2147483648 ∧ storable_entries (d == 1) es = true := by
  simp only [storable, Bool.and_eq_true, decide_eq_true_eq, in_int]
  tauto

theorem storable_entries_append (dir : Bool) (a b : List Slot) :
    storable_entries dir (a ++ b) = (storable_entries dir a && storable_entries dir b) := by
  induction a with
  | nil => simp [storable_entries]
  | cons e rest ih => cases e <;> simp [storable_entries, ih, Bool.and_assoc]

theorem reserve_blocks_some (disk : Nat → Int) (n : Nat) (g g1 : Sys) (bs : List Slot)
    (h : reserve_blocks disk n g = (some bs, g1)) :
    bs.length = n ∧ storable_entries false bs = true := by
  induction n generalizing g g1 bs with
  | zero =>
    simp only [reserve_blocks, Prod.mk.injEq, Option.some.injEq] at h
    rw [← h.1]
    exact ⟨rfl, rfl⟩
  | succ n ih =>
    unfold reserve_blocks at h
    simp only at h
    split at h
    · cases h
    · split at h
      · cases h
      · next rest g2 hrest =>
        simp only [Prod.mk.injEq, Option.some.injEq] at h
        obtain ⟨hlen, hst⟩ := ih _ _ _ hrest
        rw [← h.1]
        refine ⟨by simp [hlen], ?_⟩
        simp only [storable_entries, Bool.not_false, Bool.true_and, Bool.and_eq_true,
          decide_eq_true_eq]
        refine ⟨?_, hst⟩
        unfold to_size_t
        have := Int.emod_lt_of_pos (disk g.alloc_calls)
          (show (0 : Int) < 18446744073709551616 by norm_num)
        have := Int.emod_nonneg (disk g.alloc_calls)
          (show (18446744073709551616 : Int) ≠ 0 by norm_num)
        omega

theorem reserve_blocks_counter (disk : Nat → Int) (n : Nat) (g : Sys) :
    (reserve_blocks disk n g).2.inode_counter = g.inode_counter := by
  induction n generalizing g with
  | zero => rfl
  | succ n ih =>
    unfold reserve_blocks
    simp only
    split
    · rfl
    · have := ih { g with alloc_calls := g.alloc_calls + 1 }
      split
      · next hrec => rw [hrec] at this; exact this
      · next hrec => rw [hrec] at this; exact this

theorem blocks_needed_lt (s : Int) (h0 : 0 ≤ s) (h1 : s < 2147483648) :
    (blocks_needed s).toNat < 2147483648 := by
  rw [blocks_needed_nonneg s h0]
  omega

/-- The parent a call of `create_file` leaves is storable when the parent it
found was. -/
theorem create_file_storable (disk : Nat → Int) (g : Sys) (p : Inode) (name : List Nat)
    (readonly : Nat) (s : Int) (r : Call) (p1 : Inode)
    (hg : in_int g.inode_counter) (hst : storable p = true) (hdir : p.is_directory = 1)
    (hname : (cstr name).length < 2147483648) (hs : 0 ≤ s ∧ s < 2147483648)
    (hroom : p.entries.length + 1 < 2147483648)
    (h : create_file disk g (some p) name readonly s = some r) (hpar : r.parent = some p1) :
    storable p1 = true ∧ in_int r.sys.inode_counter := by
  cases p with
  | mk pid pname pd pr psz pes =>
    simp only [Inode.is_directory] at hdir
    subst hdir
    unfold create_file at h
    simp only [Inode.is_directory, if_true] at h
    split at h
    · cases h
    · cases h
      cases hpar
      exact ⟨hst, hg⟩
    · split at h
      · cases h
      · split at h
        · next g2 hres =>
          cases h
          cases hpar
          refine ⟨hst, ?_⟩
          have : g2.inode_counter = g.bump.inode_counter := by
            have := reserve_blocks_counter disk (blocks_needed s).toNat g.bump
            rw [hres] at this
            exact this
          rw [this]
          exact wrap32_in_int _
        · next blocks g2 hres =>
          cases h
          cases hpar
          obtain ⟨hlen, hbl⟩ := reserve_blocks_some disk _ _ _ _ hres
          have hcnt : g2.inode_counter = g.bump.inode_counter := by
            have := reserve_blocks_counter disk (blocks_needed s).toNat g.bump
            rw [hres] at this
            exact this
          refine ⟨?_, by rw [hcnt]; exact wrap32_in_int _⟩
          rw [storable_mk] at hst
          obtain ⟨h1, h2, h3, h4, h5, h6, h7⟩ := hst
          simp only [Inode.set_entries, Inode.entries]
          rw [storable_mk]
          refine ⟨h1, h2, h3, h4, h5, by simpa [Inode.entries] using hroom, ?_⟩
          rw [storable_entries_append, h7]
          simp only [Bool.true_and, storable_entries, beq_self_eq_true, Bool.and_true]
          rw [storable_mk]
          refine ⟨hg, hname, by norm_num, Nat.mod_lt _ (by norm_num), ⟨by omega, hs.2⟩, ?_, ?_⟩
          · rw [hlen]; exact blocks_needed_lt s hs.1 hs.2
          · simpa using hbl

/-- The parent a call of `create_dir` leaves is storable when the parent it
found was. -/
theorem create_dir_storable (g : Sys) (p : Inode) (name : List Nat) (r : Call) (p1 : Inode)
    (hg : in_int g.inode_counter) (hst : storable p = true) (hdir : p.is_directory = 1)
    (hname : (cstr name).length < 2147483648)
    (hroom : p.entries.length + 1 < 2147483648)
    (h : create_dir g (some p) name = some r) (hpar : r.parent = some p1) :
    storable p1 = true ∧ in_int r.sys.inode_counter := by
  cases p with
  | mk pid pname pd pr psz pes =>
    simp only [Inode.is_directory] at hdir
    subst hdir
    unfold create_dir at h
    simp only [Inode.is_directory, if_true] at h
    split at h
    · cases h
    · cases h
      cases hpar
      exact ⟨hst, hg⟩
    · cases h
      cases hpar
      refine ⟨?_, wrap32_in_int _⟩
      rw [storable_mk] at hst
      obtain ⟨h1, h2, h3, h4, h5, h6, h7⟩ := hst
      simp only [Inode.set_entries, Inode.entries]
      rw [storable_mk]
      refine ⟨h1, h2, h3, h4, h5, by simpa [Inode.entries] using hroom, ?_⟩
      rw [storable_entries_append, h7]
      simp only [Bool.true_and, storable_entries, beq_self_eq_true, Bool.and_true]
      rw [storable_mk]
      exact ⟨hg, hname, by norm_num, by norm_num, ⟨by norm_num, by norm_num⟩, by simp, rfl⟩

theorem storable_entries_get (dir : Bool) (es : List Slot) (i : Nat) (c : Inode)
    (hs : storable_entries dir es = true) (hi : es[i]? = some (Slot.ptr c)) :
    storable c = true
      ∧ ∀ c1, storable c1 = true → storable_entries dir (es.set i (Slot.ptr c1)) = true := by
  induction es generalizing i with
  | nil => simp at hi
  | cons e rest ih =>
    cases i with
    | zero =>
      simp only [List.getElem?_cons_zero, Option.some.injEq] at hi
      subst hi
      simp only [storable_entries, Bool.and_eq_true] at hs
      obtain ⟨⟨hd, hc⟩, hrest⟩ := hs
      subst hd
      refine ⟨hc, fun c1 hc1 => ?_⟩
      simp [storable_entries, hrest, hc1]
    | succ i =>
      simp only [List.getElem?_cons_succ] at hi
      cases e with
      | word w =>
        simp only [storable_entries, Bool.and_eq_true] at hs
        obtain ⟨⟨hd, hw⟩, hrest⟩ := hs
        obtain ⟨hc, hset⟩ := ih i hrest hi
        refine ⟨hc, fun c1 hc1 => ?_⟩
        simp only [List.set, storable_entries, Bool.and_eq_true]
        exact ⟨⟨hd, hw⟩, hset c1 hc1⟩
      | ptr c0 =>
        simp only [storable_entries, Bool.and_eq_true] at hs
        obtain ⟨⟨hd, hc0⟩, hrest⟩ := hs
        obtain ⟨hc, hset⟩ := ih i hrest hi
        refine ⟨hc, fun c1 hc1 => ?_⟩
        simp only [List.set, storable_entries, Bool.and_eq_true]
        exact ⟨⟨hd, hc0⟩, hset c1 hc1⟩

/-- A write through a pointer into a storable tree leaves it storable when
the node written is. -/
theorem put_at_storable (path : List Nat) :
    ∀ (t p p1 : Inode), storable t = true → node_at t path = some p →
      storable p = true ∧ (storable p1 = true → storable (put_at t path p1) = true) := by
  induction path with
  | nil =>
    intro t p p1 hst hp
    simp only [node_at, Option.some.injEq] at hp
    subst hp
    exact ⟨hst, fun h => h⟩
  | cons i path ih =>
    intro t p p1 hst hp
    cases t with
    | mk id name d r sz es =>
      simp only [node_at, Inode.entries] at hp
      split at hp
      · next c hc =>
        rw [storable_mk] at hst
        obtain ⟨h1, h2, h3, h4, h5, h6, h7⟩ := hst
        obtain ⟨hcst, hset⟩ := storable_entries_get _ es i c h7 hc
        obtain ⟨hpst, hput⟩ := ih c p p1 hcst hp
        refine ⟨hpst, fun hp1 => ?_⟩
        simp only [put_at, Inode.entries, hc, Inode.set_entries]
        rw [storable_mk]
        exact ⟨h1, h2, h3, h4, h5, by simpa using h6, hset _ (hput hp1)⟩
      · cases hp

/-- Every tree built by calls is storable, and `inode_counter` stays an
`int`. -/
theorem built_storable (disk : Nat → Int) (g : Sys) (t : Inode) (hb : Built disk g t) :
    storable t = true ∧ in_int g.inode_counter := by
  induction hb with
  | root g name r d hg hname hcall hret =>
    simp only [create_dir, Option.some.injEq] at hcall
    subst hcall
    cases hret
    refine ⟨?_, wrap32_in_int _⟩
    rw [storable_mk]
    exact ⟨hg, hname, by norm_num, by norm_num, ⟨by norm_num, by norm_num⟩, by simp, rfl⟩
  | file g t path p name readonly s r p1 _ hp hdir hname hsize hroom hcall hpar ih =>
    obtain ⟨hpst, hput⟩ := put_at_storable path t p p1 ih.1 hp
    obtain ⟨hp1, hcnt⟩ := create_file_storable disk g p name readonly s r p1 ih.2 hpst hdir
      hname hsize hroom hcall hpar
    exact ⟨hput hp1, hcnt⟩
  | dir g t path p name r p1 _ hp hdir hname hroom hcall hpar ih =>
    obtain ⟨hpst, hput⟩ := put_at_storable path t p p1 ih.1 hp
    obtain ⟨hp1, hcnt⟩ := create_dir_storable g p name r p1 ih.2 hpst hdir hname hroom hcall
      hpar
    exact ⟨hput hp1, hcnt⟩

/-- C1, amended: every tree built by calls of `create_dir` and `create_file`
on directories (the root made with parent `NULL`) is read back by
`create_inode` as the identical tree (ids, names, kinds, flags, sizes, block
indices and the order of the children) from the stream that holds, for every
node, the fields in the order of the specification, then one word of 8 bytes
for each of its entries (the block indices of a file; for a directory
`entry_count` words whose value is not used), and then, for a directory, the
streams of its children in their order.  Nothing of what follows the stream is
taken, and `allocate_block()` is not called. -/
theorem superblock_roundtrip (disk : Nat → Int) (g : Sys) (t : Inode) (hb : Built disk g t)
    (junk : Int → Nat → Nat → Nat) (slot : Inode → Nat) (fuel : Nat) (hfuel : height t ≤ fuel)
    (g0 : Sys)
    (rest : List Nat) :
    ∃ g1, create_inode junk fuel g0 (superblock slot t ++ rest) = some (t, g1, rest)
      ∧ g1.alloc_calls = g0.alloc_calls :=
  superblock_decodes junk slot fuel t (built_storable disk g t hb).1 hfuel g0 rest

/-- The scenario is a tree built by calls: `create_dir(NULL, "/")`,
`create_dir(root, "docs")`, `create_file(docs, "readme.txt", 0, 10000)`. -/
theorem ex_tree_built : Built ex_disk ⟨3, 3⟩ ex_tree := by
  have h0 : Built ex_disk ⟨1, 0⟩ ex_root :=
    Built.root ex_sys ex_slash ⟨some ex_root, none, ⟨1, 0⟩⟩ ex_root
      (by unfold in_int; decide) (by decide) rfl rfl
  have h1 : Built ex_disk ⟨2, 0⟩ ex_root_docs :=
    Built.dir ⟨1, 0⟩ ex_root [] ex_root ex_docs_name
      ⟨some ex_docs, some ex_root_docs, ⟨2, 0⟩⟩ ex_root_docs h0 rfl rfl (by decide) (by decide)
      rfl rfl
  exact Built.file ⟨2, 0⟩ ex_root_docs [0] ex_docs ex_readme_name 0 10000
    ⟨some ex_readme, some (Inode.mk 1 ex_docs_name 1 0 0 [Slot.ptr ex_readme]), ⟨3, 3⟩⟩
    (Inode.mk 1 ex_docs_name 1 0 0 [Slot.ptr ex_readme]) h1 rfl rfl (by decide)
    (by decide) (by decide) rfl rfl

/-- The scenario: root `"/"`, directory `"docs"`, file `"readme.txt"` of
10000 bytes with the blocks 7, 8, 9, read back from its stream. -/
theorem superblock_roundtrip_witness :
    Built ex_disk ⟨3, 3⟩ ex_tree ∧ height ex_tree ≤ 3 ∧
    ∃ g1, create_inode zero_memory 3 ex_sys (superblock (fun _ => 0) ex_tree ++ []) = some (ex_tree, g1, [])
      ∧ g1.alloc_calls = ex_sys.alloc_calls :=
  ⟨ex_tree_built, by decide,
    superblock_roundtrip ex_disk ⟨3, 3⟩ ex_tree ex_tree_built zero_memory (fun _ => 0) 3
      (by decide)
      ex_sys []⟩

/-! ## Ids in a sequence of calls -/

theorem wrap32_succ (c : Int) (h1 : -2147483648 ≤ c) (h2 : c + 1 < 2147483648) :
    wrap32 (c + 1) = c + 1 := by
  unfold wrap32
  omega

/-- What a call of `create_file` does to `inode_counter`: nothing when it
returns before line 42, one step when it goes on, and the node made then has
the old value as its id. -/
theorem create_file_counter (disk : Nat → Int) (g : Sys) (parent : Option Inode)
    (name : List Nat) (readonly : Nat) (s : Int) (r : Call)
    (h : create_file disk g parent name readonly s = some r) :
    (r.sys.inode_counter = g.inode_counter ∧ new_id r = [])
      ∨ (r.sys.inode_counter = wrap32 (g.inode_counter + 1)
          ∧ (new_id r = [] ∨ new_id r = [g.inode_counter])) := by
  unfold create_file at h
  cases parent with
  | none =>
    simp only [Option.some.injEq] at h
    subst h
    exact Or.inl ⟨rfl, rfl⟩
  | some p =>
    simp only at h
    split at h
    · cases h
    · cases h
      exact Or.inl ⟨rfl, rfl⟩
    · split at h
      · cases h
      · have hc := reserve_blocks_counter disk (blocks_needed s).toNat g.bump
        split at h
        · next g2 hres =>
          cases h
          rw [hres] at hc
          exact Or.inr ⟨hc, Or.inl rfl⟩
        · next blocks g2 hres =>
          cases h
          rw [hres] at hc
          exact Or.inr ⟨hc, Or.inr rfl⟩

theorem create_dir_counter (g : Sys) (parent : Option Inode) (name : List Nat) (r : Call)
    (h : create_dir g parent name = some r) :
    (r.sys.inode_counter = g.inode_counter ∧ new_id r = [])
      ∨ (r.sys.inode_counter = wrap32 (g.inode_counter + 1)
          ∧ (new_id r = [] ∨ new_id r = [g.inode_counter])) := by
  unfold create_dir at h
  cases parent with
  | none =>
    simp only [Option.some.injEq] at h
    subst h
    exact Or.inr ⟨rfl, Or.inr rfl⟩
  | some p =>
    simp only at h
    split at h
    · split at h
      · cases h
      · cases h
        exact Or.inl ⟨rfl, rfl⟩
      · cases h
        exact Or.inr ⟨rfl, Or.inr rfl⟩
    · cases h
      exact Or.inl ⟨rfl, rfl⟩

theorem fs_shutdown_sys (g : Sys) (inode : Option Inode) (freed : List (List Nat)) (g0 : Sys)
    (h : fs_shutdown g inode = some (freed, g0)) : g0 = g := by
  unfold fs_shutdown at h
  cases inode with
  | none =>
    simp only [Option.some.injEq, Prod.mk.injEq] at h
    exact h.2.symm
  | some n =>
    simp only at h
    split at h
    · cases h
    · simp only [Option.some.injEq, Prod.mk.injEq] at h
      exact h.2.symm

/-- One call: the counter stays or goes up by one, and an id given out is the
old value of the counter. -/
theorem counter_step (g r_sys : Sys) (ids : List Int)
    (h : (r_sys.inode_counter = g.inode_counter ∧ ids = [])
      ∨ (r_sys.inode_counter = wrap32 (g.inode_counter + 1)
          ∧ (ids = [] ∨ ids = [g.inode_counter])))
    (hg : -2147483648 ≤ g.inode_counter) (hroom : g.inode_counter + 1 < 2147483648) :
    g.inode_counter ≤ r_sys.inode_counter ∧ r_sys.inode_counter ≤ g.inode_counter + 1
      ∧ ∀ id ∈ ids, id = g.inode_counter ∧ id < r_sys.inode_counter := by
  rcases h with ⟨h1, h2⟩ | ⟨h1, h2⟩
  · rw [h1, h2]
    exact ⟨le_refl _, by omega, by simp⟩
  · rw [h1, wrap32_succ _ hg hroom]
    refine ⟨by omega, le_refl _, ?_⟩
    rcases h2 with h2 | h2 <;> rw [h2] <;> simp

theorem run_calls_ids (disk : Nat → Int) (ops : List Op) :
    ∀ (g g1 : Sys) (ids : List Int), run_calls disk g ops = some (g1, ids) →
      -2147483648 ≤ g.inode_counter → g.inode_counter + ops.length < 2147483648 →
      g.inode_counter ≤ g1.inode_counter ∧ g1.inode_counter ≤ g.inode_counter + ops.length
        ∧ (∀ id ∈ ids, g.inode_counter ≤ id ∧ id < g1.inode_counter)
        ∧ ids.Pairwise (· < ·) := by
  induction ops with
  | nil =>
    intro g g1 ids h _ _
    simp only [run_calls, Option.some.injEq, Prod.mk.injEq] at h
    rw [← h.1, ← h.2]
    simp
  | cons op ops ih =>
    intro g g1 ids h hg hroom
    simp only [List.length_cons, Nat.cast_add, Nat.cast_one] at hroom ⊢
    have hstep : ∀ (r_sys : Sys) (new : List Int) (ids1 : List Int),
        ((r_sys.inode_counter = g.inode_counter ∧ new = [])
          ∨ (r_sys.inode_counter = wrap32 (g.inode_counter + 1)
              ∧ (new = [] ∨ new = [g.inode_counter]))) →
        run_calls disk r_sys ops = some (g1, ids1) →
        g.inode_counter ≤ g1.inode_counter ∧ g1.inode_counter ≤ g.inode_counter + (ops.length + 1)
          ∧ (∀ id ∈ new ++ ids1, g.inode_counter ≤ id ∧ id < g1.inode_counter)
          ∧ (new ++ ids1).Pairwise (· < ·) := by
      intro r_sys new ids1 hc hrun
      obtain ⟨c1, c2, c3⟩ := counter_step g r_sys new hc hg (by omega)
      obtain ⟨i1, i2, i3, i4⟩ := ih r_sys g1 ids1 hrun (by omega) (by omega)
      refine ⟨by omega, by omega, ?_, ?_⟩
      · intro id hid
        rcases List.mem_append.mp hid with hm | hm
        · have := c3 id hm
          omega
        · have := i3 id hm
          omega
      · rw [List.pairwise_append]
        refine ⟨?_, i4, ?_⟩
        · rcases hc with ⟨-, h2⟩ | ⟨-, h2 | h2⟩ <;> rw [h2] <;> simp
        · intro a ha b hb
          have := c3 a ha
          have := i3 b hb
          omega
    cases op with
    | file parent name readonly s =>
      simp only [run_calls] at h
      split at h
      · cases h
      · next r hr =>
        split at h
        · cases h
        · next g2 ids1 hrun =>
          simp only [Option.some.injEq, Prod.mk.injEq] at h
          obtain ⟨h1, h2⟩ := h
          subst h1 h2
          have := hstep r.sys (new_id r) ids1 (create_file_counter disk g _ _ _ _ r hr) hrun
          simpa [Nat.cast_add] using this
    | dir parent name =>
      simp only [run_calls] at h
      split at h
      · cases h
      · next r hr =>
        split at h
        · cases h
        · next g2 ids1 hrun =>
          simp only [Option.some.injEq, Prod.mk.injEq] at h
          obtain ⟨h1, h2⟩ := h
          subst h1 h2
          have := hstep r.sys (new_id r) ids1 (create_dir_counter g _ _ r hr) hrun
          simpa [Nat.cast_add] using this
    | shutdown inode =>
      simp only [run_calls] at h
      split at h
      · cases h
      · next freed g0 hs =>
        have hg0 := fs_shutdown_sys g inode freed g0 hs
        subst hg0
        have := hstep g0 [] ids (Or.inl ⟨rfl, rfl⟩) h
        simpa [Nat.cast_add] using this

theorem run_calls_append (disk : Nat → Int) (ops1 ops2 : List Op) :
    ∀ (g g1 : Sys) (ids : List Int), run_calls disk g (ops1 ++ ops2) = some (g1, ids) →
      ∃ gm ids1 ids2, run_calls disk g ops1 = some (gm, ids1)
        ∧ run_calls disk gm ops2 = some (g1, ids2) ∧ ids = ids1 ++ ids2 := by
  induction ops1 with
  | nil => intro g g1 ids h; exact ⟨g, [], ids, rfl, h, rfl⟩
  | cons op ops ih =>
    intro g g1 ids h
    cases op with
    | file parent name readonly s =>
      simp only [List.cons_append, run_calls] at h ⊢
      split at h
      · cases h
      · next r hr =>
        split at h
        · cases h
        · next g2 ids0 hrun =>
          simp only [Option.some.injEq, Prod.mk.injEq] at h
          obtain ⟨h1, h2⟩ := h
          subst h1 h2
          obtain ⟨gm, ids1, ids2, e1, e2, e3⟩ := ih _ _ _ hrun
          exact ⟨gm, new_id r ++ ids1, ids2, by simp [e1], e2, by simp [e3]⟩
    | dir parent name =>
      simp only [List.cons_append, run_calls] at h ⊢
      split at h
      · cases h
      · next r hr =>
        split at h
        · cases h
        · next g2 ids0 hrun =>
          simp only [Option.some.injEq, Prod.mk.injEq] at h
          obtain ⟨h1, h2⟩ := h
          subst h1 h2
          obtain ⟨gm, ids1, ids2, e1, e2, e3⟩ := ih _ _ _ hrun
          exact ⟨gm, new_id r ++ ids1, ids2, by simp [e1], e2, by simp [e3]⟩
    | shutdown inode =>
      simp only [List.cons_append, run_calls] at h ⊢
      split at h
      · cases h
      · next freed g0 hs =>
        obtain ⟨gm, ids1, ids2, e1, e2, e3⟩ := ih _ _ _ h
        exact ⟨gm, ids1, ids2, e1, e2, e3⟩

/-- C12: in every sequence of calls of `create_file`, `create_dir` and
`fs_shutdown`, with whatever nodes as arguments, that is made before
`inode_counter` reaches the end of `int`: at no point of the sequence is the
counter below what it was at an earlier point; the ids of the nodes created,
taken in the order of creation, go strictly up; so no two of them are
equal. -/
theorem ids_strictly_increase (disk : Nat → Int) (g : Sys) (ops : List Op) (g1 : Sys)
    (ids : List Int) (h : run_calls disk g ops = some (g1, ids))
    (hg : in_int g.inode_counter) (hroom : g.inode_counter + ops.length < 2147483648) :
    (∀ ops1 ops2, ops = ops1 ++ ops2 →
        ∃ gm ids1 ids2, run_calls disk g ops1 = some (gm, ids1)
          ∧ run_calls disk gm ops2 = some (g1, ids2) ∧ ids = ids1 ++ ids2
          ∧ g.inode_counter ≤ gm.inode_counter ∧ gm.inode_counter ≤ g1.inode_counter)
      ∧ ids.Pairwise (· < ·) ∧ ids.Nodup := by
  obtain ⟨-, -, -, hpair⟩ := run_calls_ids disk ops g g1 ids h hg.1 hroom
  refine ⟨?_, hpair, hpair.imp (fun hlt => ne_of_lt hlt)⟩
  intro ops1 ops2 hops
  subst hops
  obtain ⟨gm, ids1, ids2, e1, e2, e3⟩ := run_calls_append disk ops1 ops2 g g1 ids h
  simp only [List.length_append, Nat.cast_add] at hroom
  have hg1 : -2147483648 ≤ g.inode_counter := hg.1
  obtain ⟨a1, a2, -, -⟩ := run_calls_ids disk ops1 g gm ids1 e1 hg.1 (by omega)
  obtain ⟨b1, -, -, -⟩ := run_calls_ids disk ops2 gm g1 ids2 e2 (by omega) (by omega)
  exact ⟨gm, ids1, ids2, e1, e2, e3, a1, b1⟩

/-- The process `ex_calls`: the nodes get the ids 0, 2 and 3; the id 1 went to
the file that was refused, and the teardown did not move the counter. -/
theorem ids_strictly_increase_witness :
    run_calls ex_small_disk ex_sys ex_calls = some (⟨4, 3⟩, [0, 2, 3])
      ∧ in_int ex_sys.inode_counter
      ∧ ([0, 2, 3] : List Int).Pairwise (· < ·) ∧ ([0, 2, 3] : List Int).Nodup :=
  have h : run_calls ex_small_disk ex_sys ex_calls = some (⟨4, 3⟩, [0, 2, 3]) := rfl
  have hg : in_int ex_sys.inode_counter := by unfold in_int; decide
  ⟨h, hg, (ids_strictly_increase ex_small_disk ex_sys ex_calls ⟨4, 3⟩ [0, 2, 3] h hg
    (by decide)).2⟩

/-! ## The shape of the trees built by calls -/

theorem sound_mk {id : Int} {name : List Nat} {d r : Nat} {sz : Int} {es : List Slot} :
    sound (Inode.mk id name d r sz es)
      ↔ (d = 0 ∨ d = 1) ∧ sound_entries d es ∧ (sibling_keys es).Nodup := by
  simp only [sound]

theorem sound_entries_append (d : Nat) (a b : List Slot) :
    sound_entries d (a ++ b) ↔ sound_entries d a ∧ sound_entries d b := by
  induction a with
  | nil => simp [sound_entries]
  | cons e rest ih => cases e <;> simp [sound_entries, ih, and_assoc]

theorem sibling_keys_append (a b : List Slot) :
    sibling_keys (a ++ b) = sibling_keys a ++ sibling_keys b := by
  simp [sibling_keys, children_of_append]

theorem sound_entries_all_ptrs (es : List Slot) (h : sound_entries 1 es) : all_ptrs es := by
  induction es with
  | nil => intro e he; cases he
  | cons e rest ih =>
    cases e with
    | word w => simp [sound_entries] at h
    | ptr c =>
      simp only [sound_entries, true_and] at h
      intro x hx
      rcases List.mem_cons.mp hx with h1 | h1
      · subst h1; rfl
      · exact ih h.2 x h1

theorem sound_entries_words (es : List Slot) (h : sound_entries 0 es) : children_of es = [] := by
  induction es with
  | nil => rfl
  | cons e rest ih =>
    cases e with
    | ptr c => simp [sound_entries] at h
    | word w =>
      simp only [sound_entries, true_and] at h
      simp [children_of, ih h]

theorem sound_entries_of_storable (es : List Slot) (h : storable_entries false es = true) :
    sound_entries 0 es := by
  induction es with
  | nil => trivial
  | cons e rest ih =>
    cases e with
    | ptr c => simp [storable_entries] at h
    | word w =>
      simp only [storable_entries, Bool.not_false, Bool.true_and, Bool.and_eq_true] at h
      exact ⟨rfl, ih h.2⟩

theorem set_entries_name (p : Inode) (es : List Slot) : (p.set_entries es).name = p.name := by
  cases p; rfl

/-- A file as `create_file` makes it has the shape. -/
theorem sound_new_file (id : Int) (name : List Nat) (r : Nat) (s : Int) (blocks : List Slot)
    (h : storable_entries false blocks = true) : sound (Inode.mk id name 0 r s blocks) := by
  rw [sound_mk]
  refine ⟨Or.inl rfl, sound_entries_of_storable blocks h, ?_⟩
  simp [sibling_keys, sound_entries_words blocks (sound_entries_of_storable blocks h)]

/-- A directory with the shape keeps it when a node of the shape is stored
behind its entries whose name and kind no entry has. -/
theorem sound_append (id : Int) (name : List Nat) (r : Nat) (sz : Int) (es : List Slot)
    (c : Inode) (hp : sound (Inode.mk id name 1 r sz es)) (hc : sound c)
    (hnew : (cstr c.name, c.is_directory == 0) ∉ sibling_keys es) :
    sound (Inode.mk id name 1 r sz (es ++ [Slot.ptr c])) := by
  rw [sound_mk] at hp ⊢
  obtain ⟨h1, h2, h3⟩ := hp
  refine ⟨h1, ?_, ?_⟩
  · rw [sound_entries_append]
    exact ⟨h2, rfl, hc, trivial⟩
  · rw [sibling_keys_append, List.nodup_append]
    refine ⟨h3, by simp [sibling_keys, children_of], ?_⟩
    intro k hk hk2
    simp only [sibling_keys, children_of, List.map_cons, List.map_nil, List.mem_singleton] at hk2
    subst hk2
    exact hnew hk

/-- The parent a call of `create_file` leaves has the shape, the name and the
kind of the parent it found. -/
theorem create_file_sound (disk : Nat → Int) (g : Sys) (p : Inode) (name : List Nat)
    (readonly : Nat) (s : Int) (r : Call) (p1 : Inode)
    (hst : sound p) (hdir : p.is_directory = 1)
    (h : create_file disk g (some p) name readonly s = some r) (hpar : r.parent = some p1) :
    sound p1 ∧ p1.name = p.name ∧ p1.is_directory = p.is_directory := by
  cases p with
  | mk pid pname pd pr psz pes =>
    simp only [Inode.is_directory] at hdir
    subst hdir
    have hptrs : all_ptrs pes := sound_entries_all_ptrs pes (sound_mk.mp hst).2.1
    have hpd : (Inode.mk pid pname 1 pr psz pes).is_directory = 1 := rfl
    have hpe : (Inode.mk pid pname 1 pr psz pes).entries = pes := rfl
    unfold create_file at h
    simp only [hpd, if_true, hpe, create_file_scan_eq name pes hptrs] at h
    split at h
    · cases h
    · cases h
      cases hpar
      exact ⟨hst, rfl, rfl⟩
    · next hscan =>
      split at h
      · cases h
      · split at h
        · cases h
          cases hpar
          exact ⟨hst, rfl, rfl⟩
        · next blocks g2 hres =>
          cases h
          cases hpar
          refine ⟨?_, rfl, rfl⟩
          simp only [Inode.set_entries]
          refine sound_append _ _ _ _ _ _ hst
            (sound_new_file _ _ _ _ _ (reserve_blocks_some disk _ _ _ _ hres).2) ?_
          simp only [Option.some.injEq] at hscan
          rw [List.any_eq_false] at hscan
          intro hmem
          simp only [sibling_keys, List.mem_map] at hmem
          obtain ⟨c, hc, hkey⟩ := hmem
          have h1 := hscan c hc
          rw [Prod.mk.injEq] at hkey
          obtain ⟨k1, k2⟩ := hkey
          change cstr c.name = cstr (cstr name) at k1
          change (c.is_directory == 0) = ((0 : Nat) == 0) at k2
          rw [cstr_idem] at k1
          have hs : streq c.name name = true := by simp [streq, k1]
          rw [hs, k2] at h1
          simp at h1

/-- The parent a call of `create_dir` leaves has the shape, the name and the
kind of the parent it found. -/
theorem create_dir_sound (g : Sys) (p : Inode) (name : List Nat) (r : Call) (p1 : Inode)
    (hst : sound p) (hdir : p.is_directory = 1)
    (h : create_dir g (some p) name = some r) (hpar : r.parent = some p1) :
    sound p1 ∧ p1.name = p.name ∧ p1.is_directory = p.is_directory := by
  cases p with
  | mk pid pname pd pr psz pes =>
    simp only [Inode.is_directory] at hdir
    subst hdir
    have hptrs : all_ptrs pes := sound_entries_all_ptrs pes (sound_mk.mp hst).2.1
    have hpd : (Inode.mk pid pname 1 pr psz pes).is_directory = 1 := rfl
    have hpe : (Inode.mk pid pname 1 pr psz pes).entries = pes := rfl
    unfold create_dir at h
    simp only [hpd, if_true, hpe, create_dir_scan_eq name pes hptrs] at h
    split at h
    · cases h
    · cases h
      cases hpar
      exact ⟨hst, rfl, rfl⟩
    · next hscan =>
      cases h
      cases hpar
      refine ⟨?_, rfl, rfl⟩
      simp only [Inode.set_entries]
      refine sound_append _ _ _ _ _ _ hst ?_ ?_
      · rw [sound_mk]
        exact ⟨Or.inr rfl, trivial, by simp [sibling_keys, children_of]⟩
      · simp only [Option.some.injEq] at hscan
        rw [List.any_eq_false] at hscan
        intro hmem
        simp only [sibling_keys, List.mem_map] at hmem
        obtain ⟨c, hc, hkey⟩ := hmem
        have h1 := hscan c hc
        rw [Prod.mk.injEq] at hkey
        obtain ⟨k1, k2⟩ := hkey
        change cstr c.name = cstr (cstr name) at k1
        change (c.is_directory == 0) = ((1 : Nat) == 0) at k2
        rw [cstr_idem] at k1
        have hs : streq c.name name = true := by simp [streq, k1]
        have hd : (c.is_directory != 0) = true := by
          have : (c.is_directory == 0) = false := by rw [k2]; rfl
          simp [bne, this]
        rw [hs, hd] at h1
        simp at h1

theorem sound_entries_set (d : Nat) (es : List Slot) (i : Nat) (c : Inode)
    (hs : sound_entries d es) (hi : es[i]? = some (Slot.ptr c)) :
    sound c ∧ ∀ c1, sound c1 → c1.name = c.name → c1.is_directory = c.is_directory →
      sound_entries d (es.set i (Slot.ptr c1))
        ∧ sibling_keys (es.set i (Slot.ptr c1)) = sibling_keys es := by
  induction es generalizing i with
  | nil => simp at hi
  | cons e rest ih =>
    cases i with
    | zero =>
      simp only [List.getElem?_cons_zero, Option.some.injEq] at hi
      subst hi
      simp only [sound_entries] at hs
      refine ⟨hs.2.1, fun c1 hc1 hn hk => ?_⟩
      simp only [List.set, sound_entries, sibling_keys, children_of, List.map_cons, hn, hk]
      exact ⟨⟨hs.1, hc1, hs.2.2⟩, trivial⟩
    | succ i =>
      simp only [List.getElem?_cons_succ] at hi
      cases e with
      | word w =>
        simp only [sound_entries] at hs
        obtain ⟨hc, hset⟩ := ih i hs.2 hi
        refine ⟨hc, fun c1 hc1 hn hk => ?_⟩
        obtain ⟨s1, s2⟩ := hset c1 hc1 hn hk
        simp only [List.set, sound_entries]
        refine ⟨⟨hs.1, s1⟩, ?_⟩
        simpa [sibling_keys, children_of] using s2
      | ptr c0 =>
        simp only [sound_entries] at hs
        obtain ⟨hc, hset⟩ := ih i hs.2.2 hi
        refine ⟨hc, fun c1 hc1 hn hk => ?_⟩
        obtain ⟨s1, s2⟩ := hset c1 hc1 hn hk
        simp only [List.set, sound_entries]
        refine ⟨⟨hs.1, hs.2.1, s1⟩, ?_⟩
        simp only [sibling_keys, children_of, List.map_cons, List.cons.injEq, true_and] at s2 ⊢
        exact s2

/-- A write through a pointer into a tree with the shape leaves the shape
when the node written has it and has kept its name and kind. -/
theorem put_at_sound (path : List Nat) :
    ∀ (t p p1 : Inode), sound t → node_at t path = some p →
      sound p ∧ (sound p1 → p1.name = p.name → p1.is_directory = p.is_directory →
        sound (put_at t path p1) ∧ (put_at t path p1).name = t.name
          ∧ (put_at t path p1).is_directory = t.is_directory) := by
  induction path with
  | nil =>
    intro t p p1 hst hp
    simp only [node_at, Option.some.injEq] at hp
    subst hp
    exact ⟨hst, fun h hn hk => ⟨h, hn, hk⟩⟩
  | cons i path ih =>
    intro t p p1 hst hp
    cases t with
    | mk id name d r sz es =>
      simp only [node_at, Inode.entries] at hp
      split at hp
      · next c hc =>
        rw [sound_mk] at hst
        obtain ⟨h1, h2, h3⟩ := hst
        obtain ⟨hcst, hset⟩ := sound_entries_set d es i c h2 hc
        obtain ⟨hpst, hput⟩ := ih c p p1 hcst hp
        refine ⟨hpst, fun hp1 hn hk => ?_⟩
        obtain ⟨q1, q2, q3⟩ := hput hp1 hn hk
        obtain ⟨s1, s2⟩ := hset _ q1 q2 q3
        simp only [put_at, Inode.entries, hc, Inode.set_entries]
        refine ⟨?_, rfl, rfl⟩
        rw [sound_mk, s2]
        exact ⟨h1, s1, h3⟩
      · cases hp

/-- Every tree built by calls on directories has the shape. -/
theorem grown_sound (disk : Nat → Int) (g : Sys) (t : Inode) (hb : Grown disk g t) :
    sound t := by
  induction hb with
  | root g name r d hcall hret =>
    simp only [create_dir, Option.some.injEq] at hcall
    subst hcall
    cases hret
    rw [sound_mk]
    exact ⟨Or.inr rfl, trivial, by simp [sibling_keys, children_of]⟩
  | file g t path p name readonly s r p1 _ hp hdir hcall hpar ih =>
    obtain ⟨hpst, hput⟩ := put_at_sound path t p p1 ih hp
    obtain ⟨h1, h2, h3⟩ := create_file_sound disk g p name readonly s r p1 hpst hdir hcall hpar
    exact (hput h1 h2 h3).1
  | dir g t path p name r p1 _ hp hdir hcall hpar ih =>
    obtain ⟨hpst, hput⟩ := put_at_sound path t p p1 ih hp
    obtain ⟨h1, h2, h3⟩ := create_dir_sound g p name r p1 hpst hdir hcall hpar
    exact (hput h1 h2 h3).1

/-- C13: in every tree built by calls of `create_dir` and `create_file` on
directories from a root made with parent `NULL`, two children of a node whose
names compare equal are never both files and never both directories: one of
them is a file and the other is a directory. -/
theorem sibling_names_unique (disk : Nat → Int) (g : Sys) (t : Inode) (hb : Grown disk g t)
    (path : List Nat) (p : Inode) (hp : node_at t path = some p)
    (i j : Nat) (a b : Inode) (hij : i < j)
    (ha : p.children[i]? = some a) (hb2 : p.children[j]? = some b)
    (hname : streq a.name b.name = true) :
    ¬ (a.is_directory = 0 ∧ b.is_directory = 0)
      ∧ ¬ (a.is_directory ≠ 0 ∧ b.is_directory ≠ 0) := by
  have hs : sound p := (put_at_sound path t p p (grown_sound disk g t hb) hp).1
  have hj : j < p.children.length := by
    rcases Nat.lt_or_ge j p.children.length with h | h
    · exact h
    · rw [List.getElem?_eq_none h] at hb2; cases hb2
  have hi : i < p.children.length := lt_trans hij hj
  have hai : p.children[i] = a := by
    rw [List.getElem?_eq_getElem hi] at ha; exact Option.some.inj ha
  have hbj : p.children[j] = b := by
    rw [List.getElem?_eq_getElem hj] at hb2; exact Option.some.inj hb2
  have hkeys : (sibling_keys p.entries).Nodup := by
    cases p with
    | mk id name d r sz es => exact (sound_mk.mp hs).2.2
  have hne : (cstr a.name, a.is_directory == 0) ≠ (cstr b.name, b.is_directory == 0) := by
    have hpw := List.pairwise_iff_getElem.mp hkeys i j
      (by simpa [sibling_keys, Inode.children] using hi)
      (by simpa [sibling_keys, Inode.children] using hj) hij
    have hai2 : (children_of p.entries)[i] = a := hai
    have hbj2 : (children_of p.entries)[j] = b := hbj
    simpa [sibling_keys, hai2, hbj2] using hpw
  have hcs : cstr a.name = cstr b.name := by simpa [streq] using hname
  constructor
  · rintro ⟨h1, h2⟩
    apply hne
    simp [hcs, h1, h2]
  · rintro ⟨h1, h2⟩
    apply hne
    simp [hcs, h1, h2]

/-- The tree `ex_two_a` is built by calls: root, file `"a"`, directory
`"a"`. -/
theorem ex_two_a_grown : Grown ex_disk ⟨3, 0⟩ ex_two_a := by
  have h0 : Grown ex_disk ⟨1, 0⟩ ex_root :=
    Grown.root ex_sys ex_slash ⟨some ex_root, none, ⟨1, 0⟩⟩ ex_root rfl rfl
  have h1 : Grown ex_disk ⟨2, 0⟩ (Inode.mk 0 ex_slash 1 0 0 [Slot.ptr (Inode.mk 1 [97] 0 0 0 [])]) :=
    Grown.file ⟨1, 0⟩ ex_root [] ex_root [97] 0 0
      ⟨some (Inode.mk 1 [97] 0 0 0 []),
        some (Inode.mk 0 ex_slash 1 0 0 [Slot.ptr (Inode.mk 1 [97] 0 0 0 [])]), ⟨2, 0⟩⟩
      (Inode.mk 0 ex_slash 1 0 0 [Slot.ptr (Inode.mk 1 [97] 0 0 0 [])]) h0 rfl rfl rfl rfl
  exact Grown.dir ⟨2, 0⟩ _ [] _ [97] ⟨some (Inode.mk 2 [97] 1 0 0 []), some ex_two_a, ⟨3, 0⟩⟩
    ex_two_a h1 rfl rfl rfl rfl

/-- The two children `"a"` of `ex_two_a`: a file and a directory. -/
theorem sibling_names_unique_witness :
    Grown ex_disk ⟨3, 0⟩ ex_two_a
      ∧ streq (Inode.mk 1 [97] 0 0 0 []).name (Inode.mk 2 [97] 1 0 0 []).name = true
      ∧ ¬ ((Inode.mk 1 [97] 0 0 0 []).is_directory = 0
            ∧ (Inode.mk 2 [97] 1 0 0 []).is_directory = 0)
      ∧ ¬ ((Inode.mk 1 [97] 0 0 0 []).is_directory ≠ 0
            ∧ (Inode.mk 2 [97] 1 0 0 []).is_directory ≠ 0) :=
  ⟨ex_two_a_grown, by decide,
    sibling_names_unique ex_disk ⟨3, 0⟩ ex_two_a ex_two_a_grown [] ex_two_a rfl 0 1
      (Inode.mk 1 [97] 0 0 0 []) (Inode.mk 2 [97] 1 0 0 []) (by decide) rfl rfl (by decide)⟩

/-! ## `create_file` below a file -/

/-- C16: `create_file` does not look at the kind of its parent.  On a parent
with `is_directory = 0`, whatever its entries hold (a child of the same name
too), with a size `s ≥ 0` and enough free blocks, it runs no scan for the
name, does not return `NULL`, and stores the new node behind the last entry of
the parent: the entry count of the parent goes up by exactly one. -/
theorem create_file_on_file_parent (disk : Nat → Int) (g : Sys) (p : Inode) (name : List Nat)
    (readonly : Nat) (s : Int) (hfile : p.is_directory = 0) (hs : 0 ≤ s)
    (hdisk : ∀ i, i < (blocks_needed s).toNat → disk (g.alloc_calls + i) ≠ -1) :
    ∃ f g1, create_file disk g (some p) name readonly s
        = some ⟨some f, some (p.set_entries (p.entries ++ [Slot.ptr f])), g1⟩
      ∧ f.name = cstr name ∧ f.is_directory = 0
      ∧ (p.set_entries (p.entries ++ [Slot.ptr f])).num_entries = p.num_entries + 1
      ∧ g1.alloc_calls = g.alloc_calls + (blocks_needed s).toNat := by
  have hn : 0 ≤ blocks_needed s := by rw [blocks_needed_nonneg s hs]; omega
  have hscan : (if p.is_directory = 1 then create_file_scan name p.entries else some false)
      = some false := by simp [hfile]
  refine ⟨_, _, create_file_eq_of_ok disk g p name readonly s hscan hn hdisk, rfl, rfl, ?_, rfl⟩
  simp [Inode.num_entries]

/-- The file `"readme.txt"` as parent: `create_file(readme, "x", 0, 0)` makes
a file and stores it in the fourth entry of `"readme.txt"`; a second file
`"x"` is then taken as well. -/
theorem create_file_on_file_parent_witness :
    ex_readme.is_directory = 0
      ∧ (∃ f g1, create_file ex_disk ⟨3, 3⟩ (some ex_readme) [120] 0 0
          = some ⟨some f, some (ex_readme.set_entries (ex_readme.entries ++ [Slot.ptr f])), g1⟩
        ∧ f.name = cstr [120] ∧ f.is_directory = 0
        ∧ (ex_readme.set_entries (ex_readme.entries ++ [Slot.ptr f])).num_entries
            = ex_readme.num_entries + 1
        ∧ g1.alloc_calls = (⟨3, 3⟩ : Sys).alloc_calls + (blocks_needed 0).toNat)
      ∧ (create_file ex_disk ⟨4, 3⟩ (some ex_readme_grown) [120] 0 0).map (fun r => r.ret)
          = some (some (Inode.mk 4 [120] 0 0 0 [])) :=
  ⟨rfl,
    create_file_on_file_parent ex_disk ⟨3, 3⟩ ex_readme [120] 0 0 rfl (by decide)
      (by intro i hi; simp only [ex_disk]; omega),
    rfl⟩

/-- The failing input of C14: the file `"readme.txt"` of 10000 bytes is made
with 3 block indices, `ceil(10000 / 4096)`; after `create_file(readme, "x", 0,
0)`, which `create_file` does not refuse, it has 4 entries, the last one a
pointer to the new file. -/
theorem block_list_grows_below_file :
    create_file ex_disk ⟨2, 0⟩ (some ex_docs) ex_readme_name 0 10000
        = some ⟨some ex_readme, some (Inode.mk 1 ex_docs_name 1 0 0 [Slot.ptr ex_readme]), ⟨3, 3⟩⟩
      ∧ ex_readme.num_entries = 3 ∧ blocks_needed 10000 = 3
      ∧ create_file ex_disk ⟨3, 3⟩ (some ex_readme) [120] 0 0
        = some ⟨some (Inode.mk 3 [120] 0 0 0 []), some ex_readme_grown, ⟨4, 3⟩⟩
      ∧ ex_readme_grown.num_entries = 4
      ∧ ex_readme_grown.entries
        = ex_readme.entries ++ [Slot.ptr (Inode.mk 3 [120] 0 0 0 [])]
      ∧ create_dir ⟨3, 3⟩ (some ex_readme) [120] = some ⟨none, some ex_readme, ⟨3, 3⟩⟩ :=
  ⟨rfl, rfl, rfl, rfl, rfl, rfl, rfl⟩

/-! ## What a failing `create_file` leaves behind -/

/-- C18: a `create_file` that fails for an absent parent or for a file child
of the same name calls `allocate_block()` not once and leaves `inode_counter`
as it was.  One that fails because `allocate_block()` answers `-1` has moved
`inode_counter` on by exactly one: the node made by the next successful call
of `create_file` or `create_dir` has the id one above the one that was due, so
the value between is given to no node. -/
theorem create_file_failure_effects (disk : Nat → Int) (g : Sys) (name : List Nat)
    (readonly : Nat) (s : Int) :
    create_file disk g none name readonly s = some ⟨none, none, g⟩
      ∧ (∀ p, p.is_directory = 1 → all_ptrs p.entries →
          (∃ c ∈ p.children, streq c.name name = true ∧ c.is_directory = 0) →
          create_file disk g (some p) name readonly s = some ⟨none, some p, g⟩)
      ∧ (∀ p N, (p.is_directory = 1 → all_ptrs p.entries) →
          (∀ c ∈ p.children, ¬ (streq c.name name = true ∧ c.is_directory = 0)) →
          0 ≤ s → N < (blocks_needed s).toNat →
          (∀ i, i < N → disk (g.alloc_calls + i) ≠ -1) → disk (g.alloc_calls + N) = -1 →
          in_int g.inode_counter → g.inode_counter + 1 < 2147483648 →
          ∃ g1, create_file disk g (some p) name readonly s = some ⟨none, some p, g1⟩
            ∧ g1.inode_counter = g.inode_counter + 1
            ∧ g1.alloc_calls = g.alloc_calls + N + 1
            ∧ (∀ parent2 name2 r2 n, create_dir g1 parent2 name2 = some r2 →
                r2.ret = some n → n.id = g.inode_counter + 1)
            ∧ (∀ parent2 name2 ro2 s2 r2 n,
                create_file disk g1 parent2 name2 ro2 s2 = some r2 →
                r2.ret = some n → n.id = g.inode_counter + 1)) := by
  refine ⟨rfl, ?_, ?_⟩
  · intro p hdir hp ⟨c, hc, hcn, hcd⟩
    have hany : (children_of p.entries).any
        (fun c => streq c.name name && c.is_directory == 0) = true :=
      List.any_eq_true.mpr ⟨c, hc, by simp [hcn, hcd]⟩
    simp [create_file, hdir, create_file_scan_eq name p.entries hp, hany]
  · intro p N hp hdup hs hN hok hfull hg hroom
    have hn : 0 ≤ blocks_needed s := by rw [blocks_needed_nonneg s hs]; omega
    have hr := reserve_blocks_full disk (blocks_needed s).toNat N g.bump hN
      (by simpa [Sys.bump] using hok) (by simpa [Sys.bump] using hfull)
    have hb : g.bump.inode_counter = g.inode_counter + 1 := by
      simp only [Sys.bump]
      exact wrap32_succ _ hg.1 (by omega)
    refine ⟨{ g.bump with alloc_calls := g.bump.alloc_calls + N + 1 }, ?_, hb, rfl, ?_, ?_⟩
    · simp only [create_file, create_file_scan_false name p hp hdup, not_lt.mpr hn, if_false, hr]
    · intro parent2 name2 r2 n h2 hret
      have hnew : new_id r2 = [n.id] := by simp [new_id, hret]
      rcases create_dir_counter _ parent2 name2 r2 h2 with ⟨-, h⟩ | ⟨-, h | h⟩
      · rw [hnew] at h; cases h
      · rw [hnew] at h; cases h
      · rw [hnew] at h
        simp only [List.cons.injEq, and_true] at h
        rw [h]
        exact hb
    · intro parent2 name2 ro2 s2 r2 n h2 hret
      have hnew : new_id r2 = [n.id] := by simp [new_id, hret]
      rcases create_file_counter disk _ parent2 name2 ro2 s2 r2 h2 with ⟨-, h⟩ | ⟨-, h | h⟩
      · rw [hnew] at h; cases h
      · rw [hnew] at h; cases h
      · rw [hnew] at h
        simp only [List.cons.injEq, and_true] at h
        rw [h]
        exact hb

/-- The file of 10000 bytes on the disk with two free blocks, the counter at
1: the counter is 2 afterwards, and the directory made next has the id 2. -/
theorem create_file_failure_effects_witness :
    create_file ex_small_disk ⟨1, 0⟩ (some ex_root) ex_readme_name 0 10000
        = some ⟨none, some ex_root, ⟨2, 3⟩⟩
      ∧ ∃ g1, create_file ex_small_disk ⟨1, 0⟩ (some ex_root) ex_readme_name 0 10000
          = some ⟨none, some ex_root, g1⟩
        ∧ g1.inode_counter = (⟨1, 0⟩ : Sys).inode_counter + 1
        ∧ g1.alloc_calls = (⟨1, 0⟩ : Sys).alloc_calls + 2 + 1
        ∧ (∀ parent2 name2 r2 n, create_dir g1 parent2 name2 = some r2 →
            r2.ret = some n → n.id = (⟨1, 0⟩ : Sys).inode_counter + 1)
        ∧ (∀ parent2 name2 ro2 s2 r2 n,
            create_file ex_small_disk g1 parent2 name2 ro2 s2 = some r2 →
            r2.ret = some n → n.id = (⟨1, 0⟩ : Sys).inode_counter + 1) :=
  ⟨rfl,
    (create_file_failure_effects ex_small_disk ⟨1, 0⟩ ex_readme_name 0 10000).2.2 ex_root 2
      (by intro _ e he; simp [ex_root, Inode.entries] at he)
      (by intro c hc; simp [ex_root, Inode.children, Inode.entries, children_of] at hc)
      (by decide) (by decide)
      (by intro i hi; simp only [ex_small_disk]; split <;> omega)
      (by decide) (by unfold in_int; decide) (by decide)⟩

/-! ## Lookup after a create call -/

theorem create_file_scan_some_false (name : List Nat) (es : List Slot)
    (h : create_file_scan name es = some false) :
    all_ptrs es ∧ ∀ c ∈ children_of es, streq c.name name = true → c.is_directory ≠ 0 := by
  induction es with
  | nil => exact ⟨fun e he => (by cases he), fun c hc => (by cases hc)⟩
  | cons e rest ih =>
    cases e with
    | word w => simp [create_file_scan] at h
    | ptr c0 =>
      simp only [create_file_scan] at h
      split at h
      · cases h
      · next hno =>
        obtain ⟨h1, h2⟩ := ih h
        refine ⟨?_, ?_⟩
        · intro e he
          rcases List.mem_cons.mp he with h3 | h3
          · subst h3; rfl
          · exact h1 e h3
        · intro c hc hcn
          simp only [children_of, List.mem_cons] at hc
          rcases hc with h3 | h3
          · subst h3
            intro hz
            apply hno
            simp [hcn, hz]
          · exact h2 c h3 hcn

theorem create_dir_scan_some_false (name : List Nat) (es : List Slot)
    (h : create_dir_scan name es = some false) :
    all_ptrs es ∧ ∀ c ∈ children_of es, streq c.name name = true → c.is_directory = 0 := by
  induction es with
  | nil => exact ⟨fun e he => (by cases he), fun c hc => (by cases hc)⟩
  | cons e rest ih =>
    cases e with
    | word w => simp [create_dir_scan] at h
    | ptr c0 =>
      simp only [create_dir_scan] at h
      split at h
      · cases h
      · next hno =>
        obtain ⟨h1, h2⟩ := ih h
        refine ⟨?_, ?_⟩
        · intro e he
          rcases List.mem_cons.mp he with h3 | h3
          · subst h3; rfl
          · exact h1 e h3
        · intro c hc hcn
          simp only [children_of, List.mem_cons] at hc
          rcases hc with h3 | h3
          · subst h3
            by_contra hz
            apply hno
            simp [hcn, hz]
          · exact h2 c h3 hcn

/-- What a successful `create_file` on a directory tells: the entries of the
parent were node pointers, the new node is a file with the name and is stored
last, and every child that had the name is a directory. -/
theorem create_file_success_facts (disk : Nat → Int) (g : Sys) (p : Inode) (name : List Nat)
    (readonly : Nat) (s : Int) (r : Call) (n : Inode) (hdir : p.is_directory = 1)
    (h : create_file disk g (some p) name readonly s = some r) (hret : r.ret = some n) :
    all_ptrs p.entries ∧ r.parent = some (p.set_entries (p.entries ++ [Slot.ptr n]))
      ∧ n.name = cstr name ∧ n.is_directory = 0
      ∧ ∀ c ∈ p.children, streq c.name name = true → c.is_directory ≠ 0 := by
  unfold create_file at h
  simp only [hdir, if_true] at h
  split at h
  · cases h
  · cases h; cases hret
  · next hscan =>
    obtain ⟨h1, h2⟩ := create_file_scan_some_false name p.entries hscan
    split at h
    · cases h
    · split at h
      · cases h; cases hret
      · cases h
        cases hret
        exact ⟨h1, rfl, rfl, rfl, h2⟩

/-- What a successful `create_dir` on a directory tells. -/
theorem create_dir_success_facts (g : Sys) (p : Inode) (name : List Nat) (r : Call) (n : Inode)
    (hdir : p.is_directory = 1)
    (h : create_dir g (some p) name = some r) (hret : r.ret = some n) :
    all_ptrs p.entries ∧ r.parent = some (p.set_entries (p.entries ++ [Slot.ptr n]))
      ∧ n.name = cstr name ∧ n.is_directory = 1
      ∧ ∀ c ∈ p.children, streq c.name name = true → c.is_directory = 0 := by
  unfold create_dir at h
  simp only [hdir, if_true] at h
  split at h
  · cases h
  · cases h; cases hret
  · next hscan =>
    obtain ⟨h1, h2⟩ := create_dir_scan_some_false name p.entries hscan
    cases h
    cases hret
    exact ⟨h1, rfl, rfl, rfl, h2⟩

/-- The lookup in a directory after one node has been stored behind its
entries. -/
theorem find_after_append (p n : Inode) (name : List Nat) (hdir : p.is_directory = 1)
    (hp : all_ptrs p.entries) (hn : n.name = cstr name)
    (hkind : ∀ c ∈ p.children, streq c.name name = true → c ≠ n) :
    (∃ c, find_inode_by_name (p.set_entries (p.entries ++ [Slot.ptr n])) name = some (some c)
        ∧ streq c.name name = true)
      ∧ (find_inode_by_name (p.set_entries (p.entries ++ [Slot.ptr n])) name = some (some n)
          ↔ ∀ c ∈ p.children, streq c.name name = false)
      ∧ ((∃ c ∈ p.children, streq c.name name = true) →
          ∃ c0 ∈ p.children,
            find_inode_by_name (p.set_entries (p.entries ++ [Slot.ptr n])) name = some (some c0)
              ∧ find_inode_by_name p name = some (some c0) ∧ streq c0.name name = true)
      ∧ (∀ other, cstr other ≠ cstr name →
          find_inode_by_name (p.set_entries (p.entries ++ [Slot.ptr n])) other
            = find_inode_by_name p other) := by
  have hp1 : all_ptrs (p.entries ++ [Slot.ptr n]) :=
    all_ptrs_append hp (by intro e he; simp at he; subst he; rfl)
  have hfind1 : ∀ nm, find_inode_by_name (p.set_entries (p.entries ++ [Slot.ptr n])) nm
      = some ((p.children.find? (fun c => streq c.name nm)).or
          (if streq n.name nm then some n else none)) := by
    intro nm
    simp only [find_inode_by_name, set_entries_is_directory, hdir, if_true, set_entries_entries,
      find_scan_eq nm _ hp1, children_of_append, List.find?_append, Inode.children]
    simp [children_of, List.find?]
    cases streq n.name nm <;> rfl
  have hfind0 : ∀ nm, find_inode_by_name p nm
      = some (p.children.find? (fun c => streq c.name nm)) := by
    intro nm
    simp [find_inode_by_name, hdir, find_scan_eq nm p.entries hp, Inode.children]
  have hnn : streq n.name name = true := by rw [hn]; exact streq_cstr_self name
  refine ⟨?_, ?_, ?_, ?_⟩
  · rw [hfind1 name, hnn]
    cases hf : p.children.find? (fun c => streq c.name name) with
    | none => exact ⟨n, by simp, hnn⟩
    | some c => exact ⟨c, by simp, by simpa using List.find?_some hf⟩
  · rw [hfind1 name, hnn]
    cases hf : p.children.find? (fun c => streq c.name name) with
    | none =>
      simp only [Option.or, if_true, true_iff]
      intro c hc
      have := List.find?_eq_none.mp hf c hc
      simpa using this
    | some c =>
      have hc1 := List.mem_of_find?_eq_some hf
      have hc2 : streq c.name name = true := by simpa using List.find?_some hf
      simp only [Option.or, Option.some.injEq]
      constructor
      · intro hcn
        exact absurd hcn (hkind c hc1 hc2)
      · intro hall
        rw [hall c hc1] at hc2
        cases hc2
  · rintro ⟨c, hc, hcn⟩
    cases hf : p.children.find? (fun c => streq c.name name) with
    | none =>
      have := List.find?_eq_none.mp hf c hc
      simp [hcn] at this
    | some c0 =>
      refine ⟨c0, List.mem_of_find?_eq_some hf, ?_, ?_, by simpa using List.find?_some hf⟩
      · rw [hfind1 name, hf]; rfl
      · rw [hfind0 name, hf]
  · intro other hother
    have hno : streq n.name other = false := by
      rw [hn]
      simp only [streq, cstr_idem, decide_eq_false_iff_not]
      exact fun h => hother h.symm
    rw [hfind1 other, hfind0 other, hno]
    cases p.children.find? (fun c => streq c.name other) <;> rfl

/-- C19: after a successful `create_file` or `create_dir` of `name` in a
directory, the lookup of `name` in the parent does not return `NULL` and
returns a node of that name; it returns the new node if and only if the
parent had no child of that name before the call, and else the first child
that had the name, which is of the other kind; and the lookup of any other
name returns what it returned before the call. -/
theorem lookup_after_create (disk : Nat → Int) (g : Sys) (p : Inode) (name : List Nat)
    (readonly : Nat) (s : Int) (r : Call) (n : Inode) (hdir : p.is_directory = 1)
    (hcall : create_file disk g (some p) name readonly s = some r
      ∨ create_dir g (some p) name = some r)
    (hret : r.ret = some n) :
    ∃ p1, r.parent = some p1
      ∧ (∃ c, find_inode_by_name p1 name = some (some c) ∧ streq c.name name = true)
      ∧ (find_inode_by_name p1 name = some (some n)
          ↔ ∀ c ∈ p.children, streq c.name name = false)
      ∧ ((∃ c ∈ p.children, streq c.name name = true) →
          ∃ c0 ∈ p.children, find_inode_by_name p1 name = some (some c0)
            ∧ find_inode_by_name p name = some (some c0) ∧ streq c0.name name = true
            ∧ (c0.is_directory = 0 ↔ n.is_directory ≠ 0))
      ∧ (∀ other, cstr other ≠ cstr name →
          find_inode_by_name p1 other = find_inode_by_name p other) := by
  have key : all_ptrs p.entries ∧ r.parent = some (p.set_entries (p.entries ++ [Slot.ptr n]))
      ∧ n.name = cstr name
      ∧ ∀ c ∈ p.children, streq c.name name = true → (c.is_directory = 0 ↔ n.is_directory ≠ 0) := by
    rcases hcall with h | h
    · obtain ⟨h1, h2, h3, h4, h5⟩ := create_file_success_facts disk g p name readonly s r n hdir
        h hret
      refine ⟨h1, h2, h3, fun c hc hcn => ?_⟩
      have := h5 c hc hcn
      rw [h4]
      simp [this]
    · obtain ⟨h1, h2, h3, h4, h5⟩ := create_dir_success_facts g p name r n hdir h hret
      refine ⟨h1, h2, h3, fun c hc hcn => ?_⟩
      have := h5 c hc hcn
      rw [h4]
      simp [this]
  obtain ⟨hp, hpar, hn, hkind⟩ := key
  have hne : ∀ c ∈ p.children, streq c.name name = true → c ≠ n := by
    intro c hc hcn heq
    have := hkind c hc hcn
    rw [heq] at this
    by_cases hz : n.is_directory = 0
    · exact (this.mp hz) hz
    · exact hz (this.mpr hz)
  obtain ⟨f1, f2, f3, f4⟩ := find_after_append p n name hdir hp hn hne
  refine ⟨_, hpar, f1, f2, ?_, f4⟩
  intro hex
  obtain ⟨c0, hc0, a1, a2, a3⟩ := f3 hex
  exact ⟨c0, hc0, a1, a2, a3, hkind c0 hc0 a3⟩

/-- The directory `"a"` made below the root that has the file `"a"`: the
lookup of `"a"` still returns the file. -/
theorem lookup_after_create_witness :
    ex_one_a.is_directory = 1
      ∧ create_dir ⟨2, 0⟩ (some ex_one_a) [97]
          = some ⟨some (Inode.mk 2 [97] 1 0 0 []), some ex_two_a, ⟨3, 0⟩⟩
      ∧ find_inode_by_name ex_two_a [97] = some (some (Inode.mk 1 [97] 0 0 0 []))
      ∧ ∃ p1, (⟨some (Inode.mk 2 [97] 1 0 0 []), some ex_two_a, ⟨3, 0⟩⟩ : Call).parent = some p1
        ∧ (∃ c, find_inode_by_name p1 [97] = some (some c) ∧ streq c.name [97] = true)
        ∧ (find_inode_by_name p1 [97] = some (some (Inode.mk 2 [97] 1 0 0 []))
            ↔ ∀ c ∈ ex_one_a.children, streq c.name [97] = false)
        ∧ ((∃ c ∈ ex_one_a.children, streq c.name [97] = true) →
            ∃ c0 ∈ ex_one_a.children, find_inode_by_name p1 [97] = some (some c0)
              ∧ find_inode_by_name ex_one_a [97] = some (some c0) ∧ streq c0.name [97] = true
              ∧ (c0.is_directory = 0 ↔ (Inode.mk 2 [97] 1 0 0 []).is_directory ≠ 0))
        ∧ (∀ other, cstr other ≠ cstr [97] →
            find_inode_by_name p1 other = find_inode_by_name ex_one_a other) :=
  ⟨rfl, rfl, rfl,
    lookup_after_create ex_disk ⟨2, 0⟩ ex_one_a [97] 0 0
      ⟨some (Inode.mk 2 [97] 1 0 0 []), some ex_two_a, ⟨3, 0⟩⟩ (Inode.mk 2 [97] 1 0 0 []) rfl
      (Or.inr rfl) rfl⟩

/-! ## Ids after a load -/

/-- The failing input of C15.  First process, on a disk with two free blocks:
the root gets the id 0, a file of 10000 bytes is refused (the id 1 is used
up), `"docs"` gets the id 2.  Second process, counter at 0: `create_inode`
reads the two nodes back and leaves the counter at 2, and the directory made
next gets the id 2, the id of `"docs"`. -/
theorem id_reused_after_load :
    run_calls ex_small_disk ex_sys
        [Op.dir none ex_slash, Op.file (some ex_root) ex_readme_name 0 10000,
          Op.dir (some ex_root) ex_docs_name] = some (⟨3, 3⟩, [0, 2])
      ∧ create_dir ⟨2, 3⟩ (some ex_root) ex_docs_name
          = some ⟨some (Inode.mk 2 ex_docs_name 1 0 0 []),
              some (Inode.mk 0 ex_slash 1 0 0 [Slot.ptr (Inode.mk 2 ex_docs_name 1 0 0 [])]),
              ⟨3, 3⟩⟩
      ∧ create_inode zero_memory 2 ex_sys (superblock (fun _ => 0)
            (Inode.mk 0 ex_slash 1 0 0 [Slot.ptr (Inode.mk 2 ex_docs_name 1 0 0 [])]))
          = some (Inode.mk 0 ex_slash 1 0 0 [Slot.ptr (Inode.mk 2 ex_docs_name 1 0 0 [])],
              ⟨2, 0⟩, [])
      ∧ (create_dir ⟨2, 0⟩
            (some (Inode.mk 0 ex_slash 1 0 0 [Slot.ptr (Inode.mk 2 ex_docs_name 1 0 0 [])]))
            [120]).map (fun r => r.ret)
          = some (some (Inode.mk 2 [120] 1 0 0 []))
      ∧ (Inode.mk 2 [120] 1 0 0 []).id = (Inode.mk 2 ex_docs_name 1 0 0 []).id :=
  ⟨rfl, rfl, rfl, rfl, rfl⟩

/-! ## `fs_shutdown` -/

/-- Induction over a tree and the arrays of entries in it. -/
theorem inode_induction (P : Inode → Prop) (Q : List Slot → Prop)
    (hmk : ∀ id name d r sz es, Q es → P (Inode.mk id name d r sz es))
    (hnil : Q [])
    (hword : ∀ w rest, Q rest → Q (Slot.word w :: rest))
    (hptr : ∀ c rest, P c → Q rest → Q (Slot.ptr c :: rest)) :
    (∀ t, P t) ∧ ∀ es, Q es := by
  have hS : ∀ s : Slot, (match s with | Slot.word _ => True | Slot.ptr c => P c) → ∀ rest,
      Q rest → Q (s :: rest) := by
    intro s hs rest hrest
    cases s with
    | word w => exact hword w rest hrest
    | ptr c => exact hptr c rest hs hrest
  have hP : ∀ t, P t := fun t =>
    @Inode.rec P (fun s => match s with | Slot.word _ => True | Slot.ptr c => P c) Q
      (fun id name d r sz es h => hmk id name d r sz es h)
      (fun _ => trivial) (fun c h => h) hnil (fun s rest hs hrest => hS s hs rest hrest) t
  refine ⟨hP, fun es => ?_⟩
  induction es with
  | nil => exact hnil
  | cons e rest ih =>
    cases e with
    | word w => exact hword w rest ih
    | ptr c => exact hptr c rest (hP c) ih

theorem postorder_children_words (addr : List Nat) (i : Nat) (es : List Slot)
    (h : sound_entries 0 es) : postorder_children addr i es = [] := by
  induction es generalizing i with
  | nil => rfl
  | cons e rest ih =>
    cases e with
    | ptr c => simp [sound_entries] at h
    | word w =>
      simp only [sound_entries, true_and] at h
      simp only [postorder_children]
      exact ih (i + 1) h

/-- On a tree with the shape `fs_shutdown` releases the nodes in the order
`postorder`. -/
theorem fs_shutdown_node_eq :
    (∀ t, sound t → ∀ addr, fs_shutdown_node addr t = some (postorder addr t))
      ∧ ∀ es, sound_entries 1 es → ∀ addr i,
          fs_shutdown_loop addr i es = some (postorder_children addr i es) := by
  apply inode_induction
  · intro id name d r sz es ih hs addr
    rw [sound_mk] at hs
    obtain ⟨hd, hes, -⟩ := hs
    rcases hd with hd | hd
    · subst hd
      simp [fs_shutdown_node, postorder, postorder_children_words addr 0 es hes]
    · subst hd
      simp [fs_shutdown_node, postorder, ih hes addr 0]
  · intro _ addr i
    rfl
  · intro w rest _ hs
    simp [sound_entries] at hs
  · intro c rest ihc ihrest hs addr i
    simp only [sound_entries, true_and] at hs
    simp [fs_shutdown_loop, postorder_children, ihc hs.1 (addr ++ [i]), ihrest hs.2 addr (i + 1)]

/-- The places `postorder` lists are the places of the nodes reached through
pointer entries. -/
theorem mem_postorder :
    (∀ t, ∀ addr path, path ∈ postorder addr t
        ↔ ∃ q, path = addr ++ q ∧ (node_at t q).isSome = true)
      ∧ ∀ es, ∀ addr i path, path ∈ postorder_children addr i es
          ↔ ∃ k c q, es[k]? = some (Slot.ptr c) ∧ path = addr ++ (i + k) :: q
              ∧ (node_at c q).isSome = true := by
  apply inode_induction
  · intro id name d r sz es ih addr path
    simp only [postorder, List.mem_append, List.mem_singleton, ih addr 0 path, Nat.zero_add]
    constructor
    · rintro (⟨k, c, q, hk, hp, hq⟩ | hp)
      · exact ⟨k :: q, hp, by simp [node_at, Inode.entries, hk, hq]⟩
      · exact ⟨[], by simp [hp], rfl⟩
    · rintro ⟨q, hp, hq⟩
      cases q with
      | nil => exact Or.inr (by simpa using hp)
      | cons k q =>
        left
        simp only [node_at, Inode.entries] at hq
        split at hq
        · next c hc => exact ⟨k, c, q, hc, hp, hq⟩
        · cases hq
  · intro addr i path
    simp [postorder_children]
  · intro w rest ih addr i path
    simp only [postorder_children, ih addr (i + 1) path]
    constructor
    · rintro ⟨k, c, q, hk, hp, hq⟩
      exact ⟨k + 1, c, q, by simpa using hk, by rw [hp]; congr 2; omega, hq⟩
    · rintro ⟨k, c, q, hk, hp, hq⟩
      cases k with
      | zero => simp at hk
      | succ k => exact ⟨k, c, q, by simpa using hk, by rw [hp]; congr 2; omega, hq⟩
  · intro c0 rest ihc ihrest addr i path
    simp only [postorder_children, List.mem_append, ihc (addr ++ [i]) path,
      ihrest addr (i + 1) path]
    constructor
    · rintro (⟨q, hp, hq⟩ | ⟨k, c, q, hk, hp, hq⟩)
      · exact ⟨0, c0, q, by simp, by simpa using hp, hq⟩
      · exact ⟨k + 1, c, q, by simpa using hk, by rw [hp]; congr 2; omega, hq⟩
    · rintro ⟨k, c, q, hk, hp, hq⟩
      cases k with
      | zero =>
        simp only [List.getElem?_cons_zero, Option.some.injEq, Slot.ptr.injEq] at hk
        subst hk
        exact Or.inl ⟨q, by simpa using hp, hq⟩
      | succ k =>
        exact Or.inr ⟨k, c, q, by simpa using hk, by rw [hp]; congr 2; omega, hq⟩

/-- No place is listed twice by `postorder`. -/
theorem nodup_postorder :
    (∀ t, ∀ addr, (postorder addr t).Nodup)
      ∧ ∀ es, ∀ addr i, (postorder_children addr i es).Nodup := by
  apply inode_induction
  · intro id name d r sz es ih addr
    simp only [postorder]
    rw [List.nodup_append]
    refine ⟨ih addr 0, List.nodup_singleton _, ?_⟩
    intro x hx hx2
    rw [List.mem_singleton] at hx2
    subst hx2
    obtain ⟨k, c, q, -, hp, -⟩ := (mem_postorder.2 es x 0 x).mp hx
    have := congrArg List.length hp
    simp at this
  · intro addr i
    exact List.nodup_nil
  · intro w rest ih addr i
    simp only [postorder_children]
    exact ih addr (i + 1)
  · intro c rest ihc ihrest addr i
    simp only [postorder_children]
    rw [List.nodup_append]
    refine ⟨ihc (addr ++ [i]), ihrest addr (i + 1), ?_⟩
    intro x hx hx2
    obtain ⟨q, hp, -⟩ := (mem_postorder.1 c (addr ++ [i]) x).mp hx
    obtain ⟨k, c2, q2, -, hp2, -⟩ := (mem_postorder.2 rest addr (i + 1) x).mp hx2
    rw [hp2, List.append_assoc] at hp
    have := List.append_cancel_left hp
    simp only [List.singleton_append, List.cons.injEq] at this
    omega

theorem built_grown (disk : Nat → Int) (g : Sys) (t : Inode) (hb : Built disk g t) :
    Grown disk g t := by
  induction hb with
  | root g name r d _ _ hcall hret => exact Grown.root g name r d hcall hret
  | file g t path p name readonly s r p1 _ hp hdir _ _ _ hcall hpar ih =>
    exact Grown.file g t path p name readonly s r p1 ih hp hdir hcall hpar
  | dir g t path p name r p1 _ hp hdir _ _ hcall hpar ih =>
    exact Grown.dir g t path p name r p1 ih hp hdir hcall hpar

/-- C17: on every tree built by calls of `create_file` and `create_dir` on
directories, `fs_shutdown(root)` ends and releases the nodes in post-order
(the sub-trees of the children of a node, in the order of the children, then
the node; the root last); every node reached from the root through pointer
entries is released, each exactly once, and nothing else is; of a file only
the node is released, whatever its entries hold: its block indices are not
followed.  On `NULL` it releases nothing.  The globals are what they were:
`allocate_block()` is not called. -/
theorem fs_shutdown_postorder (disk : Nat → Int) (g : Sys) (t : Inode) (hb : Grown disk g t)
    (g0 : Sys) :
    fs_shutdown g0 (some t) = some (postorder [] t, g0)
      ∧ (postorder [] t).Nodup
      ∧ (∀ path, path ∈ postorder [] t ↔ (node_at t path).isSome = true)
      ∧ (postorder [] t).getLast? = some []
      ∧ (∀ addr id name r sz es, fs_shutdown_node addr (Inode.mk id name 0 r sz es) = some [addr])
      ∧ fs_shutdown g0 none = some ([], g0) := by
  have hs := grown_sound disk g t hb
  refine ⟨?_, nodup_postorder.1 t [], ?_, ?_, ?_, rfl⟩
  · simp [fs_shutdown, fs_shutdown_node_eq.1 t hs []]
  · intro path
    rw [mem_postorder.1 t [] path]
    simp
  · cases t with
    | mk id name d r sz es => simp [postorder]
  · intro addr id name r sz es
    simp [fs_shutdown_node]

/-- The scenario: `"readme.txt"` is released first, then `"docs"`, then the
root. -/
theorem fs_shutdown_postorder_witness :
    Grown ex_disk ⟨3, 3⟩ ex_tree
      ∧ fs_shutdown ex_sys (some ex_tree) = some ([[0, 0], [0], []], ex_sys)
      ∧ fs_shutdown ex_sys (some ex_tree) = some (postorder [] ex_tree, ex_sys)
      ∧ (postorder [] ex_tree).Nodup :=
  have hg : Grown ex_disk ⟨3, 3⟩ ex_tree := built_grown ex_disk ⟨3, 3⟩ ex_tree ex_tree_built
  have h := fs_shutdown_postorder ex_disk ⟨3, 3⟩ ex_tree hg ex_sys
  ⟨hg, rfl, h.1, h.2.1⟩

/-! ## `create_inode` on a stream that ends early -/

theorem map_zero_memory (old : Nat → Nat) (hold : ∀ i, old i = 0) (l : List Nat) :
    l.map old = List.replicate l.length 0 := by
  induction l with
  | nil => rfl
  | cons x l ih => simp [ih, hold x, List.replicate_succ]

/-- A read at the end of the stream leaves the buffer as it was. -/
theorem fread_nil (old : Nat → Nat) (hold : ∀ i, old i = 0) (n : Nat) :
    fread old n [] = (List.replicate n 0, []) := by
  simp [fread, map_zero_memory old hold]

/-- A read of a field `a` from a stream cut after `j` bytes: the bytes of `a`
that are there, zeros for the others, and the stream behind `a` cut `|a|` bytes
earlier. -/
theorem fread_take (old : Nat → Nat) (hold : ∀ i, old i = 0) (a rest : List Nat) (j : Nat) :
    fread old a.length ((a ++ rest).take j)
      = (a.take j ++ List.replicate (a.length - j) 0, rest.take (j - a.length)) := by
  unfold fread
  rw [map_zero_memory old hold]
  refine Prod.ext ?_ ?_
  · simp only [List.length_range', List.length_take, List.length_append, List.take_take]
    congr 1
    · rcases Nat.lt_or_ge j a.length with h | h
      · rw [Nat.min_eq_right (Nat.le_of_lt h), List.take_append_of_le_length (Nat.le_of_lt h)]
      · rw [Nat.min_eq_left h, List.take_left, List.take_of_length_le h]
    · congr 1
      omega
  · simp only [List.drop_take, List.drop_left]

theorem fread_take_of_length (old : Nat → Nat) (hold : ∀ i, old i = 0) (n : Nat)
    (a rest : List Nat) (j : Nat) (h : a.length = n) :
    fread old n ((a ++ rest).take j)
      = (a.take j ++ List.replicate (n - j) 0, rest.take (j - n)) := by
  subst h; exact fread_take old hold a rest j

/-- What a read leaves of a stream cut after `j` bytes, whatever the buffer
held. -/
theorem fread_take_pair (old : Nat → Nat) (n : Nat) (a rest : List Nat) (j : Nat)
    (h : a.length = n) :
    fread old n ((a ++ rest).take j)
      = ((fread old n ((a ++ rest).take j)).1, rest.take (j - n)) := by
  subst h
  refine Prod.ext rfl ?_
  simp only [fread, List.drop_take, List.drop_left]

theorem fread_nil_pair (old : Nat → Nat) (n : Nat) :
    fread old n [] = ((fread old n []).1, []) := by
  refine Prod.ext rfl ?_
  simp [fread]

theorem le_nat_replicate_zero (m : Nat) : le_nat (List.replicate m 0) = 0 := by
  induction m with
  | zero => rfl
  | succ m ih => simp [List.replicate_succ, le_nat, ih]

/-- A number of which only the low bytes were read is not above the number. -/
theorem le_nat_take_le (bs : List Nat) (j m : Nat) :
    le_nat (bs.take j ++ List.replicate m 0) ≤ le_nat bs := by
  induction bs generalizing j with
  | nil => simp [le_nat_replicate_zero, le_nat]
  | cons b bs ih =>
    cases j with
    | zero => simp [le_nat_replicate_zero]
    | succ j =>
      have := ih j
      show b % 256 + 256 * le_nat (bs.take j ++ List.replicate m 0) ≤ b % 256 + 256 * le_nat bs
      omega

theorem int_of_bytes_of_lt (bs : List Nat) (h : le_nat bs < 2147483648) :
    int_of_bytes bs = (le_nat bs : Int) := by
  unfold int_of_bytes
  have h1 : le_nat bs % 4294967296 = le_nat bs := Nat.mod_eq_of_lt (by omega)
  rw [h1, if_pos h]

theorem le_nat_int_bytes (v : Nat) (h : v < 2147483648) : le_nat (int_bytes (v : Int)) = v := by
  unfold int_bytes
  rw [le_nat_le_bytes]
  have h1 : ((v : Int) % 4294967296).toNat = v := by omega
  rw [h1]
  norm_num
  omega

/-- A count of which only the low bytes were read is not negative and not
above the count. -/
theorem int_of_bytes_take (v j m : Nat) (h : v < 2147483648) :
    ∃ v1 : Nat, int_of_bytes ((int_bytes (v : Int)).take j ++ List.replicate m 0) = (v1 : Int)
      ∧ v1 ≤ v := by
  have hle := le_nat_take_le (int_bytes (v : Int)) j m
  rw [le_nat_int_bytes v h] at hle
  exact ⟨_, int_of_bytes_of_lt _ (by omega), hle⟩

theorem le_nat_take_one (d j m : Nat) (hd : d < 256)
    (h : le_nat ([d].take j ++ List.replicate m 0) = 1) : d = 1 ∧ 0 < j := by
  cases j with
  | zero => simp [le_nat_replicate_zero] at h
  | succ j =>
    simp only [List.take_succ_cons, List.take_nil, List.cons_append, List.nil_append, le_nat,
      le_nat_replicate_zero, Nat.mod_eq_of_lt hd] at h
    omega

section

seal int_of_bytes

/-- The body of `create_inode` returns a node when the two counts it reads are
not negative and, for a directory, the loop over the children returns. -/
theorem create_inode_body_returns (junk : Int → Nat → Nat → Nat)
    (dec : Sys → List Nat → Option (Inode × Sys × List Nat)) (g : Sys) (s : List Nat)
    (b1 b2 b3 b4 b5 b6 b7 s1 s2 s3 s4 s5 s6 s7 out : List Nat) (nl ne : Nat)
    (h1 : fread (junk g.inode_counter 0) 4 s = (b1, s1))
    (h2 : fread (junk g.inode_counter 1) 4 s1 = (b2, s2))
    (hlen : int_of_bytes b2 = (nl : Int))
    (h3 : fread (junk g.inode_counter 2) nl s2 = (b3, s3))
    (h4 : fread (junk g.inode_counter 3) 1 s3 = (b4, s4))
    (h5 : fread (junk g.inode_counter 4) 1 s4 = (b5, s5))
    (h6 : fread (junk g.inode_counter 5) 4 s5 = (b6, s6))
    (h7 : fread (junk g.inode_counter 6) 4 s6 = (b7, s7))
    (hnum : int_of_bytes b7 = (ne : Int))
    (hfile : le_nat b4 ≠ 1 → (read_longs (junk g.inode_counter 7) ne s7).2 = out)
    (hdir : le_nat b4 = 1 → ∃ cs g2, link_entries dec ne g.bump
        (read_longs (junk g.inode_counter 7) ne s7).2 = some (cs, g2, out)) :
    ∃ n g1, create_inode_body junk dec g s = some (n, g1, out) := by
  have hn1 : ¬ ((nl : Int) < 0) := by omega
  have hn2 : ¬ ((ne : Int) < 0) := by omega
  simp only [create_inode_body, h1, h2, hlen, hn1, false_and, if_false, Int.toNat_ofNat, h3, h4,
    h5, h6, h7, hnum, hn2]
  by_cases hd : le_nat b4 = 1
  · obtain ⟨cs, g2, hl⟩ := hdir hd
    simp only [hd, if_true, hl]
    exact ⟨_, _, rfl⟩
  · simp only [hd, if_false, hfile hd]
    exact ⟨_, _, rfl⟩

end

theorem int_of_bytes_zeros (m : Nat) : int_of_bytes (List.replicate m 0) = 0 := by
  rw [int_of_bytes_of_lt _ (by rw [le_nat_replicate_zero]; norm_num), le_nat_replicate_zero]
  rfl

/-- At the end of the stream, with steady memory, `create_inode` returns a
node. -/
theorem create_inode_nil (junk : Int → Nat → Nat → Nat) (hj : steady junk) (fuel : Nat)
    (g : Sys) : ∃ n g1, create_inode junk (fuel + 1) g [] = some (n, g1, []) := by
  have hz1 : ∀ i, junk g.inode_counter 1 i = 0 := fun i => (hj _ i).1
  have hz3 : ∀ i, junk g.inode_counter 3 i = 0 := fun i => (hj _ i).2.1
  have hz6 : ∀ i, junk g.inode_counter 6 i = 0 := fun i => (hj _ i).2.2
  rw [create_inode_succ]
  refine create_inode_body_returns junk _ g [] _ _ _ _ _ _ _ _ _ _ _ _ _ _ [] 0 0
    (fread_nil_pair _ 4) (fread_nil _ hz1 4) ?_ (fread_nil_pair _ _)
    (fread_nil _ hz3 1) (fread_nil_pair _ 1) (fread_nil_pair _ 4) (fread_nil _ hz6 4)
    ?_ ?_ ?_
  · rw [int_of_bytes_zeros]; rfl
  · rw [int_of_bytes_zeros]; rfl
  · intro _
    rw [read_longs_snd, List.drop_nil]
  · intro h
    rw [le_nat_replicate_zero] at h
    cases h

/-- The loop of lines 162-164 at the end of the stream. -/
theorem link_entries_nil (junk : Int → Nat → Nat → Nat) (hj : steady junk) (fuel k : Nat)
    (hk : k = 0 ∨ 0 < fuel) (g : Sys) :
    ∃ cs g2, link_entries (create_inode junk fuel) k g [] = some (cs, g2, []) := by
  induction k generalizing g with
  | zero => exact ⟨[], g, rfl⟩
  | succ k ih =>
    have hf : 0 < fuel := by
      rcases hk with h | h
      · cases h
      · exact h
    obtain ⟨f, rfl⟩ : ∃ f, fuel = f + 1 := ⟨fuel - 1, by omega⟩
    obtain ⟨n, g1, hn⟩ := create_inode_nil junk hj f g
    obtain ⟨cs, g2, hcs⟩ := ih (Or.inr hf) g1
    exact ⟨Slot.ptr n :: cs, g2, by simp only [link_entries, hn, hcs]⟩

/-- The block indices that end a stream are part of it, behind the fields of
the root. -/
theorem tail_words_le (slot : Inode → Nat) :
    (∀ t, 8 * tail_words t + 18 + t.name.length ≤ (superblock slot t).length)
      ∧ ∀ es, 8 * tail_words_children es ≤ (superblock_children slot es).length := by
  refine inode_induction
    (fun t => 8 * tail_words t + 18 + t.name.length ≤ (superblock slot t).length)
    (fun es => 8 * tail_words_children es ≤ (superblock_children slot es).length) ?_ ?_ ?_ ?_
  · intro id name d r sz es hq
    have hl := superblock_length slot (Inode.mk id name d r sz es)
    simp only [Inode.name, Inode.entries] at hl ⊢
    rw [hl]
    by_cases hd : d = 1
    · simp only [tail_words, hd, if_true]
      omega
    · simp only [tail_words, hd, if_false]
      omega
  · simp [tail_words_children, superblock_children]
  · intro w rest hq
    simpa [tail_words_children, superblock_children] using hq
  · intro c rest hp hq
    simp only [tail_words_children, superblock_children, List.length_append]
    split
    · omega
    · omega

/-- The loop of lines 162-164 on the streams of the children cut after `j`
bytes, when the recursive call returns on every cut stream of a child. -/
theorem link_entries_cut (junk : Int → Nat → Nat → Nat) (slot : Inode → Nat) (fuel : Nat)
    (ih : ∀ t, storable t = true → height t ≤ fuel → ∀ g j tail,
      (steady junk ∨ (superblock slot t).length ≤ j + 8 * tail_words t) →
      ∃ n g1, create_inode junk fuel g ((superblock slot t ++ tail).take j)
        = some (n, g1, tail.take (j - (superblock slot t).length)))
    (es : List Slot) (hs : storable_entries true es = true) (hh : height_entries es ≤ fuel)
    (g : Sys) (j : Nat) (tail : List Nat)
    (hcut : steady junk
      ∨ (superblock_children slot es).length ≤ j + 8 * tail_words_children es) :
    ∃ cs g1, link_entries (create_inode junk fuel) es.length g
        ((superblock_children slot es ++ tail).take j)
      = some (cs, g1, tail.take (j - (superblock_children slot es).length)) := by
  induction es generalizing g j with
  | nil => exact ⟨[], g, rfl⟩
  | cons e tl ihl =>
    cases e with
    | word w => simp [storable_entries] at hs
    | ptr c =>
      simp only [storable_entries, Bool.true_and, Bool.and_eq_true] at hs
      simp only [height_entries, max_le_iff] at hh
      have hparts : (steady junk ∨ (superblock slot c).length ≤ j + 8 * tail_words c)
          ∧ (steady junk ∨ (superblock_children slot tl).length
              ≤ j - (superblock slot c).length + 8 * tail_words_children tl) := by
        rcases hcut with h | h
        · exact ⟨Or.inl h, Or.inl h⟩
        · have htl := (tail_words_le slot).2 tl
          simp only [tail_words_children, superblock_children, List.length_append] at h
          cases tl with
          | nil =>
            simp only [List.isEmpty_nil, if_true, superblock_children, List.length_nil,
              tail_words_children] at h ⊢
            exact ⟨Or.inr (by omega), Or.inr (by omega)⟩
          | cons e2 tl2 =>
            simp only [List.isEmpty_cons, Bool.false_eq_true, if_false] at h
            exact ⟨Or.inr (by omega), Or.inr (by omega)⟩
      obtain ⟨n, g1, hc⟩ := ih c hs.1 hh.1 g j (superblock_children slot tl ++ tail) hparts.1
      obtain ⟨cs, g2, htl⟩ := ihl hs.2 hh.2 g1 (j - (superblock slot c).length) hparts.2
      refine ⟨Slot.ptr n :: cs, g2, ?_⟩
      simp only [List.length_cons, link_entries, superblock_children, List.append_assoc, hc, htl,
        List.length_append, Nat.sub_sub]


/-- From the stream of a storable tree cut after `k` bytes `create_inode`
returns a node, and leaves nothing of the stream when the cut is inside the
tree: wherever the cut is when memory is steady, and whatever memory holds
when the cut is inside the block indices that end the stream. -/
theorem superblock_cut_decodes (junk : Int → Nat → Nat → Nat) (slot : Inode → Nat)
    (fuel : Nat) :
    ∀ t, storable t = true → height t ≤ fuel → ∀ g k tail,
      (steady junk ∨ (superblock slot t).length ≤ k + 8 * tail_words t) →
      ∃ n g1, create_inode junk fuel g ((superblock slot t ++ tail).take k)
        = some (n, g1, tail.take (k - (superblock slot t).length)) := by
  induction fuel with
  | zero =>
    intro t _ hh
    cases t
    simp [height] at hh
  | succ fuel ih =>
    intro t hs hh g k tail hcut
    have hlenT := superblock_length slot t
    have htw := (tail_words_le slot).1 t
    have htwc := (tail_words_le slot).2 t.entries
    cases t with
    | mk id name d r sz es =>
      simp only [storable, Bool.and_eq_true, decide_eq_true_eq] at hs
      obtain ⟨⟨⟨⟨⟨⟨⟨⟨hid1, hid2⟩, hname⟩, hd⟩, hr⟩, hsz1⟩, hsz2⟩, hlen⟩, hes⟩ := hs
      simp only [height, Nat.add_le_add_iff_right] at hh
      simp only [Inode.name, Inode.entries] at hlenT htw htwc
      have hstream : superblock slot (Inode.mk id name d r sz es) ++ tail
          = int_bytes id ++ (int_bytes name.length ++ (name ++ ([d] ++ ([r]
              ++ (int_bytes sz ++ (int_bytes es.length
                ++ (superblock_words slot es ++ (superblock_children slot es ++ tail)))))))) := by
        simp [superblock, Nat.mod_eq_of_lt hd, Nat.mod_eq_of_lt hr]
      have hnl : int_of_bytes (int_bytes (name.length : Int)) = (name.length : Int) :=
        int_of_bytes_int_bytes _ (in_int_of_nat _ hname)
      rcases Nat.lt_or_ge k (18 + name.length) with hk | hk
      · -- the stream ends inside the fields of the node
        have hj : steady junk := by
          rcases hcut with h | h
          · exact h
          · omega
        have hz1 : ∀ i, junk g.inode_counter 1 i = 0 := fun i => (hj _ i).1
        have hz3 : ∀ i, junk g.inode_counter 3 i = 0 := fun i => (hj _ i).2.1
        have hz6 : ∀ i, junk g.inode_counter 6 i = 0 := fun i => (hj _ i).2.2
        have hout : tail.take (k - (superblock slot (Inode.mk id name d r sz es)).length) = [] := by
          have : k - (superblock slot (Inode.mk id name d r sz es)).length = 0 := by omega
          rw [this, List.take_zero]
        rw [hout, hstream, create_inode_succ]
        have h1 := fread_take_pair (junk g.inode_counter 0) 4 (int_bytes id)
          (int_bytes name.length ++ (name ++ ([d] ++ ([r] ++ (int_bytes sz ++ (int_bytes es.length
            ++ (superblock_words slot es ++ (superblock_children slot es ++ tail)))))))) k
          (int_bytes_length id)
        have h2 := fread_take_of_length _ hz1 4 (int_bytes name.length)
          (name ++ ([d] ++ ([r] ++ (int_bytes sz ++ (int_bytes es.length
            ++ (superblock_words slot es ++ (superblock_children slot es ++ tail))))))) (k - 4)
          (int_bytes_length _)
        rcases Nat.lt_or_ge k 8 with hk8 | hk8
        · -- before the end of `name_len`
          have h0 : k - 4 - 4 = 0 := by omega
          rw [h0, List.take_zero] at h2
          obtain ⟨v, hv, -⟩ := int_of_bytes_take name.length (k - 4) (4 - (k - 4)) hname
          refine create_inode_body_returns junk _ g _ _ _ _ _ _ _ _ _ _ _ _ _ _ _ [] v 0
            h1 h2 hv (fread_nil_pair _ _)
            (fread_nil _ hz3 1) (fread_nil_pair _ 1) (fread_nil_pair _ 4)
            (fread_nil _ hz6 4) ?_ ?_ ?_
          · rw [int_of_bytes_zeros]; rfl
          · intro _
            rw [read_longs_snd, List.drop_nil]
          · intro h
            rw [le_nat_replicate_zero] at h
            cases h
        · -- behind `name_len`, which is read in full
          have hb2 : (int_bytes (name.length : Int)).take (k - 4) ++ List.replicate (4 - (k - 4)) 0
              = int_bytes (name.length : Int) := by
            have e1 : 4 - (k - 4) = 0 := by omega
            rw [List.take_of_length_le (by rw [int_bytes_length]; omega), e1]
            simp
          rw [hb2] at h2
          have h3 := fread_take_pair (junk g.inode_counter 2) name.length name
            ([d] ++ ([r] ++ (int_bytes sz ++ (int_bytes es.length
              ++ (superblock_words slot es ++ (superblock_children slot es ++ tail))))))
            (k - 4 - 4) rfl
          have h4 := fread_take_of_length _ hz3 1 [d]
            ([r] ++ (int_bytes sz ++ (int_bytes es.length
              ++ (superblock_words slot es ++ (superblock_children slot es ++ tail)))))
            (k - 4 - 4 - name.length) rfl
          have h5 := fread_take_pair (junk g.inode_counter 4) 1 [r]
            (int_bytes sz ++ (int_bytes es.length
              ++ (superblock_words slot es ++ (superblock_children slot es ++ tail))))
            (k - 4 - 4 - name.length - 1) rfl
          have h6 := fread_take_pair (junk g.inode_counter 5) 4 (int_bytes sz)
            (int_bytes es.length
              ++ (superblock_words slot es ++ (superblock_children slot es ++ tail)))
            (k - 4 - 4 - name.length - 1 - 1) (int_bytes_length _)
          have h7 := fread_take_of_length _ hz6 4 (int_bytes es.length)
            (superblock_words slot es ++ (superblock_children slot es ++ tail))
            (k - 4 - 4 - name.length - 1 - 1 - 4) (int_bytes_length _)
          have h0 : k - 4 - 4 - name.length - 1 - 1 - 4 - 4 = 0 := by omega
          rw [h0, List.take_zero] at h7
          obtain ⟨v, hv, hvle⟩ := int_of_bytes_take es.length
            (k - 4 - 4 - name.length - 1 - 1 - 4) (4 - (k - 4 - 4 - name.length - 1 - 1 - 4)) hlen
          refine create_inode_body_returns junk _ g _ _ _ _ _ _ _ _ _ _ _ _ _ _ _ []
            name.length v h1 h2 hnl h3 h4 h5 h6 h7 hv ?_ ?_
          · intro _
            rw [read_longs_snd, List.drop_nil]
          · intro h
            obtain ⟨hd1, -⟩ := le_nat_take_one d _ _ hd h
            rw [read_longs_snd, List.drop_nil]
            refine link_entries_nil junk hj fuel v ?_ g.bump
            rcases Nat.eq_zero_or_pos v with h0v | h0v
            · exact Or.inl h0v
            · right
              have hes1 : storable_entries true es = true := by simpa [hd1] using hes
              cases es with
              | nil => simp at hvle; omega
              | cons e tl =>
                cases e with
                | word w => simp [storable_entries] at hes1
                | ptr c =>
                  have hc : 1 ≤ height c := by cases c; simp [height]
                  simp only [height_entries, max_le_iff] at hh
                  omega
      · -- the fields of the node are read in full
        have hP : (int_bytes id ++ (int_bytes name.length ++ (name ++ ([d] ++ ([r]
            ++ (int_bytes sz ++ int_bytes es.length)))))).length = 18 + name.length := by
          simp only [List.length_append, int_bytes_length, List.length_singleton]
          omega
        have hsplit : int_bytes id ++ (int_bytes name.length ++ (name ++ ([d] ++ ([r]
              ++ (int_bytes sz ++ (int_bytes es.length
                ++ (superblock_words slot es ++ (superblock_children slot es ++ tail))))))))
            = (int_bytes id ++ (int_bytes name.length ++ (name ++ ([d] ++ ([r]
                ++ (int_bytes sz ++ int_bytes es.length))))))
              ++ (superblock_words slot es ++ (superblock_children slot es ++ tail)) := by
          simp
        have htake : (superblock slot (Inode.mk id name d r sz es) ++ tail).take k
            = int_bytes id ++ (int_bytes name.length ++ (name ++ ([d] ++ ([r]
                ++ (int_bytes sz ++ (int_bytes es.length
                  ++ (superblock_words slot es ++ (superblock_children slot es ++ tail)).take
                      (k - (18 + name.length)))))))) := by
          rw [hstream, hsplit, List.take_append_eq_append_take, hP,
            List.take_of_length_le (by rw [hP]; exact hk)]
          simp
        have hrest : ∀ old : Nat → Nat, (read_longs old es.length
            ((superblock_words slot es ++ (superblock_children slot es ++ tail)).take
              (k - (18 + name.length)))).2
            = (superblock_children slot es ++ tail).take
                (k - (18 + name.length) - 8 * es.length) := by
          intro old
          rw [read_longs_snd, List.drop_take, ← superblock_words_length slot es, List.drop_left]
        rw [htake, create_inode_header junk fuel g id name d r sz es.length _ ⟨hid1, hid2⟩
          hname hd hr ⟨hsz1, hsz2⟩ hlen, hrest]
        by_cases hd1 : d = 1
        · have hes1 : storable_entries true es = true := by simpa [hd1] using hes
          have hcs : steady junk ∨ (superblock_children slot es).length
              ≤ k - (18 + name.length) - 8 * es.length + 8 * tail_words_children es := by
            rcases hcut with h | h
            · exact Or.inl h
            · right
              have htw1 : tail_words (Inode.mk id name d r sz es) = tail_words_children es := by
                simp only [tail_words, hd1, if_true]
              rw [htw1] at h
              omega
          obtain ⟨cs, g1, hl⟩ := link_entries_cut junk slot fuel ih es hes1 hh g.bump
            (k - (18 + name.length) - 8 * es.length) tail hcs
          refine ⟨Inode.mk id name d r sz cs, g1, ?_⟩
          rw [if_pos hd1, hl]
          simp only [Option.some.injEq, Prod.mk.injEq, true_and]
          congr 1
          omega
        · have hdf : (d == 1) = false := by simpa using hd1
          have hes0 : storable_entries false es = true := by rw [hdf] at hes; exact hes
          have hc0 := superblock_children_of_words slot es hes0
          rw [hc0, List.length_nil] at hlenT
          have hkk : k - (18 + name.length) - 8 * es.length
              = k - (superblock slot (Inode.mk id name d r sz es)).length := by omega
          rw [if_neg hd1, hc0, List.nil_append, hkk]
          exact ⟨_, _, rfl⟩

/-- The words of a file read from the words of its stream cut after `j`
bytes: those that are in the stream in full are the words stored. -/
theorem read_longs_cut (old : Nat → Nat) (slot : Inode → Nat) (es : List Slot)
    (h : storable_entries false es = true) (j : Nat) :
    (read_longs old es.length ((superblock_words slot es).take j)).1.take (j / 8)
      = es.take (j / 8) := by
  induction es generalizing old j with
  | nil => simp [read_longs]
  | cons e rest ih =>
    cases e with
    | ptr c => simp [storable_entries] at h
    | word w =>
      simp only [storable_entries, Bool.not_false, Bool.true_and, Bool.and_eq_true,
        decide_eq_true_eq] at h
      rcases Nat.lt_or_ge j 8 with hj | hj
      · have h0 : j / 8 = 0 := by omega
        rw [h0, List.take_zero, List.take_zero]
      · have h1 : j / 8 = (j - 8) / 8 + 1 := by omega
        have hw : (le_bytes 8 w).length ≤ j := by rw [le_bytes_length]; exact hj
        have hcut : (superblock_words slot (Slot.word w :: rest)).take j
            = le_bytes 8 w ++ (superblock_words slot rest).take (j - 8) := by
          simp only [superblock_words]
          rw [List.take_append_eq_append_take, List.take_of_length_le hw, le_bytes_length]
        rw [hcut, h1]
        simp only [List.length_cons, read_longs,
          fread_append_of_length old 8 _ _ (le_bytes_length 8 w), le_nat_le_bytes,
          List.take_succ_cons, ih _ h.2]
        rw [Nat.mod_eq_of_lt (by norm_num; exact h.1)]

/-- The stream of a file node cut behind the fields of the node: whatever
memory held, `create_inode` returns the file with the fields stored and with as
many words as the count says. -/
theorem file_cut_decodes (junk : Int → Nat → Nat → Nat) (slot : Inode → Nat) (fuel : Nat)
    (g : Sys) (t : Inode) (hs : storable t = true) (hd : t.is_directory ≠ 1) (k : Nat)
    (hk : 18 + t.name.length ≤ k) :
    create_inode junk (fuel + 1) g ((superblock slot t).take k)
      = some (Inode.mk t.id t.name t.is_directory t.is_readonly t.filesize
          (read_longs (junk g.inode_counter 7) t.entries.length
            ((superblock_words slot t.entries).take (k - (18 + t.name.length)))).1,
          g.bump, []) := by
  cases t with
  | mk id name d r sz es =>
    simp only [Inode.is_directory, Inode.name, Inode.entries, Inode.id, Inode.is_readonly,
      Inode.filesize] at hd hk ⊢
    simp only [storable, Bool.and_eq_true, decide_eq_true_eq] at hs
    obtain ⟨⟨⟨⟨⟨⟨⟨⟨hid1, hid2⟩, hname⟩, hd256⟩, hr⟩, hsz1⟩, hsz2⟩, hlen⟩, hes⟩ := hs
    have hdf : (d == 1) = false := by simpa using hd
    have hes0 : storable_entries false es = true := by rw [hdf] at hes; exact hes
    have hP : (int_bytes id ++ (int_bytes name.length ++ (name ++ ([d] ++ ([r]
        ++ (int_bytes sz ++ int_bytes es.length)))))).length = 18 + name.length := by
      simp only [List.length_append, int_bytes_length, List.length_singleton]
      omega
    have hstream : superblock slot (Inode.mk id name d r sz es)
        = (int_bytes id ++ (int_bytes name.length ++ (name ++ ([d] ++ ([r]
            ++ (int_bytes sz ++ int_bytes es.length))))))
          ++ superblock_words slot es := by
      simp [superblock, Nat.mod_eq_of_lt hd256, Nat.mod_eq_of_lt hr,
        superblock_children_of_words slot es hes0]
    have htake : (superblock slot (Inode.mk id name d r sz es)).take k
        = int_bytes id ++ (int_bytes name.length ++ (name ++ ([d] ++ ([r]
            ++ (int_bytes sz ++ (int_bytes es.length
              ++ (superblock_words slot es).take (k - (18 + name.length)))))))) := by
      rw [hstream, List.take_append_eq_append_take, hP,
        List.take_of_length_le (by rw [hP]; exact hk)]
      simp
    have hrest : (read_longs (junk g.inode_counter 7) es.length
        ((superblock_words slot es).take (k - (18 + name.length)))).2 = [] := by
      rw [read_longs_snd, List.drop_eq_nil_iff, List.length_take, superblock_words_length]
      omega
    rw [htake, create_inode_header junk fuel g id name d r sz es.length _ ⟨hid1, hid2⟩
      hname hd256 hr ⟨hsz1, hsz2⟩ hlen, if_neg hd, hrest]

theorem load_inodes_none_iff (junk : Int → Nat → Nat → Nat) (fuel : Nat) (g : Sys)
    (file : Option (List Nat)) :
    load_inodes junk fuel g file = none
      ↔ file = none ∨ ∃ s, file = some s ∧ create_inode junk fuel g s = none := by
  cases file with
  | none => simp [load_inodes]
  | some s =>
    simp only [load_inodes, false_or, Option.some.injEq, exists_eq_left', reduceCtorEq]
    cases create_inode junk fuel g s with
    | none => simp
    | some x => simp

/-- C11, amended: a stream that ends early is not rejected; `create_inode` and
`load_inodes` never look at what `fread` returns and have no error result.
Take the stream of a storable tree cut after `k` bytes, for any `k` (every
stream that ends before the encoding of the root is complete is one of them),
and any bound `fuel` on the depth that is not below the height of the tree.
`create_inode` returns a node, with the stream used up, and `load_inodes`
hands that node to its caller: whatever memory holds, when the cut is inside
the block indices that end the stream; and at every cut, when the locations
`name_len`, `is_directory` and `num_entries` hold zeros before they are
written (`steady`; the other locations hold anything).  When the root is a
file and the stream is cut behind its fields, the node has the id, name, flags
and size that are stored, as many words as the count says, and the words that
are in the stream in full, whatever memory holds.  And `load_inodes` returns
nothing only when the file cannot be opened or `create_inode` does not
return. -/
theorem truncated_stream_not_rejected (junk : Int → Nat → Nat → Nat) (slot : Inode → Nat)
    (t : Inode) (hs : storable t = true) (fuel : Nat) (hfuel : height t ≤ fuel) (g : Sys)
    (k : Nat) :
    (steady junk ∨ (superblock slot t).length ≤ k + 8 * tail_words t →
      ∃ n g1, create_inode junk fuel g ((superblock slot t).take k) = some (n, g1, [])
        ∧ load_inodes junk fuel g (some ((superblock slot t).take k)) = some (n, g1))
      ∧ (t.is_directory ≠ 1 → 18 + t.name.length ≤ k →
          ∃ ws, ws.length = t.entries.length
            ∧ ws.take ((k - (18 + t.name.length)) / 8)
                = t.entries.take ((k - (18 + t.name.length)) / 8)
            ∧ create_inode junk fuel g ((superblock slot t).take k)
                = some (Inode.mk t.id t.name t.is_directory t.is_readonly t.filesize ws,
                    g.bump, [])
            ∧ load_inodes junk fuel g (some ((superblock slot t).take k))
                = some (Inode.mk t.id t.name t.is_directory t.is_readonly t.filesize ws,
                    g.bump))
      ∧ (∀ file, load_inodes junk fuel g file = none
          ↔ file = none ∨ ∃ s, file = some s ∧ create_inode junk fuel g s = none) := by
  refine ⟨?_, ?_, load_inodes_none_iff junk fuel g⟩
  · intro hcut
    obtain ⟨n, g1, h⟩ := superblock_cut_decodes junk slot fuel t hs hfuel g k [] hcut
    rw [List.append_nil, List.take_nil] at h
    exact ⟨n, g1, h, by simp only [load_inodes, h]⟩
  · intro hd hk
    obtain ⟨f, rfl⟩ : ∃ f, fuel = f + 1 := by
      refine ⟨fuel - 1, ?_⟩
      have : 1 ≤ height t := by cases t; simp [height]
      omega
    have h := file_cut_decodes junk slot f g t hs hd k hk
    have hes0 : storable_entries false t.entries = true := by
      cases t with
      | mk id name d r sz es =>
        simp only [storable, Bool.and_eq_true, decide_eq_true_eq] at hs
        have hdf : (d == 1) = false := by simpa using hd
        have := hs.2
        rw [hdf] at this
        exact this
    exact ⟨_, read_longs_fst_length _ _ _, read_longs_cut _ slot t.entries hes0 _, h,
      by simp only [load_inodes, h]⟩

/-- The scenario cut after 100 of its 109 bytes, inside the block indices of
`"readme.txt"`, read with memory that holds zeros and with memory that holds
bytes 255, and the stream of `"readme.txt"` alone cut after 40 of its 52
bytes: a node is returned from each. -/
theorem truncated_stream_not_rejected_witness :
    storable ex_tree = true ∧ height ex_tree ≤ 3 ∧ steady zero_memory
      ∧ (∃ n g1, create_inode zero_memory 3 ex_sys ((superblock (fun _ => 0) ex_tree).take 100)
            = some (n, g1, [])
          ∧ load_inodes zero_memory 3 ex_sys (some ((superblock (fun _ => 0) ex_tree).take 100))
            = some (n, g1))
      ∧ (superblock (fun _ => 0) ex_tree).length ≤ 100 + 8 * tail_words ex_tree
      ∧ (∃ n g1, create_inode ones_memory 3 ex_sys ((superblock (fun _ => 0) ex_tree).take 100)
            = some (n, g1, [])
          ∧ load_inodes ones_memory 3 ex_sys (some ((superblock (fun _ => 0) ex_tree).take 100))
            = some (n, g1))
      ∧ storable ex_readme = true ∧ height ex_readme ≤ 1 ∧ ex_readme.is_directory ≠ 1
      ∧ 18 + ex_readme.name.length ≤ 40
      ∧ (∃ ws, ws.length = ex_readme.entries.length
          ∧ ws.take ((40 - (18 + ex_readme.name.length)) / 8)
              = ex_readme.entries.take ((40 - (18 + ex_readme.name.length)) / 8)
          ∧ create_inode ones_memory 1 ex_sys ((superblock (fun _ => 0) ex_readme).take 40)
              = some (Inode.mk ex_readme.id ex_readme.name ex_readme.is_directory
                  ex_readme.is_readonly ex_readme.filesize ws, ex_sys.bump, [])
          ∧ load_inodes ones_memory 1 ex_sys (some ((superblock (fun _ => 0) ex_readme).take 40))
              = some (Inode.mk ex_readme.id ex_readme.name ex_readme.is_directory
                  ex_readme.is_readonly ex_readme.filesize ws, ex_sys.bump)) :=
  ⟨by decide, by decide, fun _ _ => ⟨rfl, rfl, rfl⟩,
    (truncated_stream_not_rejected zero_memory (fun _ => 0) ex_tree (by decide) 3 (by decide)
      ex_sys 100).1 (Or.inl (fun _ _ => ⟨rfl, rfl, rfl⟩)),
    by decide,
    (truncated_stream_not_rejected ones_memory (fun _ => 0) ex_tree (by decide) 3 (by decide)
      ex_sys 100).1 (Or.inr (by decide)),
    by decide, by decide, by decide, by decide,
    (truncated_stream_not_rejected ones_memory (fun _ => 0) ex_readme (by decide) 1 (by decide)
      ex_sys 40).2.1 (by decide) (by decide)⟩

/-- The claim C11 as it is written fails on the stream of the scenario cut
after 100 of its 109 bytes, where the third block index of `"readme.txt"` and
the top byte of the second are missing: `create_inode` and `load_inodes`
return a tree, whatever memory holds.  The missing bytes are what the buffer
held: with zeros there the blocks are 7, 8, 0, and with bytes 255 they are 7,
18374686479671623688, 18446744073709551615. -/
theorem truncated_stream_counterexample :
    (superblock (fun _ => 0) ex_tree).length = 109
      ∧ create_inode zero_memory 3 ex_sys ((superblock (fun _ => 0) ex_tree).take 100)
          = some (ex_tree_cut, ⟨3, 0⟩, [])
      ∧ load_inodes zero_memory 3 ex_sys (some ((superblock (fun _ => 0) ex_tree).take 100))
          = some (ex_tree_cut, ⟨3, 0⟩)
      ∧ load_inodes ones_memory 3 ex_sys (some ((superblock (fun _ => 0) ex_tree).take 100))
          = some (ex_tree_blocks [7, 18374686479671623688, 18446744073709551615], ⟨3, 0⟩)
      ∧ (∀ junk : Int → Nat → Nat → Nat, ∃ n g1,
          load_inodes junk 3 ex_sys (some ((superblock (fun _ => 0) ex_tree).take 100))
            = some (n, g1)) := by
  refine ⟨rfl, rfl, rfl, rfl, fun junk => ?_⟩
  obtain ⟨n, g1, h⟩ := superblock_cut_decodes junk (fun _ => 0) 3 ex_tree (by decide)
    (by decide) ex_sys 100 [] (Or.inr (by decide))
  rw [List.append_nil] at h
  exact ⟨n, g1, by simp only [load_inodes, h]⟩

end InodeFS
